import Mathlib

/-!
Verification development for the jscontact-tests conformance engine.

This file gives a shallow embedding, in Lean 4, of the matching-and-
normalization core of the repository (`vcardutil.py` and `jscardutil.py`):
the text-format parser, the value matchers, the record canonicalizer, the
property matcher with its ALTID/group binding tables, the JSON-card
normalizer, the JSON-patch applier and the structural differ.  Python's
exceptions are rendered with `Except`; Python dicts are rendered as ordered
association lists (insertion order preserved; keys are unique in every
value a Python program can build); Python's stable `list.sort(key=...)` is
rendered with `List.insertionSort`, which implements the same stable
insertion discipline.  Theorems about the claims of the specification
follow the definitions.
-/

namespace JSContactTests

/-! ## vCard data model (`vcardutil.py`, `Param` / `Prop`) -/

/-- `Param` from vcardutil.py: a vCard parameter, name and raw value. -/
structure VParam where
  name : String
  value : String
deriving DecidableEq, Repr

/-- `Prop` from vcardutil.py: optional group, upper-cased name, parameter
list and raw value.  The group is `None` or a string in Python. -/
structure VProp where
  group : Option String
  name : String
  params : List VParam
  value : String
deriving DecidableEq, Repr

/-! ## Value specifications (`Value` subclasses and plain strings)

Expected values in patterns are either plain Python strings (exact
equality) or `Value` instances.  `AnyValue` is used both as the class
object itself (`match_value` tests `want is AnyValue`) and as an instance
`AnyValue()`; both behave identically (always match), so a single
constructor `anyV` renders both.  The `TextJSONValue` and `TimestampValue`
variants are not referenced by any claim and are not embedded. -/

/-- A slot of `ComponentsValue.comps`: a plain string or a set of
strings. -/
inductive CompSlot where
  | lit (s : String)
  | strset (ss : List String)
deriving DecidableEq, Repr

mutual
/-- `str | Value`: a plain string or a `Value` instance (or the `AnyValue`
class object). -/
inductive SVal where
  | pystr (s : String)
  | pyval (v : VSpec)

/-- The `Value` subclasses used by the matcher. -/
inductive VSpec where
  | anyV
  | nocase (s : String)
  | oneOf (vs : List SVal)
  | maybeQuoted (s : String)
  | maybeEscaped (s : String)
  | components (cs : List CompSlot)
end

mutual
def beqSVal : SVal → SVal → Bool
  | .pystr a, .pystr b => a == b
  | .pyval a, .pyval b => beqVSpec a b
  | _, _ => false

def beqVSpec : VSpec → VSpec → Bool
  | .anyV, .anyV => true
  | .nocase a, .nocase b => a == b
  | .oneOf as, .oneOf bs => beqSValList as bs
  | .maybeQuoted a, .maybeQuoted b => a == b
  | .maybeEscaped a, .maybeEscaped b => a == b
  | .components a, .components b => a == b
  | _, _ => false

def beqSValList : List SVal → List SVal → Bool
  | [], [] => true
  | a :: as, b :: bs => beqSVal a b && beqSValList as bs
  | _, _ => false
end

mutual
theorem beqSVal_iff : ∀ a b : SVal, beqSVal a b = true ↔ a = b
  | .pystr a, .pystr b => by simp [beqSVal]
  | .pystr _, .pyval _ => by simp [beqSVal]
  | .pyval _, .pystr _ => by simp [beqSVal]
  | .pyval a, .pyval b => by
    simp only [beqSVal, beqVSpec_iff a b, SVal.pyval.injEq]

theorem beqVSpec_iff : ∀ a b : VSpec, beqVSpec a b = true ↔ a = b
  | .anyV, b => by cases b <;> simp [beqVSpec]
  | .nocase a, b => by cases b <;> simp [beqVSpec]
  | .oneOf as, b => by
    cases b <;> simp [beqVSpec]
    rename_i bs
    exact beqSValList_iff as bs
  | .maybeQuoted a, b => by cases b <;> simp [beqVSpec]
  | .maybeEscaped a, b => by cases b <;> simp [beqVSpec]
  | .components a, b => by cases b <;> simp [beqVSpec]

theorem beqSValList_iff : ∀ as bs : List SVal, beqSValList as bs = true ↔ as = bs
  | [], [] => by simp [beqSValList]
  | [], _ :: _ => by simp [beqSValList]
  | _ :: _, [] => by simp [beqSValList]
  | a :: as, b :: bs => by
    simp [beqSValList, beqSVal_iff a b, beqSValList_iff as bs]
end

instance : DecidableEq SVal := fun a b => decidable_of_iff _ (beqSVal_iff a b)

instance : DecidableEq VSpec := fun a b => decidable_of_iff _ (beqVSpec_iff a b)

/-- `ParamMatch` from vcardutil.py. -/
structure ParamMatch where
  name : String
  value : SVal := .pyval .anyV
  mandatory : Bool := true
deriving DecidableEq

/-- `GroupMatch` from vcardutil.py. -/
structure GroupMatch where
  id : String
deriving DecidableEq, Repr

/-- `AltIdMatch` from vcardutil.py. -/
structure AltIdMatch where
  id : String
  mandatory : Bool := true
deriving DecidableEq, Repr

/-- `PropMatch` from vcardutil.py.  `params = None` and `group` being a
plain string or a `GroupMatch` are kept as in the source. -/
structure PropMatch where
  name : String
  value : SVal := .pyval .anyV
  params : Option (List ParamMatch) := none
  mandatory : Bool := true
  alt_id : Option AltIdMatch := none
  group : Option (String ⊕ GroupMatch) := none
deriving DecidableEq

/-- `PropMatchError` from vcardutil.py: `mismatched` sets both fields,
`unmatched` leaves `prop` as `None`, `unexpected` leaves `candidates` as
`None`. -/
structure PropMatchError where
  prop : Option VProp
  candidates : Option (List PropMatch)
deriving DecidableEq

/-- The exceptions the vCard half of the code can raise.  `Prop.fromstr`
can terminate on malformed input either with an explicit `ParseError` or
with an `IndexError` when it indexes one character past the end of the
line (`s[m.end()]`, `s[0]`). -/
inductive VErr where
  /-- `ParseError(s)`, carrying the rest of the line at the failure. -/
  | parseError (rest : String)
  /-- `IndexError` from indexing past the end of the line. -/
  | indexError
  /-- `ValueError("Missing BEGIN or END")` in `match_vcard`. -/
  | valueError
  /-- `VCardMatchError`, carrying the diagnostic list. -/
  | vcardMatchError (errs : List PropMatchError)
deriving DecidableEq

/-- Decidable equality of `Except` results, for evaluating the embedding
on concrete inputs. -/
instance {ε α : Type} [DecidableEq ε] [DecidableEq α] : DecidableEq (Except ε α) :=
  fun x y =>
    match x, y with
    | .ok a, .ok b => decidable_of_iff (a = b) (by simp)
    | .error a, .error b => decidable_of_iff (a = b) (by simp)
    | .ok _, .error _ => isFalse (by simp)
    | .error _, .ok _ => isFalse (by simp)

/-! ## Text-format parser (`Prop.fromstr` / `parse`) -/

/-- A character matched by the name pattern `[A-Za-z0-9-]`. -/
def isNameChar (c : Char) : Bool :=
  (c.isAlpha && c.toNat < 128) || c.isDigit || c = '-'

/-- Longest prefix of name characters, as `re.match("[A-Za-z0-9-]+", s)`.
Returns the matched characters and the rest. -/
def takeNameRun (cs : List Char) : List Char × List Char :=
  match cs with
  | [] => ([], [])
  | c :: rest =>
    if isNameChar c then
      let (m, r) := takeNameRun rest
      (c :: m, r)
    else ([], c :: rest)

/-- Python `str.upper()` restricted to ASCII, which is all the code
exercises. -/
def upperStr (s : String) : String :=
  String.mk (s.data.map Char.toUpper)

/-- Scan for the closing quote of the parameter-value pattern
`".*?(?<!\\)"`: the first `"` after the opener not preceded by a
backslash, with no newline in between (`.` does not match newlines).
`prev` is the previously scanned character; `acc` accumulates the content.
Returns the content including the closing quote, and the rest. -/
def takeQuoted (prev : Char) (cs : List Char) (acc : List Char) :
    Option (List Char × List Char) :=
  match cs with
  | [] => none
  | c :: rest =>
    if c = '\n' then none
    else if c = '"' && prev ≠ '\\' then some (acc ++ [c], rest)
    else takeQuoted c rest (acc ++ [c])

/-- The unquoted parameter-value branch `[^";:]*`: longest run of
characters other than `"`, `;`, `:`. -/
def takeUnquoted (cs : List Char) : List Char × List Char :=
  match cs with
  | [] => ([], [])
  | c :: rest =>
    if c = '"' || c = ';' || c = ':' then ([], c :: rest)
    else
      let (m, r) := takeUnquoted rest
      (c :: m, r)

/-- One step of the parameter loop of `Prop.fromstr`: match
`;([A-Za-z0-9-]+)=((".*?(?<!\\)")|[^";:]*)` at the start of `cs` (which
starts with `;` when this is called).  Returns the parameter and the rest,
or the `ParseError` remainder. -/
def parseParam (cs : List Char) : Except VErr (VParam × List Char) :=
  match cs with
  | ';' :: afterSemi =>
    if (takeNameRun afterSemi).1 = [] then .error (.parseError (String.mk cs))
    else
      let pname := upperStr (String.mk (takeNameRun afterSemi).1)
      match (takeNameRun afterSemi).2 with
      | '=' :: '"' :: rest =>
        -- regex alternation: try the quoted branch first; on failure the
        -- branch `[^";:]*` matches the empty string before the `"`
        match takeQuoted '"' rest [] with
        | some (q, r) => .ok (⟨pname, String.mk ('"' :: q)⟩, r)
        | none => .ok (⟨pname, ""⟩, '"' :: rest)
      | '=' :: afterEq =>
        .ok (⟨pname, String.mk (takeUnquoted afterEq).1⟩, (takeUnquoted afterEq).2)
      | _ => .error (.parseError (String.mk cs))
  | _ => .error (.parseError (String.mk cs))

theorem takeNameRun_snd_length (cs : List Char) :
    (takeNameRun cs).2.length ≤ cs.length := by
  induction cs with
  | nil => simp [takeNameRun]
  | cons c rest ih =>
    simp only [takeNameRun]
    split
    · simpa using Nat.le_succ_of_le ih
    · simp

theorem takeUnquoted_snd_length (cs : List Char) :
    (takeUnquoted cs).2.length ≤ cs.length := by
  induction cs with
  | nil => simp [takeUnquoted]
  | cons c rest ih =>
    simp only [takeUnquoted]
    split
    · simp
    · simpa using Nat.le_succ_of_le ih

theorem takeQuoted_snd_length (prev : Char) (cs : List Char)
    (acc : List Char) (q r : List Char)
    (h : takeQuoted prev cs acc = some (q, r)) : r.length < cs.length := by
  induction cs generalizing prev acc with
  | nil => simp [takeQuoted] at h
  | cons c rest ih =>
    simp only [takeQuoted] at h
    split at h
    · exact absurd h (by simp)
    · split at h
      · cases h
        simp
      · exact Nat.lt_succ_of_lt (ih _ _ h)

theorem parseParam_length (cs : List Char) (p : VParam) (rest : List Char)
    (h : parseParam cs = .ok (p, rest)) : rest.length < cs.length := by
  rw [parseParam.eq_def] at h
  split at h
  case _ afterSemi =>
    split at h
    case _ => exact absurd h (by simp)
    case _ hne =>
      split at h
      case _ rest2 heq =>
        have h2 := takeNameRun_snd_length afterSemi
        rw [heq] at h2
        split at h
        case _ q r hq =>
          have h1 := takeQuoted_snd_length _ _ _ _ _ hq
          cases h
          simp only [List.length_cons] at h2 ⊢
          omega
        case _ =>
          cases h
          simp only [List.length_cons] at h2 ⊢
          omega
      case _ afterEq hx heq =>
        have h2 := takeNameRun_snd_length afterSemi
        rw [heq] at h2
        have h1 := takeUnquoted_snd_length afterEq
        cases h
        simp only [List.length_cons] at h2 ⊢
        omega
      case _ => exact absurd h (by simp)
  case _ => exact absurd h (by simp)

/-- The parameter loop `while s[0] == ";"`, with a structural recursion
bound as first argument.  The bound never reaches 0 when started at
`cs.length`, because `parseParam` always consumes at least the leading
`;` (`parseParam_length`); see `parseParamsAux_bound_irrelevant`.  An
empty rest raises `IndexError` (`s[0]`). -/
def parseParamsAux : Nat → List Char → List VParam →
    Except VErr (List VParam × List Char)
  | _, [], _ => .error .indexError
  | 0, _ :: _, _ => .error .indexError  -- unreachable from `parseParams`
  | bound + 1, c :: tl, acc =>
    if c = ';' then
      match parseParam (c :: tl) with
      | .error e => .error e
      | .ok (p, rest) => parseParamsAux bound rest (acc ++ [p])
    else .ok (acc, c :: tl)

/-- The parameter loop `while s[0] == ";"` of `Prop.fromstr`. -/
def parseParams (cs : List Char) (acc : List VParam) :
    Except VErr (List VParam × List Char) :=
  parseParamsAux cs.length cs acc

/-- Any bound at least `cs.length` gives the same result, so
`parseParams` renders the unbounded Python loop faithfully. -/
theorem parseParamsAux_bound_irrelevant :
    ∀ b1 b2 cs acc, cs.length ≤ b1 → cs.length ≤ b2 →
      parseParamsAux b1 cs acc = parseParamsAux b2 cs acc := by
  intro b1
  induction b1 using Nat.strong_induction_on with
  | _ b1 ih =>
    intro b2 cs acc h1 h2
    match cs with
    | [] =>
      cases b1 <;> cases b2 <;> simp [parseParamsAux]
    | c :: tl =>
      match b1, b2 with
      | 0, _ => simp at h1
      | _ + 1, 0 => simp at h2
      | n1 + 1, n2 + 1 =>
        simp only [parseParamsAux]
        split
        · split
          · rfl
          next p rest hp =>
            have hlt := parseParam_length _ _ _ hp
            simp only [List.length_cons] at h1 h2 hlt
            exact ih n1 (by omega) n2 rest (acc ++ [p]) (by omega) (by omega)
        · rfl

/-- The tail of `Prop.fromstr` after group and name are parsed: the
parameter loop, then the `:`-terminated value.  An empty rest where `s[0]`
would be inspected raises `IndexError`. -/
def fromstrRest (group : Option String) (name : String)
    (afterName : List Char) : Except VErr VProp :=
  match parseParams afterName [] with
  | .error e => .error e
  | .ok (params, afterParams) =>
    match afterParams with
    | [] => .error .indexError  -- s[0] is out of range
    | c :: valueChars =>
      if c = ':' then .ok ⟨group, name, params, String.mk valueChars⟩
      else .error (.parseError (String.mk (c :: valueChars)))

/-- `Prop.fromstr`: parse one unfolded line into a property.  A line that
is a bare run of name characters raises `IndexError` (`s[m.end()]`). -/
def fromstr (s : String) : Except VErr VProp :=
  match takeNameRun s.data with
  | ([], _) => .error (.parseError (String.mk s.data))
  | (_, []) =>
    -- the whole line is the name: `s[m.end()]` is out of range
    .error .indexError
  | (m, c :: afterDot) =>
    if c = '.' then
      match takeNameRun afterDot with
      | ([], _) => .error (.parseError (String.mk afterDot))
      | (m2, rest2) =>
        fromstrRest (some (String.mk m)) (upperStr (String.mk m2)) rest2
    else
      fromstrRest none (upperStr (String.mk m)) (c :: afterDot)

/-- Line unfolding `re.sub(r"\r\n[ \t]", "", s)`: remove every
carriage-return, newline, space-or-tab triple, scanning left to right. -/
def unfoldChars (cs : List Char) : List Char :=
  match cs with
  | '\r' :: '\n' :: c :: rest =>
    if c = ' ' || c = '\t' then unfoldChars rest
    else '\r' :: unfoldChars ('\n' :: c :: rest)
  | c :: rest => c :: unfoldChars rest
  | [] => []

/-- `str.split("\r\n")`. -/
def splitCRLF (cs : List Char) : List (List Char) :=
  match cs with
  | '\r' :: '\n' :: rest => [] :: splitCRLF rest
  | c :: rest =>
    match splitCRLF rest with
    | line :: lines => (c :: line) :: lines
    | [] => [[c]]
  | [] => [[]]

/-- The list comprehension `[Prop.fromstr(l) for l in lines]`: parse each
line in order, propagating the first failure. -/
def parseLines : List (List Char) → Except VErr (List VProp)
  | [] => .ok []
  | l :: ls => do
    let p ← fromstr (String.mk l)
    let ps ← parseLines ls
    pure (p :: ps)

/-- `parse`: unfold, split on CRLF, drop a trailing empty line, parse each
line with `Prop.fromstr`. -/
def parse (s : String) : Except VErr (List VProp) :=
  let lines := splitCRLF (unfoldChars s.data)
  let lines :=
    if lines ≠ [] && lines.getLast? = some [] then lines.dropLast else lines
  parseLines lines

/-! ## Record canonicalizer (`normalize_vcard`)

Python's `list.sort(key=...)` is a stable sort; two consecutive stable
sorts, by value and then by name, are rendered with `List.insertionSort`,
whose `orderedInsert` places a new element before the first existing
element it is `≤` to, which is exactly the stable discipline. -/

/-- Python string comparison: lexicographic on code points. -/
def charListLe : List Char → List Char → Bool
  | [], _ => true
  | _ :: _, [] => false
  | a :: as, b :: bs =>
    if a < b then true else if b < a then false else charListLe as bs

/-- Python `str.__le__`. -/
def pyStrLe (a b : String) : Bool := charListLe a.data b.data

theorem charListLe_total : ∀ a b, charListLe a b = true ∨ charListLe b a = true
  | [], _ => .inl rfl
  | _ :: _, [] => .inr rfl
  | a :: as, b :: bs => by
    simp only [charListLe]
    rcases lt_trichotomy a b with h | h | h
    · left
      rw [if_pos h]
    · subst h
      simpa [lt_irrefl] using charListLe_total as bs
    · right
      rw [if_pos h]

theorem charListLe_trans : ∀ a b c, charListLe a b = true →
    charListLe b c = true → charListLe a c = true
  | [], _, _ => by intro _ _; rfl
  | _ :: _, [], _ => by simp [charListLe]
  | a :: as, b :: bs, [] => by simp [charListLe]
  | a :: as, b :: bs, c :: cs => by
    simp only [charListLe]
    intro h1 h2
    rcases lt_trichotomy a b with hab | hab | hab
    · rcases lt_trichotomy b c with hbc | hbc | hbc
      · rw [if_pos (lt_trans hab hbc)]
      · subst hbc
        rw [if_pos hab]
      · rw [if_pos hbc, if_neg (lt_asymm hbc)] at h2
        simp at h2
    · subst hab
      rcases lt_trichotomy a c with hac | hac | hac
      · rw [if_pos hac]
      · subst hac
        simp only [lt_irrefl, if_false] at h1 h2 ⊢
        exact charListLe_trans as bs cs h1 h2
      · rw [if_pos hac, if_neg (lt_asymm hac)] at h2
        simp at h2
    · rw [if_pos hab, if_neg (lt_asymm hab)] at h1
      simp at h1

theorem pyStrLe_total (a b : String) : pyStrLe a b = true ∨ pyStrLe b a = true :=
  charListLe_total a.data b.data

theorem pyStrLe_trans {a b c : String} (h1 : pyStrLe a b = true)
    (h2 : pyStrLe b c = true) : pyStrLe a c = true :=
  charListLe_trans a.data b.data c.data h1 h2

/-- Sort by the key `k` (`sort(key=attrgetter(...))`): the relation passed
to the stable insertion sort. -/
def leValue {α : Type} (k : α → String) (a b : α) : Prop :=
  pyStrLe (k a) (k b) = true

instance {α : Type} (k : α → String) : DecidableRel (leValue k) := fun a b =>
  inferInstanceAs (Decidable (pyStrLe (k a) (k b) = true))

instance {α : Type} (k : α → String) : IsTotal α (leValue k) :=
  ⟨fun a b => pyStrLe_total (k a) (k b)⟩

instance {α : Type} (k : α → String) : IsTrans α (leValue k) :=
  ⟨fun _ _ _ => pyStrLe_trans⟩

/-- Stable two-pass sort: by key `kv`, then by key `kn`, as the paired
Python `sort` calls do. -/
def sortTwoPass {α : Type} (kn kv : α → String) (l : List α) : List α :=
  List.insertionSort (leValue kn) (List.insertionSort (leValue kv) l)

/-- The lexicographic (kn, kv) order that the two stable passes realise:
strictly smaller primary key, or equal primary key and `≤` secondary
key. -/
def leLex {α : Type} (kn kv : α → String) (a b : α) : Prop :=
  ¬ pyStrLe (kn b) (kn a) = true ∨ (kn a = kn b ∧ pyStrLe (kv a) (kv b) = true)

/-- Sort one property's parameters by (name, value). -/
def sortPropParams (p : VProp) : VProp :=
  { p with params := sortTwoPass VParam.name VParam.value p.params }

/-- The sorting body of `normalize_vcard`: sort each property's
parameters by (name, value), then the properties by (name, value). -/
def coreSort (l : List VProp) : List VProp :=
  sortTwoPass VProp.name VProp.value (l.map sortPropParams)

/-- `normalize_vcard`: splice off a BEGIN/END pair when present with at
least one property in between, sort each remaining property's parameters
by (name, value), and sort the remaining properties by (name, value). -/
def normalize_vcard (vprops : List VProp) : List VProp :=
  if 2 < vprops.length ∧ (vprops.head?.map VProp.name) = some "BEGIN" ∧
      (vprops.getLast?.map VProp.name) = some "END" then
    vprops.take 1 ++ coreSort ((vprops.drop 1).dropLast) ++
      vprops.drop (vprops.length - 1)
  else
    coreSort vprops

/-! ## Value matchers (`Value` subclasses, `match_value`) -/

/-- `re.split` with the pattern `(?<!\\)sep`: split at every occurrence of
`sep` that is not preceded by a backslash.  `prev` is the previously
scanned character. -/
def splitUnescAux (sep : Char) (prev : Option Char) : List Char → List (List Char)
  | [] => [[]]
  | c :: rest =>
    if c = sep ∧ prev ≠ some '\\' then [] :: splitUnescAux sep (some c) rest
    else
      match splitUnescAux sep (some c) rest with
      | l :: ls => (c :: l) :: ls
      | [] => [[c]]

/-- Split a string on unescaped occurrences of `sep`. -/
def splitUnescaped (sep : Char) (s : String) : List String :=
  (splitUnescAux sep none s.data).map String.mk

/-- `re.sub(r"\\,", ",", val)`: replace every backslash-comma with a bare
comma, scanning left to right. -/
def replaceEscComma (s : String) : String :=
  String.mk (go s.data)
where
  go : List Char → List Char
    | '\\' :: ',' :: rest => ',' :: go rest
    | c :: rest => c :: go rest
    | [] => []

/-- Python set equality on sets of strings built from the two lists. -/
def setEqStr (xs ys : List String) : Bool :=
  xs.all (fun x => ys.contains x) && ys.all (fun y => xs.contains y)

/-- `ComponentsValue.match`: split the observed value on unescaped `;`,
require as many subcomponents as spec slots, then exact equality on
string slots and set equality (after splitting on unescaped `,`) on set
slots. -/
def matchComponents (comps : List CompSlot) (v : String) : Bool :=
  let subcomps := splitUnescaped ';' v
  if comps.length ≠ subcomps.length then false
  else
    (comps.zip subcomps).all fun ws =>
      match ws.1 with
      | .lit w => w == ws.2
      | .strset w => setEqStr (splitUnescaped ',' ws.2) w

mutual
/-- `Value.match` for each embedded `Value` subclass. -/
def matchVSpec : VSpec → String → Bool
  | .anyV, _ => true
  | .nocase s, v => upperStr s == upperStr v
  | .oneOf vs, v => matchOneOf vs v
  | .maybeQuoted s, v => (v == s) || (v == "\"" ++ s ++ "\"")
  | .maybeEscaped s, v => (s == v) || (s == replaceEscComma v)
  | .components cs, v => matchComponents cs v

/-- `OneOfValue.match`: first alternative that matches wins; a `Value`
alternative uses its own `match`, a plain string uses equality. -/
def matchOneOf : List SVal → String → Bool
  | [], _ => false
  | .pystr s :: rest, v => (s == v) || matchOneOf rest v
  | .pyval sp :: rest, v => matchVSpec sp v || matchOneOf rest v
end

/-- `match_value`: the `AnyValue` class object and `AnyValue()` instances
always match; other `Value` instances use their `match`; a plain string
requires equality. -/
def match_value (want : SVal) (obs : String) : Bool :=
  match want with
  | .pystr s => s == obs
  | .pyval v => matchVSpec v obs

/-! ## Association-list helpers for Python dicts

Python dicts preserve insertion order; assignment to an existing key keeps
its position, assignment to a new key appends, `del` removes the key. -/

/-- Dict lookup (`d.get(k)` / `d[k]`). -/
def alookup {β : Type} (t : List (String × β)) (k : String) : Option β :=
  (t.find? (fun e => e.1 == k)).map (·.2)

/-- Dict assignment `d[k] = v`. -/
def aset {β : Type} (t : List (String × β)) (k : String) (v : β) :
    List (String × β) :=
  match t with
  | [] => [(k, v)]
  | (k', v') :: rest =>
    if k' == k then (k', v) :: rest else (k', v') :: aset rest k v

/-- Dict deletion `del d[k]`. -/
def adel {β : Type} (t : List (String × β)) (k : String) :
    List (String × β) :=
  match t with
  | [] => []
  | (k', v') :: rest => if k' == k then rest else (k', v') :: adel rest k

/-- `defaultdict(list)` append: `d[k].append(v)` creating `k` on first
use. -/
def aappend {β : Type} (t : List (String × List β)) (k : String) (v : β) :
    List (String × List β) :=
  match t with
  | [] => [(k, [v])]
  | (k', vs) :: rest =>
    if k' == k then (k', vs ++ [v]) :: rest else (k', vs) :: aappend rest k v

/-! ## Property matcher (`PropMatch.match`, `match_vcard`)

The two binding dictionaries are threaded explicitly; `PropMatch.match`
can commit an ALTID binding and then still fail on the group check, and
that binding persists, exactly as with the mutated Python dicts. -/

/-- Group bindings: `group_by_id` maps symbolic ids to `prop.group`, which
may be `None`. -/
abbrev GTab := List (String × Option String)

/-- ALTID bindings: `altid_by_id` maps symbolic ids to ALTID strings. -/
abbrev ATab := List (String × String)

/-- Build `param_matches_byname` from the candidate's declared parameter
patterns. -/
def buildParamsByName (pms : List ParamMatch) : List (String × List ParamMatch) :=
  pms.foldl (fun acc pm => aappend acc pm.name pm) []

/-- First index of a parameter pattern whose value spec matches. -/
def findParamMatchIdx (pms : List ParamMatch) (v : String) : Option Nat :=
  pms.findIdx? (fun pm => match_value pm.value v)

/-- The parameter loop of `PropMatch.match`: each non-ALTID parameter of
the property must consume a distinct declared pattern of the same name;
returns the leftover table, or `none` for a failed candidate. -/
def paramLoop (byname : List (String × List ParamMatch)) :
    List VParam → Option (List (String × List ParamMatch))
  | [] => some byname
  | param :: rest =>
    if param.name == "ALTID" then paramLoop byname rest
    else
      match alookup byname param.name with
      | none => none
      | some pms =>
        if pms.isEmpty then none
        else
          match findParamMatchIdx pms param.value with
          | none => none
          | some i =>
            let pms' := pms.eraseIdx i
            let byname' :=
              if pms'.isEmpty then adel byname param.name
              else aset byname param.name pms'
            paramLoop byname' rest

/-- The group section of `PropMatch.match`.  An empty literal group string
is falsy in Python, so `if self.group:` skips the check for it. -/
def groupStep (pm : PropMatch) (p : VProp) (gtab : GTab) (atab : ATab) :
    Bool × GTab × ATab :=
  match pm.group with
  | none => (true, gtab, atab)
  | some (.inl s) =>
    if s = "" then (true, gtab, atab)
    else if p.group = some s then (true, gtab, atab) else (false, gtab, atab)
  | some (.inr gm) =>
    match alookup gtab gm.id with
    | some w => if p.group ≠ w then (false, gtab, atab) else (true, gtab, atab)
    | none =>
      if (gtab.map (·.2)).contains p.group then (false, gtab, atab)
      else (true, gtab ++ [(gm.id, p.group)], atab)

/-- `PropMatch.match`: value spec, parameter multiset, single-ALTID check,
ALTID consistency, group consistency.  Returns the verdict and the
possibly-updated binding tables. -/
def propMatchMatch (pm : PropMatch) (p : VProp) (gtab : GTab) (atab : ATab) :
    Bool × GTab × ATab :=
  if ¬ match_value pm.value p.value then (false, gtab, atab)
  else
    let byname := buildParamsByName (pm.params.getD [])
    match paramLoop byname p.params with
    | none => (false, gtab, atab)
    | some leftover =>
      if ¬ leftover.all (fun e => e.2.all (fun q => !q.mandatory)) then
        (false, gtab, atab)
      else
        let altids := p.params.filter (fun q => q.name == "ALTID")
        if 1 < altids.length then (false, gtab, atab)
        else
          match pm.alt_id with
          | none => groupStep pm p gtab atab
          | some am =>
            match altids with
            | [] =>
              if am.mandatory then (false, gtab, atab)
              else groupStep pm p gtab atab
            | a :: _ =>
              match alookup atab am.id with
              | some w =>
                if a.value ≠ w then (false, gtab, atab)
                else groupStep pm p gtab atab
              | none =>
                if (atab.map (·.2)).contains a.value then (false, gtab, atab)
                else groupStep pm p gtab (atab ++ [(am.id, a.value)])

/-- `default_matches` from vcardutil.py. -/
def default_matches : List PropMatch :=
  [⟨"PRODID", .pyval .anyV, none, false, none, none⟩,
   ⟨"REV", .pyval .anyV, none, false, none, none⟩,
   ⟨"UID", .pyval .anyV, none, true, none, none⟩,
   ⟨"VERSION", .pystr "4.0", none, true, none, none⟩,
   ⟨"FN", .pyval .anyV,
     some [⟨"DERIVED", .pyval (.nocase "TRUE"), false⟩], true, none, none⟩,
   ⟨"JSPROP", .pystr "\"1.0\"",
     some [⟨"JSPTR", .pystr "version", true⟩,
           ⟨"VALUE", .pyval (.nocase "TEXT"), false⟩], false, none, none⟩,
   ⟨"CREATED", .pyval .anyV, none, false, none, none⟩]

/-- Build `matches_by_name`: user patterns first, then every default
pattern whose name the user did not constrain. -/
def buildMatchesByName (wm dm : List PropMatch) : List (String × List PropMatch) :=
  let t := wm.foldl (fun acc pm => aappend acc pm.name pm) []
  let wantNames := wm.map (·.name)
  dm.foldl
    (fun acc pm => if wantNames.contains pm.name then acc else aappend acc pm.name pm)
    t

/-- Scan the candidate list in order; the first accepted candidate's index
is returned.  Failed candidates may still have mutated the binding tables,
which are threaded through. -/
def scanCands (p : VProp) : List PropMatch → GTab → ATab →
    Option Nat × GTab × ATab
  | [], g, a => (none, g, a)
  | pm :: rest, g, a =>
    let r := propMatchMatch pm p g a
    if r.1 then (some 0, r.2.1, r.2.2)
    else
      match scanCands p rest r.2.1 r.2.2 with
      | (some i, g', a') => (some (i + 1), g', a')
      | (none, g', a') => (none, g', a')

/-- The property loop of `match_vcard`: per property, look up candidates
by name (unexpected-property diagnostic if none), scan them, and either
consume the accepted candidate or record a mismatched-property
diagnostic. -/
def matchLoop : List VProp → List (String × List PropMatch) → GTab → ATab →
    List PropMatchError → List (String × List PropMatch) × List PropMatchError
  | [], mbn, _, _, errs => (mbn, errs)
  | p :: rest, mbn, g, a, errs =>
    match alookup mbn p.name with
    | none => matchLoop rest mbn g a (errs ++ [⟨some p, none⟩])
    | some cands =>
      match scanCands p cands g a with
      | (none, g', a') => matchLoop rest mbn g' a' (errs ++ [⟨some p, some cands⟩])
      | (some i, g', a') =>
        let cands' := cands.eraseIdx i
        let mbn' :=
          if cands'.isEmpty then adel mbn p.name else aset mbn p.name cands'
        matchLoop rest mbn' g' a' errs

/-- `match_vcard`: parse, require a BEGIN/END wrapper with at least one
property in between (else `ValueError`), canonicalize, strip the wrapper,
run the matcher, collect unmatched mandatory patterns, and raise
`VCardMatchError` iff any diagnostic was recorded. -/
def match_vcard (vcard : String) (want_matches : List PropMatch)
    (dm : List PropMatch := default_matches) : Except VErr Unit :=
  match parse vcard with
  | .error e => .error e
  | .ok props =>
    if props.length ≤ 2 ∨ ¬ (props.head?.map VProp.name = some "BEGIN") ∨
        ¬ (props.getLast?.map VProp.name = some "END") then
      .error .valueError
    else
      let nprops := (normalize_vcard props).drop 1 |>.dropLast
      let mbn := buildMatchesByName want_matches dm
      let res := matchLoop nprops mbn [] [] []
      let unmatched :=
        res.1.foldl (fun acc e => acc ++ e.2.filter (·.mandatory)) []
      let errs :=
        if unmatched.isEmpty then res.2 else res.2 ++ [⟨none, some unmatched⟩]
      if errs.isEmpty then .ok () else .error (.vcardMatchError errs)

/-- Whether a `match_vcard` run failed with the matcher's aggregate
`VCardMatchError` diagnostic (as opposed to succeeding or raising
`ParseError` / `IndexError` / `ValueError`). -/
def raisesVCardMatchError : Except VErr Unit → Bool
  | .error (.vcardMatchError _) => true
  | _ => false

/-! ## JSON data model (`jscardutil.py`)

Cards are arbitrarily nested JSON-like trees.  Python dicts are ordered
association lists; numbers are integers (the repository's cards use no
floats). -/

/-- A JSON-like value: the tree type `normalize_jscard`, the patch applier
and the differ operate on. -/
inductive JSON where
  | null
  | bool (b : Bool)
  | num (n : Int)
  | str (s : String)
  | arr (elts : List JSON)
  | obj (entries : List (String × JSON))

mutual
def beqJSON : JSON → JSON → Bool
  | .null, .null => true
  | .bool a, .bool b => a == b
  | .num a, .num b => a == b
  | .str a, .str b => a == b
  | .arr xs, .arr ys => beqJSONList xs ys
  | .obj xs, .obj ys => beqJSONObj xs ys
  | _, _ => false

def beqJSONList : List JSON → List JSON → Bool
  | [], [] => true
  | x :: xs, y :: ys => beqJSON x y && beqJSONList xs ys
  | _, _ => false

def beqJSONObj : List (String × JSON) → List (String × JSON) → Bool
  | [], [] => true
  | (k, v) :: xs, (k2, v2) :: ys => k == k2 && beqJSON v v2 && beqJSONObj xs ys
  | _, _ => false
end

mutual
theorem beqJSON_iff : ∀ a b : JSON, beqJSON a b = true ↔ a = b
  | .null, b => by cases b <;> simp [beqJSON]
  | .bool a, b => by cases b <;> simp [beqJSON]
  | .num a, b => by cases b <;> simp [beqJSON]
  | .str a, b => by cases b <;> simp [beqJSON]
  | .arr xs, b => by
    cases b <;> simp [beqJSON]
    rename_i ys
    exact beqJSONList_iff xs ys
  | .obj xs, b => by
    cases b <;> simp [beqJSON]
    rename_i ys
    exact beqJSONObj_iff xs ys

theorem beqJSONList_iff : ∀ xs ys : List JSON, beqJSONList xs ys = true ↔ xs = ys
  | [], [] => by simp [beqJSONList]
  | [], _ :: _ => by simp [beqJSONList]
  | _ :: _, [] => by simp [beqJSONList]
  | x :: xs, y :: ys => by
    simp [beqJSONList, beqJSON_iff x y, beqJSONList_iff xs ys]

theorem beqJSONObj_iff : ∀ xs ys : List (String × JSON),
    beqJSONObj xs ys = true ↔ xs = ys
  | [], [] => by simp [beqJSONObj]
  | [], _ :: _ => by simp [beqJSONObj]
  | _ :: _, [] => by simp [beqJSONObj]
  | (k, v) :: xs, (k2, v2) :: ys => by
    simp only [beqJSONObj, Bool.and_eq_true, beqJSON_iff v v2,
      beqJSONObj_iff xs ys, beq_iff_eq, List.cons.injEq, Prod.mk.injEq,
      and_assoc]
end

instance : DecidableEq JSON := fun a b => decidable_of_iff _ (beqJSON_iff a b)

/-- Python truthiness of a JSON value: `None`, `False`, `0`, `""`, `[]`
and `{}` are falsy. -/
def pyTruthy : JSON → Bool
  | .null => false
  | .bool b => b
  | .num n => n != 0
  | .str s => s != ""
  | .arr xs => !xs.isEmpty
  | .obj es => !es.isEmpty

mutual
/-- Python `==` on JSON values: dict comparison ignores insertion order,
`True == 1` and `False == 0`. -/
def pyEq : JSON → JSON → Bool
  | .null, .null => true
  | .bool a, .bool b => a == b
  | .num a, .num b => a == b
  | .bool a, .num n => (if a then (1 : Int) else 0) == n
  | .num n, .bool b => n == (if b then (1 : Int) else 0)
  | .str a, .str b => a == b
  | .arr xs, .arr ys => pyEqList xs ys
  | .obj xs, .obj ys => xs.length == ys.length && pyEqObj xs ys
  | _, _ => false

def pyEqList : List JSON → List JSON → Bool
  | [], [] => true
  | x :: xs, y :: ys => pyEq x y && pyEqList xs ys
  | _, _ => false

def pyEqObj : List (String × JSON) → List (String × JSON) → Bool
  | [], _ => true
  | (k, v) :: rest, ys =>
    (match alookup ys k with
     | some w => pyEq v w
     | none => false) && pyEqObj rest ys
end

/-- The exceptions the JSON half of the code can raise. -/
inductive PyErr where
  /-- `ValueError`: patch-path failures (`int()`, bad index, missing
  intermediate key). -/
  | valueError
  /-- `TypeError`: indexing or deleting into a value of the wrong type. -/
  | typeError
  /-- `AttributeError`: a missing method (`get`, `keys`, `sort`,
  `values`/`__iter__`, `items`). -/
  | attributeError
  /-- `KeyError` escaping uncaught (`p[0]` on a dict). -/
  | keyError
  /-- `IndexError` (`p[0]` on an empty sequence). -/
  | indexError
  /-- Modelling artifact: the structural-recursion bound of the
  localization recursion ran out; `normalize_jscard` supplies a bound
  large enough that a result is never this error for the cards the
  theorems quantify over. -/
  | fuelExhausted
deriving DecidableEq, Repr

/-- `int(s)`: an optional sign followed by digits.  (Python also accepts
surrounding whitespace and underscores; no claim depends on those.) -/
def pyInt (s : String) : Option Int :=
  let digitsVal := fun (ds : List Char) =>
    ds.foldl (fun acc c => acc * 10 + ((c.toNat - '0'.toNat : Nat) : Int)) 0
  match s.data with
  | [] => none
  | '-' :: ds =>
    if ds ≠ [] ∧ ds.all Char.isDigit then some (-(digitsVal ds)) else none
  | '+' :: ds =>
    if ds ≠ [] ∧ ds.all Char.isDigit then some (digitsVal ds) else none
  | ds => if ds.all Char.isDigit then some (digitsVal ds) else none

/-- Python list indexing with negative-index support. -/
def pyListGet {β : Type} (xs : List β) (i : Int) : Option β :=
  let j := if i < 0 then i + xs.length else i
  if 0 ≤ j ∧ j < xs.length then xs.get? j.toNat else none

/-- Replace the element a successful `pyListGet` addressed. -/
def pyListSet {β : Type} (xs : List β) (i : Int) (v : β) : List β :=
  let j := if i < 0 then i + xs.length else i
  xs.set j.toNat v

/-- `str.split(sep)` for a one-character separator. -/
def splitOnChar (sep : Char) : List Char → List (List Char)
  | [] => [[]]
  | c :: rest =>
    if c = sep then [] :: splitOnChar sep rest
    else
      match splitOnChar sep rest with
      | l :: ls => (c :: l) :: ls
      | [] => [[c]]

/-- `key.split("/")`: the raw slash-split path segments.  No `~1`/`~0`
escape decoding happens anywhere in the patch applier. -/
def pathSegs (key : String) : List String :=
  (splitOnChar '/' key.data).map String.mk

/-! ## Patch applier (`apply_patchobject`)

The descent loop only assigns when a dict key is missing at the final
segment; when every segment resolves, nothing is written.  An `int()`
failure or an out-of-range list index raises `ValueError`; indexing a
scalar or string raises `TypeError`, which escapes uncaught. -/

/-- One patch entry: descend `path`, creating the final key with `val`
only when it is missing in a dict; a missing non-final key is a
`ValueError`. -/
def applyEntry : JSON → List String → JSON → Except PyErr JSON
  | j, [], _ => .ok j
  | j, seg :: rest, val =>
    match j with
    | .arr xs =>
      match pyInt seg with
      | none => .error .valueError
      | some i =>
        match pyListGet xs i with
        | none => .error .valueError
        | some x =>
          match applyEntry x rest val with
          | .error e => .error e
          | .ok x' => .ok (.arr (pyListSet xs i x'))
    | .str _ => .error .typeError
    | .obj es =>
      match alookup es seg with
      | some v =>
        match applyEntry v rest val with
        | .error e => .error e
        | .ok v' => .ok (.obj (aset es seg v'))
      | none =>
        if rest = [] then .ok (.obj (aset es seg val))
        else .error .valueError
    | _ => .error .typeError

/-- The entry loop of `apply_patchobject`, in patch-map order; the first
failing entry aborts the rest. -/
def applyEntries : JSON → List (String × JSON) → Except PyErr JSON
  | j, [] => .ok j
  | j, (key, val) :: rest =>
    let path := pathSegs key
    if path = [] then .error .valueError  -- `if not path`: dead, split is never empty
    else
      match applyEntry j path val with
      | .error e => .error e
      | .ok j' => applyEntries j' rest

/-- `apply_patchobject`: iterate `pobj.items()` over the tree. -/
def apply_patchobject (jscard : JSON) (pobj : JSON) : Except PyErr JSON :=
  match pobj with
  | .obj entries => applyEntries jscard entries
  | _ => .error .attributeError  -- `pobj.items()` on a non-dict

/-! ## Canonical JSON serialization (`json.dumps(v, sort_keys=True)`)

Used only as the sort key for unordered component lists: default
separators `", "` and `": "`, keys sorted by the raw key string,
`ensure_ascii` escaping. -/

def hexDigit (n : Nat) : Char :=
  if n < 10 then Char.ofNat ('0'.toNat + n) else Char.ofNat ('a'.toNat + n - 10)

def hex4 (n : Nat) : List Char :=
  [hexDigit (n / 4096 % 16), hexDigit (n / 256 % 16),
   hexDigit (n / 16 % 16), hexDigit (n % 16)]

/-- `json.dumps` string-character escaping with `ensure_ascii=True`. -/
def escChar (c : Char) : List Char :=
  if c = '"' then ['\\', '"']
  else if c = '\\' then ['\\', '\\']
  else if c = '\n' then ['\\', 'n']
  else if c = '\r' then ['\\', 'r']
  else if c = '\t' then ['\\', 't']
  else if c.toNat = 8 then ['\\', 'b']
  else if c.toNat = 12 then ['\\', 'f']
  else if c.toNat < 32 ∨ 127 ≤ c.toNat then
    if c.toNat < 65536 then '\\' :: 'u' :: hex4 c.toNat
    else
      ('\\' :: 'u' :: hex4 (55296 + (c.toNat - 65536) / 1024)) ++
        ('\\' :: 'u' :: hex4 (56320 + (c.toNat - 65536) % 1024))
  else [c]

def dumpStr (s : String) : String :=
  String.mk ('"' :: s.data.flatMap escChar ++ ['"'])

/-- Join `", "`-separated pieces. -/
def joinComma : List String → String
  | [] => ""
  | [x] => x
  | x :: xs => x ++ ", " ++ joinComma xs

mutual
/-- `json.dumps(v, sort_keys=True)`.  Entries are serialized first and
then sorted by their raw key, which serializes values identically to
sorting first. -/
def dumps : JSON → String
  | .null => "null"
  | .bool true => "true"
  | .bool false => "false"
  | .num n => toString n
  | .str s => dumpStr s
  | .arr xs => "[" ++ joinComma (dumpsList xs) ++ "]"
  | .obj es =>
    "\x7b" ++ joinComma
      ((List.insertionSort (leValue Prod.fst) (dumpsEntries es)).map
        (fun p => dumpStr p.1 ++ ": " ++ p.2)) ++ "\x7d"

def dumpsList : List JSON → List String
  | [] => []
  | x :: xs => dumps x :: dumpsList xs

def dumpsEntries : List (String × JSON) → List (String × String)
  | [] => []
  | (k, v) :: es => (k, dumps v) :: dumpsEntries es
end

/-! ## `remove_defaultval` -/

/-- `remove_defaultval` applied to a one-character string, as produced by
iterating a string under a `*` segment: such a value is truthy and
supports neither `.get` nor `.values`, so the outcome depends only on the
remaining path — a further `*` with a non-empty tail iterates the
character (yielding itself) and anything else raises `AttributeError`;
the default value is never consulted. -/
def rdvCharResult : List String → Except PyErr Unit
  | [] => .ok ()
  | name :: sub =>
    if name = "*" ∧ sub ≠ [] then rdvCharResult sub
    else .error .attributeError

/-- Iterating a string under a `*` segment runs the recursion on each of
its characters; the string itself is unchanged. -/
def rdvChars (subpath : List String) : List Char → Except PyErr Unit
  | [] => .ok ()
  | _ :: rest =>
    match rdvCharResult subpath with
    | .error e => .error e
    | .ok _ => rdvChars subpath rest

mutual
/-- `remove_defaultval(jsobj, path, defaultval)`: follow the path,
treating `*` with a non-empty tail as "every value of this map / element
of this sequence", and delete a final dict key whose value `==` the
default.  Falsy nodes and `None` from `dict.get` end the recursion;
non-dict nodes where `.get` or iteration is needed raise
`AttributeError`. -/
def remove_defaultval : (path : List String) → (j : JSON) → JSON → Except PyErr JSON
  | [], j, _ => .ok j
  | name :: subpath, j, d =>
    if ¬ pyTruthy j then .ok j
    else if name = "*" ∧ subpath ≠ [] then
      match j with
      | .obj es => (rdvEntries subpath es d).map .obj
      | .arr xs => (rdvElems subpath xs d).map .arr
      | .str s => (rdvChars subpath s.data).map (fun _ => .str s)
      | _ => .error .attributeError  -- neither `.values()` nor `__iter__`
    else if subpath ≠ [] then
      match j with
      | .obj es => (rdvDescend subpath name es d).map .obj
      | _ => .error .attributeError  -- no `.get`
    else
      match j with
      | .obj es =>
        match alookup es name with
        | some v => if pyEq v d then .ok (.obj (adel es name)) else .ok j
        | none =>
          -- `.get` returned `None`; `None == d` only for a null default,
          -- and then `del` raises `KeyError`
          if pyEq .null d then .error .keyError else .ok j
      | _ => .error .attributeError

/-- `remove_defaultval(jsobj.get(name), subpath, defaultval)` followed by
the in-place update: descend into the first entry named `name`; when the
key is missing, `.get` returns `None` and the recursion returns
immediately. -/
def rdvDescend : List String → String → (es : List (String × JSON)) → JSON →
    Except PyErr (List (String × JSON))
  | _, _, [], _ => .ok []
  | subpath, name, (k, v) :: rest, d =>
    if k == name then
      match remove_defaultval subpath v d with
      | .error e => .error e
      | .ok v' => .ok ((k, v') :: rest)
    else
      match rdvDescend subpath name rest d with
      | .error e => .error e
      | .ok rest' => .ok ((k, v) :: rest')
termination_by structural _ _ es => es

def rdvEntries : List String → (es : List (String × JSON)) → JSON →
    Except PyErr (List (String × JSON))
  | _, [], _ => .ok []
  | subpath, (k, v) :: rest, d =>
    match remove_defaultval subpath v d with
    | .error e => .error e
    | .ok v' =>
      match rdvEntries subpath rest d with
      | .error e => .error e
      | .ok rest' => .ok ((k, v') :: rest')
termination_by structural _ es => es

def rdvElems : List String → (xs : List JSON) → JSON → Except PyErr (List JSON)
  | _, [], _ => .ok []
  | subpath, v :: rest, d =>
    match remove_defaultval subpath v d with
    | .error e => .error e
    | .ok v' =>
      match rdvElems subpath rest d with
      | .error e => .error e
      | .ok rest' => .ok (v' :: rest')

end

/-- The fixed `default_values` table of `normalize_jscard`, in source
order. -/
def default_values : List (List String × JSON) :=
  [(["addresses", "*", "@type"], .str "Address"),
   (["addresses", "*", "isOrdered"], .bool false),
   (["addresses", "*", "components", "*", "@type"], .str "AddressComponent"),
   (["anniversaries", "*", "@type"], .str "Anniversary"),
   (["anniversaries", "*", "date", "@type"], .str "PartialDate"),
   (["anniversaries", "*", "place", "@type"], .str "Address"),
   (["calendars", "*", "@type"], .str "Calendar"),
   (["cryptoKeys", "*", "@type"], .str "CryptoKey"),
   (["directories", "*", "@type"], .str "Directory"),
   (["emails", "*", "@type"], .str "EmailAddress"),
   (["kind"], .str "individual"),
   (["links", "*", "@type"], .str "Link"),
   (["media", "*", "@type"], .str "Media"),
   (["name", "@type"], .str "Name"),
   (["name", "isOrdered"], .bool false),
   (["name", "components", "*", "@type"], .str "NameComponent"),
   (["nicknames", "*", "@type"], .str "Nickname"),
   (["notes", "*", "@type"], .str "Note"),
   (["notes", "*", "author", "@type"], .str "Author"),
   (["onlineServices", "*", "@type"], .str "OnlineService"),
   (["organizations", "*", "@type"], .str "Organization"),
   (["organizations", "*", "units", "*", "@type"], .str "OrgUnit"),
   (["personalInfo", "*", "@type"], .str "PersonalInfo"),
   (["phones", "*", "@type"], .str "Phone"),
   (["preferredLanguages", "*", "@type"], .str "LanguagePref"),
   (["relatedTo", "*", "@type"], .str "Relation"),
   (["schedulingAddresses", "*", "@type"], .str "SchedulingAddress"),
   (["speakToAs", "@type"], .str "SpeakToAs"),
   (["speakToAs", "pronouns", "*", "@type"], .str "Pronouns"),
   (["titles", "*", "@type"], .str "Title"),
   (["titles", "*", "kind"], .str "title")]

/-- Fold the default-value table over the card. -/
def rdvTable (entries : List (List String × JSON)) (j : JSON) :
    Except PyErr JSON :=
  match entries with
  | [] => .ok j
  | (p, d) :: rest =>
    match remove_defaultval p j d with
    | .error e => .error e
    | .ok j' => rdvTable rest j'

/-! ## `sort_unordered_components` and friends -/

/-- `comps.sort(key=lambda v: json.dumps(v, sort_keys=True))`. -/
def sortByDumps (xs : List JSON) : List JSON :=
  List.insertionSort (leValue dumps) xs

/-- `sort_unordered_components(jsobj)`: when `isOrdered` is falsy and a
truthy `components` list exists, sort it by canonical serialization; a
missing `components` key is a caught `KeyError`. -/
def sort_unordered_components (j : JSON) : Except PyErr JSON :=
  match j with
  | .obj es =>
    if ¬ pyTruthy ((alookup es "isOrdered").getD (.bool false)) then
      match alookup es "components" with
      | none => .ok j  -- KeyError: pass
      | some comps =>
        if pyTruthy comps then
          match comps with
          | .arr xs => .ok (.obj (aset es "components" (.arr (sortByDumps xs))))
          | _ => .error .attributeError  -- `.sort` on a non-list
        else .ok j
    else .ok j
  | _ => .error .attributeError  -- `.get` on a non-dict

/-- Run an effectful transform over a dict's values, keys unchanged, as
`for id in d.keys(): f(d[id])` with in-place mutation does. -/
def mapEntriesExcept (f : JSON → Except PyErr JSON) :
    List (String × JSON) → Except PyErr (List (String × JSON))
  | [] => .ok []
  | (k, v) :: rest =>
    match f v with
    | .error e => .error e
    | .ok v' =>
      match mapEntriesExcept f rest with
      | .error e => .error e
      | .ok rest' => .ok ((k, v') :: rest')

/-- The `name` / `addresses` sorting step of `normalize_jscard`. -/
def sortNameAddr (j : JSON) : Except PyErr JSON :=
  match j with
  | .obj es =>
    match
      (match alookup es "name" with
       | none => Except.ok es
       | some v =>
         match sort_unordered_components v with
         | .error e => .error e
         | .ok v' => .ok (aset es "name" v'))
    with
    | .error e => .error e
    | .ok es1 =>
      match alookup es1 "addresses" with
      | none => .ok (.obj es1)
      | some (.obj addrs) =>
        match mapEntriesExcept sort_unordered_components addrs with
        | .error e => .error e
        | .ok addrs' => .ok (.obj (aset es1 "addresses" (.obj addrs')))
      | some _ => .error .attributeError  -- `.keys()` on a non-dict
  | _ => .error .typeError  -- unreachable: the card is a dict here

/-- Python iteration over a JSON value: dict keys, list elements, string
characters; scalars raise `TypeError`. -/
def pyIter : JSON → Except PyErr (List JSON)
  | .obj es => .ok (es.map (fun e => .str e.1))
  | .arr xs => .ok xs
  | .str s => .ok (s.data.map (fun c => .str (String.mk [c])))
  | _ => .error .typeError

/-- `p[0]` for the `vCardProps` filter. -/
def pyGetItem0 : JSON → Except PyErr JSON
  | .str s =>
    match s.data with
    | [] => .error .indexError
    | c :: _ => .ok (.str (String.mk [c]))
  | .arr xs =>
    match xs with
    | [] => .error .indexError
    | x :: _ => .ok x
  | .obj _ => .error .keyError  -- `d[0]`: our objects have string keys
  | _ => .error .typeError

/-- `[p for p in jscard["vCardProps"] if p[0] != "version"]`. -/
def filterVCardProps : List JSON → Except PyErr (List JSON)
  | [] => .ok []
  | p :: rest =>
    match pyGetItem0 p with
    | .error e => .error e
    | .ok p0 =>
      match filterVCardProps rest with
      | .error e => .error e
      | .ok rest' =>
        .ok (if pyEq p0 (.str "version") then rest' else p :: rest')

/-- The `vCardProps` step of `normalize_jscard`: drop entries whose first
element is the `version` tag, and the whole key when nothing remains. -/
def vcardPropsStage (j : JSON) : Except PyErr JSON :=
  match j with
  | .obj es =>
    match alookup es "vCardProps" with
    | none => .ok j
    | some v =>
      match pyIter v with
      | .error e => .error e
      | .ok items =>
        match filterVCardProps items with
        | .error e => .error e
        | .ok props =>
          if props.isEmpty then .ok (.obj (adel es "vCardProps"))
          else .ok (.obj (aset es "vCardProps" (.arr props)))
  | _ => .error .typeError  -- unreachable: the card is a dict here

mutual
/-- Total node count: the recursion bound for the fueled functions
below. -/
def jsize : JSON → Nat
  | .obj es => jsizeEntries es + 1
  | .arr xs => jsizeList xs + 1
  | _ => 1

def jsizeEntries : List (String × JSON) → Nat
  | [] => 0
  | (_, v) :: rest => jsize v + jsizeEntries rest + 1

def jsizeList : List JSON → Nat
  | [] => 0
  | v :: rest => jsize v + jsizeList rest + 1
end

/-! ## `normalize_vcardparams`

The tree is modified (the `group` key under a `vCardParams` map is
deleted) before its values are recursed into, so the recursion is not
structural; `nvpF` and its helpers consume an explicit step bound, one
step per node and list element, and `normalize_vcardparams` supplies a
bound the recursion can never exhaust. -/

mutual
/-- `normalize_vcardparams(jsobj)` with an explicit depth bound: in a
map, delete `group` under a `vCardParams` map (deleting `vCardParams`
itself when it becomes empty; a non-map `vCardParams` raises
`TypeError`), then recurse into the remaining values; in a sequence other
than a string, recurse into the elements. -/
def nvpF : Nat → JSON → Except PyErr JSON
  | 0, _ => .error .fuelExhausted  -- unreachable with the depth bound
  | fuel + 1, j =>
    match j with
    | .obj es =>
      match
        ((match alookup es "vCardParams" with
         | none => Except.ok es  -- KeyError: pass
         | some (.obj ps) =>
           match alookup ps "group" with
           | none => Except.ok es  -- `del` raises KeyError: pass
           | some _ =>
             let ps' := adel ps "group"
             if ps'.isEmpty then .ok (adel es "vCardParams")
             else .ok (aset es "vCardParams" (.obj ps'))
         | some _ => .error .typeError) :
           Except PyErr (List (String × JSON)))  -- `del` into a non-dict
      with
      | .error e => .error e
      | .ok es1 =>
        match nvpEntriesF fuel es1 with
        | .error e => .error e
        | .ok es2 => .ok (.obj es2)
    | .arr xs =>
      match nvpElemsF fuel xs with
      | .error e => .error e
      | .ok xs' => .ok (.arr xs')
    | j => .ok j  -- strings and scalars: no-op

def nvpEntriesF : Nat → List (String × JSON) →
    Except PyErr (List (String × JSON))
  | 0, _ => .error .fuelExhausted  -- unreachable with the size bound
  | _ + 1, [] => .ok []
  | fuel + 1, (k, v) :: rest =>
    match nvpF fuel v with
    | .error e => .error e
    | .ok v' =>
      match nvpEntriesF fuel rest with
      | .error e => .error e
      | .ok rest' => .ok ((k, v') :: rest')

def nvpElemsF : Nat → List JSON → Except PyErr (List JSON)
  | 0, _ => .error .fuelExhausted  -- unreachable with the size bound
  | _ + 1, [] => .ok []
  | fuel + 1, v :: rest =>
    match nvpF fuel v with
    | .error e => .error e
    | .ok v' =>
      match nvpElemsF fuel rest with
      | .error e => .error e
      | .ok rest' => .ok (v' :: rest')
end

/-- `normalize_vcardparams` with its step bound filled in. -/
def normalize_vcardparams (j : JSON) : Except PyErr JSON :=
  nvpF (jsize j + 1) j

/-! ## `normalize_jscard` -/

/-- The four in-place steps of `normalize_jscard` that run between
detaching and re-resolving `localizations`: default-value elision,
unordered-component sorting, the `vCardProps` filter, and the
`vCardParams` strip. -/
def normalizeStages (j : JSON) : Except PyErr JSON :=
  match rdvTable default_values j with
  | .error e => .error e
  | .ok j1 =>
    match sortNameAddr j1 with
    | .error e => .error e
    | .ok j2 =>
      match vcardPropsStage j2 with
      | .error e => .error e
      | .ok j3 => normalize_vcardparams j3

mutual
/-- `normalize_jscard(jscard)` with an explicit bound on the localization
recursion: pop `localizations`, run the four stages, then replace each
locale's patch object with the deep-copied, patched, recursively
normalized card — keeping the original patch object when the patch raises
`ValueError` — and reattach the map. -/
def normalizeF : Nat → JSON → Except PyErr JSON
  | 0, _ => .error .fuelExhausted
  | fuel + 1, j =>
    match j with
    | .obj es0 =>
      let loc := alookup es0 "localizations"
      let es1 := adel es0 "localizations"
      match normalizeStages (.obj es1) with
      | .error e => .error e
      | .ok (.obj es5) =>
        match loc with
        | none => .ok (.obj es5)
        | some locv =>
          if pyTruthy locv then
            match locv with
            | .obj locs =>
              match locEntriesF fuel (.obj es5) locs with
              | .error e => .error e
              | .ok locs' => .ok (.obj (aset es5 "localizations" (.obj locs')))
            | _ => .error .attributeError  -- `list(localizations.keys())`
          else .ok (.obj es5)
      | .ok _ => .error .typeError  -- unreachable: the stages keep a dict a dict
    | _ => .error .attributeError  -- `jscard.pop` on a non-dict

/-- The per-locale loop: `try: apply; normalize; store except ValueError:
pass`. -/
def locEntriesF : Nat → JSON → List (String × JSON) →
    Except PyErr (List (String × JSON))
  | 0, _, _ => .error .fuelExhausted  -- unreachable with the size bound
  | _ + 1, _, [] => .ok []
  | fuel + 1, base, (l, p) :: rest =>
    match
      ((match apply_patchobject base p with
       | .error e => .error e
       | .ok patched => normalizeF fuel patched) : Except PyErr JSON)
    with
    | .error .valueError =>
      -- keep the invalid patch object
      match locEntriesF fuel base rest with
      | .error e => .error e
      | .ok rest' => .ok ((l, p) :: rest')
    | .error e => .error e
    | .ok r =>
      match locEntriesF fuel base rest with
      | .error e => .error e
      | .ok rest' => .ok ((l, r) :: rest')
end

/-- `normalize_jscard` with the localization-recursion bound filled in.
The Python recursion terminates because every value a patch inserts comes
from the (finite) patch object itself; the bound dominates that nesting
for every card the theorems below quantify over, and every `.ok` result
is independent of it. -/
def normalize_jscard (j : JSON) : Except PyErr JSON :=
  normalizeF (2 * jsize j + 2) j

/-! ## Structural differ (`encode_path`, `diff_objs`, `diff_list`) -/

def replTilde : List Char → List Char
  | '~' :: r => '~' :: '0' :: replTilde r
  | c :: r => c :: replTilde r
  | [] => []

def replSlash : List Char → List Char
  | '/' :: r => '~' :: '1' :: replSlash r
  | c :: r => c :: replSlash r
  | [] => []

/-- `p.replace("~", "~0").replace("/", "~1")`. -/
def escapeSeg (s : String) : String :=
  String.mk (replSlash (replTilde s.data))

/-- Join `"/"`-separated pieces. -/
def joinSlash : List String → String
  | [] => ""
  | [x] => x
  | x :: xs => x ++ "/" ++ joinSlash xs

/-- `encode_path(segs)`: raw segments under a leading `localizations`,
escaped segments otherwise. -/
def encode_path (segs : List String) : String :=
  if segs.head? = some "localizations" then joinSlash segs
  else joinSlash (segs.map escapeSeg)

/-- `JSPropDiff`: a path-tagged difference; `a_val` is the expected side,
`b_val` the actual side, and an absent side means missing/unexpected. -/
structure JSPropDiff where
  path : String
  a_val : Option JSON := none
  b_val : Option JSON := none
deriving DecidableEq

/-- The "keys only in `a`" diffs of `diff_objs`: expected side only.
(Python iterates the key sets in unspecified set order; the diffs are
produced here in key order of the owning map.) -/
def aonlyDiffs (ea eb : List (String × JSON)) (segs : List String) :
    List JSPropDiff :=
  (ea.filter (fun e => ¬ (eb.map Prod.fst).contains e.1)).map
    (fun e => ⟨encode_path (segs ++ [e.1]), some e.2, none⟩)

/-- The "keys only in `b`" diffs of `diff_objs`: actual side only. -/
def bonlyDiffs (ea eb : List (String × JSON)) (segs : List String) :
    List JSPropDiff :=
  (eb.filter (fun e => ¬ (ea.map Prod.fst).contains e.1)).map
    (fun e => ⟨encode_path (segs ++ [e.1]), none, some e.2⟩)

mutual
/-- The shared-key loop of `diff_objs`. -/
def diffShared (ea : List (String × JSON)) (eb : List (String × JSON))
    (segs : List String) : List JSPropDiff :=
  match ea with
  | [] => []
  | (k, v) :: rest =>
    (if (eb.map Prod.fst).contains k then
      diffPair v ((alookup eb k).getD .null) (segs ++ [k])
    else []) ++ diffShared rest eb segs

/-- The shape dispatch both `diff_objs` and `diff_list` perform: two maps
recurse as `diff_objs` does, two non-string sequences recurse
element-wise as `diff_list` does, anything else is a scalar
comparison. -/
def diffPair (v w : JSON) (segs : List String) : List JSPropDiff :=
  match v, w with
  | .obj e1, .obj e2 =>
    aonlyDiffs e1 e2 segs ++ bonlyDiffs e1 e2 segs ++ diffShared e1 e2 segs
  | .arr x1, .arr x2 =>
    if x1.length ≠ x2.length then
      [⟨encode_path segs, some (.arr x1), some (.arr x2)⟩]
    else diffElems x1 x2 0 segs
  | v, w => if ¬ pyEq v w then [⟨encode_path segs, some v, some w⟩] else []

/-- Element-wise loop of `diff_list`, tracking the index for the path. -/
def diffElems (xs ys : List JSON) (i : Nat) (segs : List String) :
    List JSPropDiff :=
  match xs, ys with
  | x :: xrest, y :: yrest =>
    diffPair x y (segs ++ [toString i]) ++ diffElems xrest yrest (i + 1) segs
  | _, _ => []
end

/-- `diff_objs(a, b, diffs, segs)`: keys only in `a` produce
expected-only diffs, keys only in `b` produce actual-only diffs, shared
keys dispatch on the value shapes. -/
def diff_objs (ea eb : List (String × JSON)) (segs : List String) :
    List JSPropDiff :=
  aonlyDiffs ea eb segs ++ bonlyDiffs ea eb segs ++ diffShared ea eb segs

/-- `diff_list(a, b, diffs, segs)`: unequal lengths yield exactly one
diff carrying both full lists; equal lengths recurse element-wise. -/
def diff_list (xs ys : List JSON) (segs : List String) : List JSPropDiff :=
  if xs.length ≠ ys.length then
    [⟨encode_path segs, some (.arr xs), some (.arr ys)⟩]
  else diffElems xs ys 0 segs

/-! ## Well-formedness: Python dicts have unique keys -/

/-- No duplicate keys. -/
def nodupStr : List String → Bool
  | [] => true
  | k :: rest => !rest.any (fun k2 => k2 == k) && nodupStr rest

mutual
/-- Every object in the tree has pairwise distinct keys — true of every
value a Python program can build. -/
def wfJSON : JSON → Bool
  | .obj es => nodupStr (es.map Prod.fst) && wfEntries es
  | .arr xs => wfList xs
  | _ => true

def wfEntries : List (String × JSON) → Bool
  | [] => true
  | (_, v) :: rest => wfJSON v && wfEntries rest

def wfList : List JSON → Bool
  | [] => true
  | v :: rest => wfJSON v && wfList rest
end

/-! ## Invariants for the idempotence analysis of `normalize_jscard`

`noVCP` says no object in the tree carries a `vCardParams` key (so the
`normalize_vcardparams` stage is the identity); `scalarSB` picks out the
string/boolean default values of the `default_values` table; `rdvFixed`
characterises the trees on which `remove_defaultval` is the identity;
`subJ` relates a tree to one obtained from it by deleting dict entries,
permuting or dropping sequence elements, and transforming the surviving
values likewise — the shape of change the normalization stages perform,
under which `rdvFixed` is stable. -/

mutual
/-- No object anywhere in the tree has a `vCardParams` key. -/
def noVCP : JSON → Bool
  | .obj es => noVCPEntries es
  | .arr xs => noVCPList xs
  | _ => true

def noVCPEntries : List (String × JSON) → Bool
  | [] => true
  | (k, v) :: rest => !(k == "vCardParams") && noVCP v && noVCPEntries rest

def noVCPList : List JSON → Bool
  | [] => true
  | v :: rest => noVCP v && noVCPList rest
end

/-- String and boolean scalars: the shapes of every default in
`default_values`.  Such a value is `==` to no object, sequence or
`None`. -/
def scalarSB : JSON → Bool
  | .str _ => true
  | .bool _ => true
  | _ => false

/-- The trees `remove_defaultval path · d` leaves unchanged (and
succeeds on): mirrors the branching of `remove_defaultval`, with the
final `del` impossible because the key is absent or its value differs
from the default. -/
def rdvFixed : List String → JSON → JSON → Bool
  | [], _, _ => true
  | name :: subpath, j, d =>
    if ¬ pyTruthy j then true
    else if name = "*" ∧ subpath ≠ [] then
      match j with
      | .obj es => es.all (fun e => rdvFixed subpath e.2 d)
      | .arr xs => xs.all (fun x => rdvFixed subpath x d)
      | .str s => s.data.all (fun _ => rdvCharResult subpath == .ok ())
      | _ => false
    else if subpath ≠ [] then
      match j with
      | .obj es =>
        match alookup es name with
        | some v => rdvFixed subpath v d
        | none => true
      | _ => false
    else
      match j with
      | .obj es =>
        match alookup es name with
        | some v => !pyEq v d
        | none => !pyEq .null d
      | _ => false

mutual
/-- `subJ j j'`: every piece of `j'` comes from `j` — dict entries of
`j'` are (first-occurrence) lookups in `j` with related values, sequence
elements of `j'` have a related element of `j`, scalars are equal. -/
def subJ : JSON → JSON → Bool
  | .obj es, .obj es' => subEntries es es'
  | .arr xs, .arr xs' => subElems xs xs'
  | .null, .null => true
  | .bool a, .bool b => a == b
  | .num a, .num b => a == b
  | .str a, .str b => a == b
  | _, _ => false

def subEntries : List (String × JSON) → List (String × JSON) → Bool
  | _, [] => true
  | es, (k, v') :: rest =>
    (match alookup es k with
     | some v => subJ v v'
     | none => false) && subEntries es rest

def subElems : List JSON → List JSON → Bool
  | _, [] => true
  | xs, x' :: rest => xs.any (fun x => subJ x x') && subElems xs rest
end

/-- The `name` value, if any, is a fixpoint of
`sort_unordered_components`. -/
def nameFixed (es : List (String × JSON)) : Prop :=
  match alookup es "name" with
  | none => True
  | some v => sort_unordered_components v = .ok v

/-- The `addresses` value, if any, is a map of fixpoints of
`sort_unordered_components`. -/
def addrFixed (es : List (String × JSON)) : Prop :=
  match alookup es "addresses" with
  | none => True
  | some (.obj addrs) =>
      mapEntriesExcept sort_unordered_components addrs = .ok addrs
  | some _ => False

/-! # Theorems

Everything below is proof: helper lemmas about the definitions above,
followed by one theorem per claim (with witnesses and counterexamples
where the claim's status requires them). -/

/-! ## Error shapes of the parser (claim C5) -/

theorem parseParam_error_shape (cs : List Char) (e : VErr)
    (h : parseParam cs = .error e) : ∃ t, e = .parseError t := by
  unfold parseParam at h
  split at h
  next afterSemi =>
    split at h
    · cases h
      exact ⟨_, rfl⟩
    · split at h
      · split at h <;> exact absurd h (by simp)
      · exact absurd h (by simp)
      · cases h
        exact ⟨_, rfl⟩
  next => cases h; exact ⟨_, rfl⟩

theorem parseParamsAux_error_shape :
    ∀ (b : Nat) (cs : List Char) (acc : List VParam) (e : VErr),
      parseParamsAux b cs acc = .error e →
      e = .indexError ∨ ∃ t, e = .parseError t := by
  intro b
  induction b with
  | zero =>
    intro cs acc e h
    cases cs <;> simp only [parseParamsAux] at h <;> (cases h; exact .inl rfl)
  | succ n ih =>
    intro cs acc e h
    cases cs with
    | nil =>
      simp only [parseParamsAux] at h
      cases h
      exact .inl rfl
    | cons c tl =>
      simp only [parseParamsAux] at h
      split at h
      · split at h
        next e' heq =>
          cases h
          exact .inr (parseParam_error_shape _ _ heq)
        next => exact ih _ _ _ h
      · exact absurd h (by simp)

theorem fromstrRest_error_shape (g : Option String) (n : String)
    (afterName : List Char) (e : VErr)
    (h : fromstrRest g n afterName = .error e) :
    e = .indexError ∨ ∃ t, e = .parseError t := by
  unfold fromstrRest at h
  split at h
  next e' heq =>
    cases h
    exact parseParamsAux_error_shape _ _ _ _ heq
  next =>
    split at h
    · cases h
      exact .inl rfl
    next =>
      split at h
      · exact absurd h (by simp)
      · cases h
        exact .inr ⟨_, rfl⟩

theorem fromstr_error_shape (s : String) (e : VErr)
    (h : fromstr s = .error e) :
    e = .indexError ∨ ∃ t, e = .parseError t := by
  unfold fromstr at h
  split at h
  · cases h
    exact .inr ⟨_, rfl⟩
  · cases h
    exact .inl rfl
  next m c afterDot heq =>
    split at h
    · split at h
      · cases h
        exact .inr ⟨_, rfl⟩
      · exact fromstrRest_error_shape _ _ _ _ h
    · exact fromstrRest_error_shape _ _ _ _ h

theorem parseLines_error_shape :
    ∀ (ls : List (List Char)) (e : VErr), parseLines ls = .error e →
      e = .indexError ∨ ∃ t, e = .parseError t := by
  intro ls
  induction ls with
  | nil => intro e h; exact absurd h (by simp [parseLines])
  | cons l ls ih =>
    intro e h
    simp only [parseLines] at h
    cases hf : fromstr (String.mk l) with
    | error e' =>
      rw [hf] at h
      cases h
      exact fromstr_error_shape _ _ hf
    | ok p =>
      rw [hf] at h
      cases hl : parseLines ls with
      | error e' =>
        rw [hl] at h
        cases h
        exact ih _ hl
      | ok ps =>
        rw [hl] at h
        have hc : (Except.ok (p :: ps) : Except VErr (List VProp)) =
            Except.error e := h
        cases hc

theorem parse_error_shape (s : String) (e : VErr)
    (h : parse s = .error e) : e = .indexError ∨ ∃ t, e = .parseError t := by
  unfold parse at h
  exact parseLines_error_shape _ _ h

/-- C5, as stated, is false on the code: a line consisting of a bare name
with no `:` terminator makes `Prop.fromstr` index one character past the
end of the line, which raises `IndexError`, not `ParseError`. -/
theorem claim_C5_counterexample :
    parse "A" = .error .indexError ∧
    VErr.indexError ≠ VErr.parseError "A" := by
  constructor
  · decide
  · decide

/-- C5 amended: a payload the grammar cannot match fails by raising either
`ParseError` or `IndexError`; a mismatch detected with text remaining at
the failure point (malformed name, malformed parameter, missing `:` with
characters present) raises `ParseError`, while a line that ends where the
parser would inspect one more character (a bare name, or a line ending
right after its parameters) raises `IndexError`. -/
theorem claim_C5_amended :
    (∀ (s : String) (e : VErr), parse s = .error e →
        e = .indexError ∨ ∃ t, e = .parseError t) ∧
    parse "A" = .error .indexError ∧
    parse "A;B=1" = .error .indexError ∧
    parse "@" = .error (.parseError "@") ∧
    parse "A=1" = .error (.parseError "=1") :=
  ⟨parse_error_shape, by decide, by decide, by decide, by decide⟩

theorem claim_C5_witness :
    parse "A" = .error .indexError ∧
    (VErr.indexError = .indexError ∨ ∃ t, VErr.indexError = .parseError t) :=
  ⟨by decide, claim_C5_amended.1 "A" .indexError (by decide)⟩

/-! ## Claims C9, C10, C1 -/

/-- C9: a property carrying more than one ALTID parameter never matches
any candidate, whatever the candidate declares (in particular with no
`AltIdMatch` at all): the multi-ALTID check precedes and is independent of
the candidate's ALTID declaration. -/
theorem claim_C9 (pm : PropMatch) (p : VProp) (g : GTab) (a : ATab)
    (h : 1 < (p.params.filter (fun q => q.name == "ALTID")).length) :
    (propMatchMatch pm p g a).1 = false := by
  unfold propMatchMatch
  split
  · rfl
  next hval =>
    cases hpl : paramLoop (buildParamsByName (pm.params.getD [])) p.params with
    | none => simp only [hpl]
    | some leftover =>
      simp only [hpl]
      split
      · rfl
      · simp only [if_pos h]

theorem claim_C9_witness :
    1 < (List.filter (fun q => q.name == "ALTID")
        [(⟨"ALTID", "1"⟩ : VParam), ⟨"ALTID", "2"⟩]).length ∧
    (propMatchMatch ⟨"N", .pyval .anyV, none, true, none, none⟩
      ⟨none, "N", [⟨"ALTID", "1"⟩, ⟨"ALTID", "2"⟩], "v"⟩ [] []).1 = false :=
  ⟨by decide,
   claim_C9 ⟨"N", .pyval .anyV, none, true, none, none⟩
     ⟨none, "N", [⟨"ALTID", "1"⟩, ⟨"ALTID", "2"⟩], "v"⟩ [] [] (by decide)⟩

/-- C10: `match_vcard` raises `ValueError` (not a `VCardMatchError` and
not a parse failure) for every payload that parses but whose property list
is not BEGIN-first, END-last with at least one property in between. -/
theorem claim_C10 (s : String) (wm dm : List PropMatch) (ps : List VProp)
    (hp : parse s = .ok ps)
    (hcond : ps.length ≤ 2 ∨ ¬ (ps.head?.map VProp.name = some "BEGIN") ∨
      ¬ (ps.getLast?.map VProp.name = some "END")) :
    match_vcard s wm dm = .error .valueError := by
  unfold match_vcard
  rw [hp]
  split
  next heq => exact absurd heq (by simp)
  next props heq =>
    cases heq
    rw [if_pos hcond]

theorem claim_C10_witness :
    (parse "UID:x\r\n" = .ok [⟨none, "UID", [], "x"⟩]) ∧
    match_vcard "UID:x\r\n" [] default_matches = .error .valueError :=
  ⟨by decide,
   claim_C10 "UID:x\r\n" [] default_matches [⟨none, "UID", [], "x"⟩]
     (by decide) (by decide)⟩

/-- C1: the ALTID symbolic-binding table is bind-once and bijective
within one matching run.  (a) A candidate declaring `AltIdMatch k`,
tested against a property carrying exactly one ALTID parameter, is
rejected when `k` is already bound to a different concrete string.
(b) When `k` is unbound, the candidate is rejected when the observed
ALTID string is already bound (necessarily to a different symbolic id).
(c) Consequently a run in which two properties carry the same ALTID
value "1" matched against two patterns with distinct symbolic ids `k1`
and `k2` fails with a `VCardMatchError`. -/
theorem claim_C1 :
    (∀ (pm : PropMatch) (p : VProp) (g : GTab) (a : ATab) (am : AltIdMatch)
        (q : VParam) (w : String),
        pm.alt_id = some am →
        p.params.filter (fun x => x.name == "ALTID") = [q] →
        alookup a am.id = some w → q.value ≠ w →
        (propMatchMatch pm p g a).1 = false) ∧
    (∀ (pm : PropMatch) (p : VProp) (g : GTab) (a : ATab) (am : AltIdMatch)
        (q : VParam),
        pm.alt_id = some am →
        p.params.filter (fun x => x.name == "ALTID") = [q] →
        alookup a am.id = none →
        (a.map (·.2)).contains q.value = true →
        (propMatchMatch pm p g a).1 = false) ∧
    raisesVCardMatchError (match_vcard
      "BEGIN:VCARD\r\nVERSION:4.0\r\nUID:x\r\nFN:f\r\nN;ALTID=1:a\r\nN;ALTID=1:b\r\nEND:VCARD\r\n"
      [⟨"N", .pystr "a", none, true, some ⟨"k1", true⟩, none⟩,
       ⟨"N", .pystr "b", none, true, some ⟨"k2", true⟩, none⟩]
      default_matches) = true := by
  refine ⟨?_, ?_, by decide⟩
  · intro pm p g a am q w halt hfilter hlk hne
    unfold propMatchMatch
    split
    · rfl
    next hval =>
      cases hpl : paramLoop (buildParamsByName (pm.params.getD [])) p.params with
      | none => simp only [hpl]
      | some leftover =>
        simp only [hpl]
        split
        · rfl
        next hmand =>
          simp [hfilter, halt, hlk, hne]
  · intro pm p g a am q halt hfilter hlk hcont
    unfold propMatchMatch
    split
    · rfl
    next hval =>
      cases hpl : paramLoop (buildParamsByName (pm.params.getD [])) p.params with
      | none => simp only [hpl]
      | some leftover =>
        simp only [hpl]
        split
        · rfl
        next hmand =>
          simp [hfilter, halt, hlk]
          rw [if_pos hcont]

theorem claim_C1_witness :
    ((⟨none, "N", [⟨"ALTID", "1"⟩], "a"⟩ : VProp).params.filter
        (fun x => x.name == "ALTID") = [⟨"ALTID", "1"⟩]) ∧
    (propMatchMatch ⟨"N", .pyval .anyV, none, true, some ⟨"k1", true⟩, none⟩
      ⟨none, "N", [⟨"ALTID", "1"⟩], "a"⟩ [] [("k1", "9")]).1 = false ∧
    (propMatchMatch ⟨"N", .pyval .anyV, none, true, some ⟨"k1", true⟩, none⟩
      ⟨none, "N", [⟨"ALTID", "1"⟩], "a"⟩ [] [("k2", "1")]).1 = false :=
  ⟨by decide,
   claim_C1.1 ⟨"N", .pyval .anyV, none, true, some ⟨"k1", true⟩, none⟩
     ⟨none, "N", [⟨"ALTID", "1"⟩], "a"⟩ [] [("k1", "9")] ⟨"k1", true⟩
     ⟨"ALTID", "1"⟩ "9" rfl (by decide) (by decide) (by decide),
   claim_C1.2.1 ⟨"N", .pyval .anyV, none, true, some ⟨"k1", true⟩, none⟩
     ⟨none, "N", [⟨"ALTID", "1"⟩], "a"⟩ [] [("k2", "1")] ⟨"k1", true⟩
     ⟨"ALTID", "1"⟩ rfl (by decide) (by decide) (by decide)⟩

/-! ## Claim C8 (ComponentsValue) -/

theorem setEqStr_iff (xs ys : List String) :
    setEqStr xs ys = true ↔ ∀ x, x ∈ xs ↔ x ∈ ys := by
  simp only [setEqStr, Bool.and_eq_true, List.all_eq_true]
  constructor
  · intro ⟨h1, h2⟩ x
    constructor
    · intro hx
      simpa using h1 x hx
    · intro hx
      simpa using h2 x hx
  · intro h
    constructor
    · intro x hx
      simpa using (h x).mp hx
    · intro x hx
      simpa using (h x).mpr hx

theorem compSlotCheck_iff (sl : CompSlot) (sub : String) :
    (match sl with
     | .lit w => w == sub
     | .strset ws => setEqStr (splitUnescaped ',' sub) ws) = true ↔
    ((∀ w, sl = .lit w → w = sub) ∧
     (∀ ws, sl = .strset ws → ∀ x, x ∈ splitUnescaped ',' sub ↔ x ∈ ws)) := by
  cases sl with
  | lit w => simp
  | strset ws => simp [setEqStr_iff]

/-- C8: `ComponentsValue.match` splits the observed string on unescaped
`;`, fails when the subcomponent count differs from the spec length, and
per position requires exact equality for a string slot and set equality of
the unescaped-`,` split for a set slot; with the three concrete examples
of the specification. -/
theorem claim_C8 :
    (∀ (comps : List CompSlot) (v : String),
        comps.length ≠ (splitUnescaped ';' v).length →
        matchComponents comps v = false) ∧
    (∀ (comps : List CompSlot) (v : String),
        matchComponents comps v = true ↔
          comps.length = (splitUnescaped ';' v).length ∧
          ∀ p ∈ comps.zip (splitUnescaped ';' v),
            (∀ w, p.1 = .lit w → w = p.2) ∧
            (∀ ws, p.1 = .strset ws →
              ∀ x, x ∈ splitUnescaped ',' p.2 ↔ x ∈ ws)) ∧
    matchComponents [.lit "a", .strset ["x", "y"]] "a;y,x" = true ∧
    matchComponents [.lit "a", .strset ["x", "y"]] "a;y,x,z" = false ∧
    matchComponents [.lit "a", .strset ["x", "y"]] "a" = false := by
  refine ⟨?_, ?_, by decide, by decide, by decide⟩
  · intro comps v h
    unfold matchComponents
    rw [if_pos h]
  · intro comps v
    unfold matchComponents
    dsimp only
    by_cases hlen : comps.length = (splitUnescaped ';' v).length
    · rw [if_neg (not_not_intro hlen)]
      simp only [List.all_eq_true]
      constructor
      · intro hall
        exact ⟨hlen, fun p hp => (compSlotCheck_iff p.1 p.2).mp (hall p hp)⟩
      · intro hc
        intro p hp
        exact (compSlotCheck_iff p.1 p.2).mpr (hc.2 p hp)
    · rw [if_pos hlen]
      simp only [Bool.false_eq_true, false_iff, not_and]
      intro h
      exact absurd h hlen

theorem claim_C8_witness :
    ([CompSlot.lit "a", CompSlot.strset ["x", "y"]].length ≠
      (splitUnescaped ';' "a").length) ∧
    matchComponents [.lit "a", .strset ["x", "y"]] "a" = false :=
  ⟨by decide, claim_C8.1 [.lit "a", .strset ["x", "y"]] "a" (by decide)⟩

/-! ## Claim C7: the canonicalizer is idempotent

Python's paired stable sorts (by value, then by name) are shown to produce
a `(name, value)`-lexicographically sorted list and to leave any such list
unchanged; the BEGIN/END splice preserves both facts. -/

theorem charListLe_refl : ∀ a : List Char, charListLe a a = true
  | [] => rfl
  | c :: cs => by simp [charListLe, lt_irrefl, charListLe_refl cs]

theorem pyStrLe_refl (a : String) : pyStrLe a a = true :=
  charListLe_refl a.data

theorem charListLe_antisymm : ∀ a b : List Char,
    charListLe a b = true → charListLe b a = true → a = b
  | [], [] => by intro _ _; rfl
  | [], _ :: _ => by simp [charListLe]
  | _ :: _, [] => by simp [charListLe]
  | a :: as, b :: bs => by
    simp only [charListLe]
    intro h1 h2
    rcases lt_trichotomy a b with hab | hab | hab
    · rw [if_neg (lt_asymm hab), if_pos hab] at h2
      simp at h2
    · subst hab
      simp only [lt_irrefl, if_false] at h1 h2
      rw [charListLe_antisymm as bs h1 h2]
    · rw [if_pos hab] at h1
      rw [if_neg (lt_asymm hab)] at h1
      simp at h1

theorem pyStrLe_antisymm {a b : String} (h1 : pyStrLe a b = true)
    (h2 : pyStrLe b a = true) : a = b := by
  cases a
  cases b
  exact congrArg String.mk (charListLe_antisymm _ _ h1 h2)

theorem pyStrLe_of_not_le {a b : String} (h : ¬ pyStrLe a b = true) :
    pyStrLe b a = true :=
  (pyStrLe_total b a).resolve_right h

theorem leLex_trans {α : Type} {kn kv : α → String} {a b c : α}
    (h1 : leLex kn kv a b) (h2 : leLex kn kv b c) : leLex kn kv a c := by
  rcases h1 with h1 | ⟨h1e, h1v⟩
  · rcases h2 with h2 | ⟨h2e, h2v⟩
    · left
      intro hca
      exact h2 (pyStrLe_trans hca (pyStrLe_of_not_le h1))
    · left
      rw [← h2e]
      exact h1
  · rcases h2 with h2 | ⟨h2e, h2v⟩
    · left
      rw [h1e]
      exact h2
    · exact .inr ⟨h1e.trans h2e, pyStrLe_trans h1v h2v⟩

theorem leLex_names_le {α : Type} {kn kv : α → String} {a b : α}
    (h : leLex kn kv a b) : pyStrLe (kn a) (kn b) = true := by
  rcases h with h | ⟨he, _⟩
  · exact pyStrLe_of_not_le h
  · rw [he]
    exact pyStrLe_refl _

section StableSort

variable {α : Type} (kn kv : α → String)

/-- Inserting by primary key commutes for elements with strictly ordered
primary keys. -/
theorem oinsn_comm (x y : α) (h : ¬ pyStrLe (kn y) (kn x) = true) :
    ∀ m : List α,
      List.orderedInsert (leValue kn) x (List.orderedInsert (leValue kn) y m) =
      List.orderedInsert (leValue kn) y (List.orderedInsert (leValue kn) x m)
  | [] => by
    have hxy : leValue kn x y := pyStrLe_of_not_le h
    have hyx : ¬ leValue kn y x := h
    simp only [List.orderedInsert, if_pos hxy, if_neg hyx]
  | z :: m' => by
    have hxy : leValue kn x y := pyStrLe_of_not_le h
    have hyx : ¬ leValue kn y x := h
    by_cases hyz : leValue kn y z
    · have hxz : leValue kn x z := pyStrLe_trans hxy hyz
      simp only [List.orderedInsert, if_pos hyz, if_pos hxy, if_pos hxz,
        if_neg hyx]
    · by_cases hxz : leValue kn x z
      · simp only [List.orderedInsert, if_neg hyz, if_pos hxz, if_neg hyx]
      · simp only [List.orderedInsert, if_neg hyz, if_neg hxz]
        rw [oinsn_comm x y h m']

/-- Sorting by primary key after a secondary-key insert of a lex-minimal
element hoists the insert out as a primary-key insert. -/
theorem sortn_oinsv (x : α) :
    ∀ l : List α, (∀ y ∈ l, leLex kn kv x y) →
      List.insertionSort (leValue kn) (List.orderedInsert (leValue kv) x l) =
      List.orderedInsert (leValue kn) x (List.insertionSort (leValue kn) l)
  | [] => by intro _; rfl
  | y :: ys => by
    intro hx
    by_cases hv : leValue kv x y
    · simp only [List.orderedInsert, if_pos hv, List.insertionSort]
    · simp only [List.orderedInsert, if_neg hv, List.insertionSort]
      rw [sortn_oinsv x ys (fun z hz => hx z (List.mem_cons_of_mem _ hz))]
      have hxy : leLex kn kv x y := hx y (List.mem_cons_self _ _)
      have hstrict : ¬ pyStrLe (kn y) (kn x) = true := by
        rcases hxy with hh | ⟨he, hvv⟩
        · exact hh
        · exact absurd hvv hv
      exact (oinsn_comm kn x y hstrict _).symm

/-- A `(name, value)`-lex-sorted list is unchanged by the two stable
passes. -/
theorem sortTwoPass_of_sorted :
    ∀ l : List α, l.Sorted (leLex kn kv) → sortTwoPass kn kv l = l
  | [] => by intro _; rfl
  | x :: xs => by
    intro h
    rw [List.sorted_cons] at h
    obtain ⟨hx, hxs⟩ := h
    unfold sortTwoPass
    simp only [List.insertionSort]
    rw [sortn_oinsv kn kv x _
      (fun y hy => hx y ((List.mem_insertionSort _).mp hy))]
    have hfix := sortTwoPass_of_sorted xs hxs
    unfold sortTwoPass at hfix
    rw [hfix]
    cases xs with
    | nil => rfl
    | cons z zs =>
      have hz : leValue kn x z :=
        leLex_names_le (hx z (List.mem_cons_self _ _))
      simp only [List.orderedInsert, if_pos hz]

/-- Inserting by primary key an element whose secondary key is `≤` every
element keeps lex-sortedness. -/
theorem sorted_oinsn_of_le_val (x : α) :
    ∀ m : List α, m.Sorted (leLex kn kv) →
      (∀ z ∈ m, pyStrLe (kv x) (kv z) = true) →
      (List.orderedInsert (leValue kn) x m).Sorted (leLex kn kv)
  | [] => by
    intro _ _
    simp
  | z :: m' => by
    intro hm hv
    rw [List.sorted_cons] at hm
    obtain ⟨hz, hm'⟩ := hm
    have hlexxz : leValue kn x z → leLex kn kv x z := by
      intro hxz
      by_cases he : kn x = kn z
      · exact .inr ⟨he, hv z (List.mem_cons_self _ _)⟩
      · exact .inl fun hzx => he (pyStrLe_antisymm hxz hzx)
    by_cases hxz : leValue kn x z
    · simp only [List.orderedInsert, if_pos hxz]
      rw [List.sorted_cons]
      refine ⟨?_, by rw [List.sorted_cons]; exact ⟨hz, hm'⟩⟩
      intro b hb
      rcases List.mem_cons.mp hb with hb | hb
      · subst hb
        exact hlexxz hxz
      · exact leLex_trans (hlexxz hxz) (hz b hb)
    · simp only [List.orderedInsert, if_neg hxz]
      rw [List.sorted_cons]
      constructor
      · intro b hb
        rcases (List.mem_orderedInsert _).mp hb with hb | hb
        · subst hb
          exact .inl hxz
        · exact hz b hb
      · exact sorted_oinsn_of_le_val x m' hm'
          (fun z' hz' => hv z' (List.mem_cons_of_mem _ hz'))

/-- Sorting a secondary-key-sorted list by primary key yields a lex-sorted
list. -/
theorem sorted_lex_sortn :
    ∀ m : List α, m.Sorted (leValue kv) →
      (List.insertionSort (leValue kn) m).Sorted (leLex kn kv)
  | [] => by intro _; simp
  | y :: m' => by
    intro h
    rw [List.sorted_cons] at h
    obtain ⟨hy, hm'⟩ := h
    simp only [List.insertionSort]
    exact sorted_oinsn_of_le_val kn kv y _ (sorted_lex_sortn m' hm')
      (fun z hz => hy z ((List.mem_insertionSort _).mp hz))

/-- The two stable passes produce a lex-sorted list. -/
theorem sortTwoPass_sorted (l : List α) :
    (sortTwoPass kn kv l).Sorted (leLex kn kv) :=
  sorted_lex_sortn kn kv _ (List.sorted_insertionSort _ l)

/-- The two stable passes are idempotent. -/
theorem sortTwoPass_idem (l : List α) :
    sortTwoPass kn kv (sortTwoPass kn kv l) = sortTwoPass kn kv l :=
  sortTwoPass_of_sorted kn kv _ (sortTwoPass_sorted kn kv l)

theorem mem_sortTwoPass {l : List α} {x : α} (h : x ∈ sortTwoPass kn kv l) :
    x ∈ l := by
  unfold sortTwoPass at h
  exact (List.mem_insertionSort _).mp ((List.mem_insertionSort _).mp h)

end StableSort

theorem sortPropParams_idem (p : VProp) :
    sortPropParams (sortPropParams p) = sortPropParams p := by
  simp [sortPropParams, sortTwoPass_idem]

theorem map_sortPropParams_of_fixed :
    ∀ l : List VProp, (∀ x ∈ l, sortPropParams x = x) →
      l.map sortPropParams = l
  | [] => by intro _; rfl
  | x :: xs => by
    intro h
    simp only [List.map]
    rw [h x (List.mem_cons_self _ _),
      map_sortPropParams_of_fixed xs (fun y hy => h y (List.mem_cons_of_mem _ hy))]

theorem mem_coreSort_fixed {l : List VProp} {x : VProp}
    (h : x ∈ coreSort l) : sortPropParams x = x := by
  unfold coreSort at h
  obtain ⟨y, _, rfl⟩ := List.mem_map.mp (mem_sortTwoPass _ _ h)
  exact sortPropParams_idem y

theorem coreSort_sorted (l : List VProp) :
    (coreSort l).Sorted (leLex VProp.name VProp.value) :=
  sortTwoPass_sorted _ _ _

theorem coreSort_of_sorted_fixed {l : List VProp}
    (hs : l.Sorted (leLex VProp.name VProp.value))
    (hf : ∀ x ∈ l, sortPropParams x = x) : coreSort l = l := by
  unfold coreSort
  rw [map_sortPropParams_of_fixed l hf]
  exact sortTwoPass_of_sorted _ _ _ hs

theorem coreSort_idem (l : List VProp) : coreSort (coreSort l) = coreSort l :=
  coreSort_of_sorted_fixed (coreSort_sorted l) (fun _ hx => mem_coreSort_fixed hx)

theorem coreSort_length (l : List VProp) : (coreSort l).length = l.length := by
  unfold coreSort sortTwoPass
  simp

/-- A list of length at least 2 decomposes as head, middle, last. -/
theorem exists_cons_concat {β : Type} (l : List β) (h : 2 ≤ l.length) :
    ∃ (x : β) (ys : List β) (t : β), l = x :: ys ++ [t] := by
  match l with
  | [] => simp at h
  | x :: rest =>
    rcases rest.eq_nil_or_concat with hr | ⟨ys, t, hr⟩
    · subst hr
      simp at h
    · exact ⟨x, ys, t, by rw [hr, List.concat_eq_append, List.cons_append]⟩

theorem drop_pred_concat {β : Type} (x : β) (ys : List β) (t : β) :
    (x :: ys ++ [t]).drop ((x :: ys ++ [t]).length - 1) = [t] := by
  have hlen : (x :: ys ++ [t]).length - 1 = ys.length + 1 := by
    simp
  rw [hlen]
  simp [List.drop_left ys [t]]

/-- Python's `[head] + body[1:-1] + [tail]` surgery is the identity on any
list with at least two elements. -/
theorem take_mid_drop {β : Type} (l : List β) (h : 2 ≤ l.length) :
    l.take 1 ++ (l.drop 1).dropLast ++ l.drop (l.length - 1) = l := by
  obtain ⟨x, ys, t, rfl⟩ := exists_cons_concat l h
  rw [drop_pred_concat]
  simp

/-- C7: `normalize_vcard` is idempotent: splicing off a BEGIN/END wrapper
when present with at least one property in between, sorting the remaining
properties by (name, value) and each property's parameters by
(name, value), done twice, equals doing it once. -/
theorem claim_C7 (R : List VProp) :
    normalize_vcard (normalize_vcard R) = normalize_vcard R := by
  unfold normalize_vcard
  by_cases hcond : 2 < R.length ∧ (R.head?.map VProp.name) = some "BEGIN" ∧
      (R.getLast?.map VProp.name) = some "END"
  · rw [if_pos hcond]
    obtain ⟨hlen, hhead, hlast⟩ := hcond
    obtain ⟨x, ys, t, rfl⟩ := exists_cons_concat R (by omega)
    have hmid : (((x :: ys ++ [t]).drop 1).dropLast) = ys := by
      simp
    have hdrop := drop_pred_concat x ys t
    rw [hmid, hdrop]
    simp only [List.take, List.cons_append, List.nil_append]
    have hL : ([x] ++ coreSort ys ++ [t] : List VProp) =
        x :: (coreSort ys ++ [t]) := by simp
    have hlenL : (x :: (coreSort ys ++ [t])).length = ys.length + 2 := by
      simp [coreSort_length]
    have hlenR : (x :: ys ++ [t]).length = ys.length + 2 := by simp
    rw [hlenR] at hlen
    have hheadx : x.name = "BEGIN" := by
      simpa using hhead
    have hlastt : t.name = "END" := by
      have : (x :: ys ++ [t]).getLast? = some t := by
        rw [show (x :: ys ++ [t]) = (x :: ys) ++ [t] by simp]
        exact List.getLast?_concat _
      rw [this] at hlast
      simpa using hlast
    have hcondL : 2 < (x :: (coreSort ys ++ [t])).length ∧
        ((x :: (coreSort ys ++ [t])).head?.map VProp.name) = some "BEGIN" ∧
        ((x :: (coreSort ys ++ [t])).getLast?.map VProp.name) = some "END" := by
      refine ⟨by rw [hlenL]; omega, by simpa using hheadx, ?_⟩
      have : (x :: (coreSort ys ++ [t])).getLast? = some t := by
        rw [show (x :: (coreSort ys ++ [t])) = (x :: coreSort ys) ++ [t] by simp]
        exact List.getLast?_concat _
      rw [this]
      simpa using hlastt
    rw [if_pos hcondL]
    have hmidL : (((x :: (coreSort ys ++ [t])).drop 1).dropLast) = coreSort ys := by
      simp
    have hdropL : (x :: (coreSort ys ++ [t])).drop
        ((x :: (coreSort ys ++ [t])).length - 1) = [t] := by
      have := drop_pred_concat x (coreSort ys) t
      simp [this]
    rw [hmidL, hdropL, coreSort_idem]
  · rw [if_neg hcond]
    by_cases hcond2 : 2 < (coreSort R).length ∧
        ((coreSort R).head?.map VProp.name) = some "BEGIN" ∧
        ((coreSort R).getLast?.map VProp.name) = some "END"
    · rw [if_pos hcond2]
      obtain ⟨hlen2, _, _⟩ := hcond2
      have hfix : coreSort (((coreSort R).drop 1).dropLast) =
          ((coreSort R).drop 1).dropLast := by
        apply coreSort_of_sorted_fixed
        · exact List.Pairwise.sublist
            (List.Sublist.trans (List.dropLast_sublist _) (List.drop_sublist _ _))
            (coreSort_sorted R)
        · intro z hz
          have hz1 : z ∈ (coreSort R).drop 1 :=
            (List.dropLast_sublist _).subset hz
          have hz2 : z ∈ coreSort R := (List.drop_sublist _ _).subset hz1
          exact mem_coreSort_fixed hz2
      rw [hfix]
      exact take_mid_drop _ (by omega)
    · rw [if_neg hcond2]
      exact coreSort_idem R

/-! ## Claim C4 (patch paths are raw) -/

theorem splitOnChar_no_sep (sep : Char) :
    ∀ cs : List Char, ¬ cs.contains sep → splitOnChar sep cs = [cs] := by
  intro cs
  induction cs with
  | nil => intro _; rfl
  | cons c rest ih =>
    intro h
    simp only [List.contains_cons, Bool.or_eq_true, beq_iff_eq] at h
    push_neg at h
    simp only [splitOnChar]
    rw [if_neg (fun hc : c = sep => h.1 hc.symm), ih (by simpa using h.2)]

theorem pathSegs_no_slash (k : String) (h : ¬ k.data.contains '/') :
    pathSegs k = [k] := by
  unfold pathSegs
  rw [splitOnChar_no_sep '/' k.data h]
  rfl

/-- C4, as stated, is false on the code: `apply_patchobject` splits paths
on `/` and uses the segments raw; no `~1`/`~0` decoding ever happens, so
a patch with key `"a~1b"` creates the key `a~1b`, not `a/b`. -/
theorem claim_C4_counterexample :
    apply_patchobject (.obj []) (.obj [("a~1b", .num 1)]) =
      .ok (.obj [("a~1b", .num 1)]) ∧
    alookup [("a~1b", JSON.num 1)] "a/b" = none := by
  constructor
  · decide
  · decide

/-- C4 amended: the patch applier decodes nothing: every path, whether or
not it begins with `localizations`, is applied with its raw slash-split
segments.  In particular any slash-free key — including keys containing
`~0` or `~1` — is one raw segment, and patching it into an empty card
creates exactly that key. -/
theorem claim_C4_amended :
    (∀ k : String, ¬ k.data.contains '/' → pathSegs k = [k]) ∧
    (∀ (k : String) (v : JSON), ¬ k.data.contains '/' →
        apply_patchobject (.obj []) (.obj [(k, v)]) = .ok (.obj [(k, v)])) ∧
    apply_patchobject (.obj []) (.obj [("~0", .num 5)]) =
      .ok (.obj [("~0", .num 5)]) := by
  refine ⟨pathSegs_no_slash, ?_, by decide⟩
  intro k v h
  unfold apply_patchobject applyEntries
  rw [pathSegs_no_slash k h]
  simp only [applyEntry, alookup, List.find?]
  rfl

theorem claim_C4_witness :
    (¬ ("a~1b" : String).data.contains '/') ∧
    apply_patchobject (.obj []) (.obj [("a~1b", .num 7)]) =
      .ok (.obj [("a~1b", .num 7)]) :=
  ⟨by decide, claim_C4_amended.2.1 "a~1b" (.num 7) (by decide)⟩

/-! ## Claim C6 (structural differ) -/

theorem diffShared_mem {ea eb : List (String × JSON)} {segs : List String}
    {k : String} {v : JSON} {d : JSPropDiff} (hmem : (k, v) ∈ ea)
    (hk : (eb.map Prod.fst).contains k = true)
    (hd : d ∈ diffPair v ((alookup eb k).getD .null) (segs ++ [k])) :
    d ∈ diffShared ea eb segs := by
  induction ea with
  | nil => cases hmem
  | cons e rest ih =>
    rw [show diffShared (e :: rest) eb segs =
        (if (eb.map Prod.fst).contains e.1 then
          diffPair e.2 ((alookup eb e.1).getD .null) (segs ++ [e.1])
        else []) ++ diffShared rest eb segs from rfl]
    rcases List.mem_cons.mp hmem with he | he
    · subst he
      rw [if_pos hk]
      exact List.mem_append_left _ hd
    · exact List.mem_append_right _ (ih he)

/-- C6: for two maps the differ emits an expected-only diff for each key
only in `want`, an actual-only diff for each key only in `have`, and
recurses on shared keys (two shared maps recurse via `diff_objs`); for
two lists of unequal length it emits exactly one diff at the current path
carrying both full lists. -/
theorem claim_C6 :
    (∀ (ea eb : List (String × JSON)) (segs : List String) (k : String)
        (v : JSON), (k, v) ∈ ea → ¬ (eb.map Prod.fst).contains k = true →
        (⟨encode_path (segs ++ [k]), some v, none⟩ : JSPropDiff) ∈
          diff_objs ea eb segs) ∧
    (∀ (ea eb : List (String × JSON)) (segs : List String) (k : String)
        (v : JSON), (k, v) ∈ eb → ¬ (ea.map Prod.fst).contains k = true →
        (⟨encode_path (segs ++ [k]), none, some v⟩ : JSPropDiff) ∈
          diff_objs ea eb segs) ∧
    (∀ (ea eb : List (String × JSON)) (segs : List String) (k : String)
        (v : JSON) (d : JSPropDiff), (k, v) ∈ ea →
        (eb.map Prod.fst).contains k = true →
        d ∈ diffPair v ((alookup eb k).getD .null) (segs ++ [k]) →
        d ∈ diff_objs ea eb segs) ∧
    (∀ (e1 e2 : List (String × JSON)) (segs : List String),
        diffPair (.obj e1) (.obj e2) segs = diff_objs e1 e2 segs) ∧
    (∀ (xs ys : List JSON) (segs : List String), xs.length ≠ ys.length →
        diff_list xs ys segs =
          [⟨encode_path segs, some (.arr xs), some (.arr ys)⟩]) := by
  refine ⟨?_, ?_, ?_, fun _ _ _ => rfl, ?_⟩
  · intro ea eb segs k v hmem hk
    unfold diff_objs
    refine List.mem_append_left _ (List.mem_append_left _ ?_)
    unfold aonlyDiffs
    exact List.mem_map.mpr ⟨(k, v), List.mem_filter.mpr ⟨hmem, by simpa using hk⟩, rfl⟩
  · intro ea eb segs k v hmem hk
    unfold diff_objs
    refine List.mem_append_left _ (List.mem_append_right _ ?_)
    unfold bonlyDiffs
    exact List.mem_map.mpr ⟨(k, v), List.mem_filter.mpr ⟨hmem, by simpa using hk⟩, rfl⟩
  · intro ea eb segs k v d hmem hk hd
    unfold diff_objs
    exact List.mem_append_right _ (diffShared_mem hmem hk hd)
  · intro xs ys segs h
    unfold diff_list
    rw [if_pos h]

theorem claim_C6_witness :
    ((("b" : String), JSON.num 2) ∈ [(("b" : String), JSON.num 2)] ∧
      ¬ (([] : List (String × JSON)).map Prod.fst).contains "b" = true) ∧
    (⟨encode_path ["b"], some (JSON.num 2), none⟩ : JSPropDiff) ∈
      diff_objs [("b", JSON.num 2)] [] [] ∧
    diff_list [JSON.num 1] [] [] =
      [⟨encode_path [], some (.arr [JSON.num 1]), some (.arr [])⟩] :=
  ⟨⟨List.mem_singleton.mpr rfl, by decide⟩,
   claim_C6.1 [("b", JSON.num 2)] [] [] "b" (JSON.num 2)
     (List.mem_singleton.mpr rfl) (by decide),
   claim_C6.2.2.2.2 [JSON.num 1] [] [] (by decide)⟩

/-! ## Claim C3 (failing localization patches) -/

theorem alookup_cons {β : Type} (k0 : String) (v0 : β)
    (t : List (String × β)) (k : String) :
    alookup ((k0, v0) :: t) k = if k0 == k then some v0 else alookup t k := by
  by_cases h : k0 == k <;> simp [alookup, List.find?_cons, h]

theorem alookup_aset_self {β : Type} (t : List (String × β)) (k : String)
    (v : β) : alookup (aset t k v) k = some v := by
  induction t with
  | nil => simp [aset, alookup, List.find?]
  | cons e rest ih =>
    by_cases h : e.1 == k
    · obtain ⟨k0, v0⟩ := e
      simp only [aset]
      rw [if_pos h]
      rw [alookup_cons, if_pos h]
    · obtain ⟨k0, v0⟩ := e
      simp only [aset]
      rw [if_neg h]
      rw [alookup_cons, if_neg h]
      exact ih

/-- C3, as stated, is false on the code: a patch whose first entry fails
structurally aborts that locale's whole patch application; the later
entry `"d"` is not applied, the locale keeps its original patch object
(the failing entry `"a/b"` included), and no resolved card is stored. -/
theorem claim_C3_counterexample :
    normalize_jscard
      (.obj [("localizations",
        .obj [("l", .obj [("a/b", .num 1), ("d", .num 2)])])]) =
    .ok (.obj [("localizations",
      .obj [("l", .obj [("a/b", .num 1), ("d", .num 2)])])]) ∧
    apply_patchobject (.obj [])
      (.obj [("a/b", .num 1), ("d", .num 2)]) = .error .valueError := by
  constructor
  · decide
  · decide

theorem locEntriesF_ok_keeps {fuel : Nat} {base : JSON}
    {locs locs' : List (String × JSON)}
    (h : locEntriesF fuel base locs = .ok locs') :
    ∀ (l : String) (p : JSON), alookup locs l = some p →
      apply_patchobject base p = .error .valueError →
      alookup locs' l = some p := by
  induction locs generalizing fuel locs' with
  | nil =>
    intro l p hl
    simp [alookup, List.find?] at hl
  | cons e rest ih =>
    intro l p hl happ
    obtain ⟨l0, p0⟩ := e
    match fuel with
    | 0 => simp [locEntriesF] at h
    | fuel + 1 =>
      rw [alookup_cons] at hl
      simp only [locEntriesF] at h
      cases happ0 : apply_patchobject base p0 with
      | error e0 =>
        rw [happ0] at h
        dsimp only at h
        cases e0 with
        | valueError =>
          cases hrest : locEntriesF fuel base rest with
          | error e1 =>
            rw [hrest] at h
            exact absurd h (by simp)
          | ok rest' =>
            rw [hrest] at h
            injection h with h'
            subst h'
            rw [alookup_cons]
            by_cases hk : l0 == l
            · rw [if_pos hk] at hl ⊢
              exact hl
            · rw [if_neg hk] at hl ⊢
              exact ih hrest l p hl happ
        | typeError => exact absurd h (by simp)
        | attributeError => exact absurd h (by simp)
        | keyError => exact absurd h (by simp)
        | indexError => exact absurd h (by simp)
        | fuelExhausted => exact absurd h (by simp)
      | ok patched =>
        rw [happ0] at h
        dsimp only at h
        by_cases hk : l0 == l
        · rw [if_pos hk] at hl
          cases hl
          rw [happ] at happ0
          exact absurd happ0 (by simp)
        · rw [if_neg hk] at hl
          cases hn : normalizeF fuel patched with
          | error e1 =>
            rw [hn] at h
            cases e1 with
            | valueError =>
              cases hrest : locEntriesF fuel base rest with
              | error e2 =>
                rw [hrest] at h
                exact absurd h (by simp)
              | ok rest' =>
                rw [hrest] at h
                injection h with h'
                subst h'
                rw [alookup_cons, if_neg hk]
                exact ih hrest l p hl happ
            | typeError => exact absurd h (by simp)
            | attributeError => exact absurd h (by simp)
            | keyError => exact absurd h (by simp)
            | indexError => exact absurd h (by simp)
            | fuelExhausted => exact absurd h (by simp)
          | ok r =>
            rw [hn] at h
            cases hrest : locEntriesF fuel base rest with
            | error e2 =>
              rw [hrest] at h
              exact absurd h (by simp)
            | ok rest' =>
              rw [hrest] at h
              injection h with h'
              subst h'
              rw [alookup_cons, if_neg hk]
              exact ih hrest l p hl happ

/-- C3 amended: a structurally failing patch entry aborts that locale's
whole patch application (the `ValueError` propagates out of
`apply_patchobject`, so entries after the failing one are not applied);
the exception is swallowed per locale, the locale keeps its original,
unresolved patch object, and the other locales are processed as usual.
Stated per locale over the locale loop, and end-to-end over
`normalizeF`. -/
theorem claim_C3_amended :
    (∀ (fuel : Nat) (base p : JSON) (l : String)
        (rest : List (String × JSON)),
        apply_patchobject base p = .error .valueError →
        locEntriesF (fuel + 1) base ((l, p) :: rest) =
          (locEntriesF fuel base rest).map (fun r => (l, p) :: r)) ∧
    (∀ (es0 locs : List (String × JSON)) (fuel : Nat) (B R : JSON)
        (l : String) (p : JSON),
        normalizeF (fuel + 1) (.obj es0) = .ok R →
        alookup es0 "localizations" = some (.obj locs) →
        normalizeStages (.obj (adel es0 "localizations")) = .ok B →
        alookup locs l = some p →
        apply_patchobject B p = .error .valueError →
        ∃ (esR : List (String × JSON)) (locs' : List (String × JSON)),
          R = .obj esR ∧
          alookup esR "localizations" = some (.obj locs') ∧
          alookup locs' l = some p) := by
  constructor
  · intro fuel base p l rest happ
    simp only [locEntriesF, happ]
    cases locEntriesF fuel base rest <;> rfl
  · intro es0 locs fuel B R l p hR hloc hstages hl happ
    simp only [normalizeF, hloc, hstages] at hR
    cases B with
    | obj es5 =>
      have htruthy : pyTruthy (.obj locs) = true := by
        cases locs with
        | nil => simp [alookup, List.find?] at hl
        | cons e r => simp [pyTruthy]
      rw [htruthy] at hR
      simp only [if_true] at hR
      split at hR
      next => exact absurd hR (by simp)
      next locs' hlocs =>
        cases hR
        exact ⟨aset es5 "localizations" (.obj locs'), locs', rfl,
          alookup_aset_self _ _ _,
          locEntriesF_ok_keeps hlocs l p hl happ⟩
    | null => exact absurd hR (by simp)
    | bool b => exact absurd hR (by simp)
    | num n => exact absurd hR (by simp)
    | str s => exact absurd hR (by simp)
    | arr xs => exact absurd hR (by simp)

theorem claim_C3_witness :
    apply_patchobject (.obj []) (.obj [("a/b", .num 1)]) =
      .error .valueError ∧
    locEntriesF 1 (.obj []) [("l", .obj [("a/b", .num 1)])] =
      (locEntriesF 0 (.obj []) []).map
        (fun r => ("l", JSON.obj [("a/b", JSON.num 1)]) :: r) :=
  ⟨by decide,
   claim_C3_amended.1 0 (.obj []) (.obj [("a/b", .num 1)]) "l" []
     (by decide)⟩

/-! ## Claim C2 (idempotence of `normalize_jscard`)

The counterexample shows the claim false as stated; the development
below proves the amended claim: on well-formed cards with no
`localizations` key at top level and no `vCardParams` key anywhere,
successful normalization is idempotent.  First, facts about the ordered
dict operations. -/

theorem alookup_mem {β : Type} {es : List (String × β)} {k : String} {v : β}
    (h : alookup es k = some v) : (k, v) ∈ es := by
  induction es with
  | nil => simp [alookup, List.find?] at h
  | cons e rest ih =>
    obtain ⟨k0, v0⟩ := e
    rw [alookup_cons] at h
    by_cases hk : k0 == k
    · rw [if_pos hk] at h
      injection h with h'
      subst h'
      have hk' : k0 = k := by simpa using hk
      subst hk'
      exact List.mem_cons_self _ _
    · rw [if_neg hk] at h
      exact List.mem_cons_of_mem _ (ih h)

theorem alookup_none_of_no_key {β : Type} {k : String} :
    ∀ es : List (String × β),
      (es.map Prod.fst).any (fun k2 => k2 == k) = false →
      alookup es k = none := by
  intro es
  induction es with
  | nil => intro _; rfl
  | cons e rest ih =>
    obtain ⟨k0, v0⟩ := e
    intro h
    simp only [List.map_cons, List.any_cons, Bool.or_eq_false_iff] at h
    rw [alookup_cons, if_neg (by simp [h.1]), ih h.2]

theorem alookup_of_mem_nodup {β : Type} {es : List (String × β)} {k : String}
    {v : β} (hnd : nodupStr (es.map Prod.fst) = true) (hm : (k, v) ∈ es) :
    alookup es k = some v := by
  induction es with
  | nil => cases hm
  | cons e rest ih =>
    obtain ⟨k0, v0⟩ := e
    simp only [List.map_cons, nodupStr, Bool.and_eq_true,
      Bool.not_eq_true'] at hnd
    rcases List.mem_cons.mp hm with heq | hmem
    · injection heq with h1 h2
      subst h1; subst h2
      rw [alookup_cons, if_pos (by simp)]
    · have hk : ¬ (k0 == k) = true := by
        intro hb
        have : k0 = k := by simpa using hb
        subst this
        have : (rest.map Prod.fst).any (fun k2 => k2 == k0) = true :=
          List.any_eq_true.mpr ⟨k0, List.mem_map.mpr ⟨(k0, v), hmem, rfl⟩, by simp⟩
        rw [hnd.1] at this
        cases this
      rw [alookup_cons, if_neg hk]
      exact ih hnd.2 hmem

theorem adel_of_none {β : Type} {es : List (String × β)} {k : String}
    (h : alookup es k = none) : adel es k = es := by
  induction es with
  | nil => rfl
  | cons e rest ih =>
    obtain ⟨k0, v0⟩ := e
    rw [alookup_cons] at h
    by_cases hk : k0 == k
    · rw [if_pos hk] at h; cases h
    · rw [if_neg hk] at h
      simp only [adel, if_neg hk]
      rw [ih h]

theorem alookup_adel_self {β : Type} {es : List (String × β)} {k : String}
    (hnd : nodupStr (es.map Prod.fst) = true) :
    alookup (adel es k) k = none := by
  induction es with
  | nil => rfl
  | cons e rest ih =>
    obtain ⟨k0, v0⟩ := e
    simp only [List.map_cons, nodupStr, Bool.and_eq_true,
      Bool.not_eq_true'] at hnd
    by_cases hk : k0 == k
    · simp only [adel, if_pos hk]
      have hk' : k0 = k := by simpa using hk
      subst hk'
      exact alookup_none_of_no_key rest hnd.1
    · simp only [adel, if_neg hk]
      rw [alookup_cons, if_neg hk]
      exact ih hnd.2

theorem alookup_adel_ne {β : Type} {es : List (String × β)} {k k' : String}
    (h : ¬ k' = k) : alookup (adel es k) k' = alookup es k' := by
  induction es with
  | nil => rfl
  | cons e rest ih =>
    obtain ⟨k0, v0⟩ := e
    by_cases hk : k0 == k
    · simp only [adel, if_pos hk]
      have hk0 : k0 = k := by simpa using hk
      rw [alookup_cons, if_neg (by simp [hk0]; intro hh; exact h hh.symm)]
    · simp only [adel, if_neg hk]
      rw [alookup_cons, alookup_cons]
      by_cases hk' : k0 == k'
      · rw [if_pos hk', if_pos hk']
      · rw [if_neg hk', if_neg hk']
        exact ih

theorem aset_self {β : Type} {es : List (String × β)} {k : String} {v : β}
    (h : alookup es k = some v) : aset es k v = es := by
  induction es with
  | nil => simp [alookup, List.find?] at h
  | cons e rest ih =>
    obtain ⟨k0, v0⟩ := e
    rw [alookup_cons] at h
    by_cases hk : k0 == k
    · rw [if_pos hk] at h
      injection h with h'
      subst h'
      simp only [aset, if_pos hk]
    · rw [if_neg hk] at h
      simp only [aset, if_neg hk]
      rw [ih h]

theorem alookup_aset_ne {β : Type} {es : List (String × β)} {k k' : String}
    {v : β} (h : ¬ k' = k) : alookup (aset es k v) k' = alookup es k' := by
  induction es with
  | nil =>
    simp only [aset]
    rw [alookup_cons, if_neg (by simp; intro hh; exact h hh.symm)]
  | cons e rest ih =>
    obtain ⟨k0, v0⟩ := e
    by_cases hk : k0 == k
    · simp only [aset, if_pos hk]
      have hk0 : k0 = k := by simpa using hk
      rw [alookup_cons, alookup_cons]
      by_cases hk' : k0 == k'
      · have hk'' : k0 = k' := by simpa using hk'
        exact absurd (hk''.symm.trans hk0) h
      · rw [if_neg hk', if_neg hk']
    · simp only [aset, if_neg hk]
      rw [alookup_cons, alookup_cons]
      by_cases hk' : k0 == k'
      · rw [if_pos hk', if_pos hk']
      · rw [if_neg hk', if_neg hk']
        exact ih

theorem mem_adel {β : Type} {es : List (String × β)} {k : String}
    {e : String × β} (h : e ∈ adel es k) : e ∈ es := by
  induction es with
  | nil => cases h
  | cons e0 rest ih =>
    obtain ⟨k0, v0⟩ := e0
    by_cases hk : k0 == k
    · simp only [adel, if_pos hk] at h
      exact List.mem_cons_of_mem _ h
    · simp only [adel, if_neg hk] at h
      rcases List.mem_cons.mp h with heq | hmem
      · exact heq ▸ List.mem_cons_self _ _
      · exact List.mem_cons_of_mem _ (ih hmem)

theorem mem_aset {β : Type} {es : List (String × β)} {k : String} {v : β}
    {e : String × β} (h : e ∈ aset es k v) : e = (k, v) ∨ e ∈ es := by
  induction es with
  | nil =>
    simp only [aset] at h
    rcases List.mem_cons.mp h with heq | hmem
    · exact Or.inl heq
    · cases hmem
  | cons e0 rest ih =>
    obtain ⟨k0, v0⟩ := e0
    by_cases hk : k0 == k
    · simp only [aset, if_pos hk] at h
      have hk0 : k0 = k := by simpa using hk
      rcases List.mem_cons.mp h with heq | hmem
      · exact Or.inl (by rw [heq, hk0])
      · exact Or.inr (List.mem_cons_of_mem _ hmem)
    · simp only [aset, if_neg hk] at h
      rcases List.mem_cons.mp h with heq | hmem
      · exact Or.inr (heq ▸ List.mem_cons_self _ _)
      · rcases ih hmem with h1 | h2
        · exact Or.inl h1
        · exact Or.inr (List.mem_cons_of_mem _ h2)

theorem map_fst_aset {β : Type} {es : List (String × β)} {k : String}
    {v v0 : β} (h : alookup es k = some v0) :
    (aset es k v).map Prod.fst = es.map Prod.fst := by
  induction es with
  | nil => simp [alookup, List.find?] at h
  | cons e rest ih =>
    obtain ⟨k0, w⟩ := e
    rw [alookup_cons] at h
    by_cases hk : k0 == k
    · simp only [aset, if_pos hk, List.map_cons]
    · rw [if_neg hk] at h
      simp only [aset, if_neg hk, List.map_cons]
      rw [ih h]

theorem nodup_adel {β : Type} {es : List (String × β)} {k : String}
    (h : nodupStr (es.map Prod.fst) = true) :
    nodupStr ((adel es k).map Prod.fst) = true := by
  induction es with
  | nil => rfl
  | cons e rest ih =>
    obtain ⟨k0, v0⟩ := e
    simp only [List.map_cons, nodupStr, Bool.and_eq_true,
      Bool.not_eq_true'] at h
    by_cases hk : k0 == k
    · simp only [adel, if_pos hk]
      exact h.2
    · simp only [adel, if_neg hk, List.map_cons, nodupStr, Bool.and_eq_true,
        Bool.not_eq_true']
      refine ⟨?_, ih h.2⟩
      by_contra hany
      rw [Bool.not_eq_false, List.any_eq_true] at hany
      obtain ⟨k2, hk2, hbe⟩ := hany
      obtain ⟨e2, he2, rfl⟩ := List.mem_map.mp hk2
      have : (rest.map Prod.fst).any (fun k2 => k2 == k0) = true :=
        List.any_eq_true.mpr ⟨e2.1, List.mem_map.mpr ⟨e2, mem_adel he2, rfl⟩, hbe⟩
      rw [h.1] at this
      cases this

theorem wfEntries_iff {es : List (String × JSON)} :
    wfEntries es = true ↔ ∀ e ∈ es, wfJSON e.2 = true := by
  induction es with
  | nil => simp [wfEntries]
  | cons e rest ih =>
    obtain ⟨k, v⟩ := e
    simp [wfEntries, ih]

theorem wfList_iff {xs : List JSON} :
    wfList xs = true ↔ ∀ x ∈ xs, wfJSON x = true := by
  induction xs with
  | nil => simp [wfList]
  | cons x rest ih => simp [wfList, ih]

theorem noVCPEntries_iff {es : List (String × JSON)} :
    noVCPEntries es = true ↔
      ∀ e ∈ es, ¬ e.1 = "vCardParams" ∧ noVCP e.2 = true := by
  induction es with
  | nil => simp [noVCPEntries]
  | cons e rest ih =>
    obtain ⟨k, v⟩ := e
    simp [noVCPEntries, ih, and_assoc]

theorem noVCPList_iff {xs : List JSON} :
    noVCPList xs = true ↔ ∀ x ∈ xs, noVCP x = true := by
  induction xs with
  | nil => simp [noVCPList]
  | cons x rest ih => simp [noVCPList, ih]

theorem noVCP_lookup {es : List (String × JSON)}
    (h : noVCPEntries es = true) : alookup es "vCardParams" = none := by
  refine alookup_none_of_no_key es ?_
  rw [List.any_eq_false]
  intro k2 hk2
  obtain ⟨e, he, rfl⟩ := List.mem_map.mp hk2
  have := (noVCPEntries_iff.mp h e he).1
  simpa using this

theorem pyEq_obj_scalar {es : List (String × JSON)} {d : JSON}
    (h : scalarSB d = true) : pyEq (.obj es) d = false := by
  cases d <;> simp [scalarSB] at h <;> rfl

theorem pyEq_arr_scalar {xs : List JSON} {d : JSON}
    (h : scalarSB d = true) : pyEq (.arr xs) d = false := by
  cases d <;> simp [scalarSB] at h <;> rfl

theorem pyEq_null_scalar {d : JSON} (h : scalarSB d = true) :
    pyEq .null d = false := by
  cases d <;> simp [scalarSB] at h <;> rfl

theorem wfEntries_value {es : List (String × JSON)} {k : String} {v : JSON}
    (hwf : wfEntries es = true) (h : alookup es k = some v) :
    wfJSON v = true :=
  wfEntries_iff.mp hwf (k, v) (alookup_mem h)

theorem subJ_null_right {b : JSON} (h : subJ b .null = true) : b = .null := by
  cases b <;> simp [subJ] at h <;> rfl

theorem subJ_bool_right {b : JSON} {x : Bool} (h : subJ b (.bool x) = true) :
    b = .bool x := by
  cases b <;> simp [subJ] at h
  rw [h]

theorem subJ_num_right {b : JSON} {x : Int} (h : subJ b (.num x) = true) :
    b = .num x := by
  cases b <;> simp [subJ] at h
  rw [h]

theorem subJ_str_right {b : JSON} {x : String} (h : subJ b (.str x) = true) :
    b = .str x := by
  cases b <;> simp [subJ] at h
  rw [h]

theorem subJ_obj_right {b : JSON} {es' : List (String × JSON)}
    (h : subJ b (.obj es') = true) :
    ∃ es, b = .obj es ∧ subEntries es es' = true := by
  cases b <;> simp [subJ] at h
  exact ⟨_, rfl, h⟩

theorem subJ_arr_right {b : JSON} {xs' : List JSON}
    (h : subJ b (.arr xs') = true) :
    ∃ xs, b = .arr xs ∧ subElems xs xs' = true := by
  cases b <;> simp [subJ] at h
  exact ⟨_, rfl, h⟩

theorem subEntries_mem {es es' : List (String × JSON)} {k : String}
    {v' : JSON} (h : subEntries es es' = true) (hm : (k, v') ∈ es') :
    ∃ v, alookup es k = some v ∧ subJ v v' = true := by
  induction es' with
  | nil => cases hm
  | cons e rest ih =>
    obtain ⟨k0, w'⟩ := e
    simp only [subEntries, Bool.and_eq_true] at h
    obtain ⟨hhead, htail⟩ := h
    rcases List.mem_cons.mp hm with heq | hmem
    · injection heq with h1 h2
      subst h1; subst h2
      cases hlk : alookup es k with
      | none => rw [hlk] at hhead; cases hhead
      | some v =>
        rw [hlk] at hhead
        exact ⟨v, rfl, hhead⟩
    · exact ih htail hmem

theorem subElems_mem {xs xs' : List JSON} {x' : JSON}
    (h : subElems xs xs' = true) (hm : x' ∈ xs') :
    ∃ x ∈ xs, subJ x x' = true := by
  induction xs' with
  | nil => cases hm
  | cons y rest ih =>
    simp only [subElems, Bool.and_eq_true] at h
    obtain ⟨hhead, htail⟩ := h
    rcases List.mem_cons.mp hm with heq | hmem
    · subst heq
      obtain ⟨x, hx, hs⟩ := List.any_eq_true.mp hhead
      exact ⟨x, hx, hs⟩
    · exact ih htail hmem

theorem subEntries_of_forall {es es' : List (String × JSON)}
    (h : ∀ k v', (k, v') ∈ es' → ∃ v, alookup es k = some v ∧ subJ v v' = true) :
    subEntries es es' = true := by
  induction es' with
  | nil => rfl
  | cons e rest ih =>
    obtain ⟨k0, w'⟩ := e
    simp only [subEntries, Bool.and_eq_true]
    obtain ⟨v, hlk, hs⟩ := h k0 w' (List.mem_cons_self _ _)
    refine ⟨?_, ih (fun k v' hm => h k v' (List.mem_cons_of_mem _ hm))⟩
    rw [hlk]
    exact hs

theorem subElems_of_forall {xs xs' : List JSON}
    (h : ∀ x' ∈ xs', ∃ x ∈ xs, subJ x x' = true) : subElems xs xs' = true := by
  induction xs' with
  | nil => rfl
  | cons y rest ih =>
    simp only [subElems, Bool.and_eq_true]
    obtain ⟨x, hx, hs⟩ := h y (List.mem_cons_self _ _)
    exact ⟨List.any_eq_true.mpr ⟨x, hx, hs⟩,
      ih (fun x' hm => h x' (List.mem_cons_of_mem _ hm))⟩

mutual
theorem subJ_refl : ∀ j : JSON, wfJSON j = true → subJ j j = true
  | .null, _ => rfl
  | .bool _, _ => by simp [subJ]
  | .num _, _ => by simp [subJ]
  | .str _, _ => by simp [subJ]
  | .arr xs, h => by
    simp only [subJ]
    exact subElemsAll xs xs (by simpa [wfJSON] using h) (fun x hx => hx)
  | .obj es, h => by
    simp only [subJ]
    simp only [wfJSON, Bool.and_eq_true] at h
    exact subEntriesAll es es h.2 (fun k v hm => alookup_of_mem_nodup h.1 hm)

theorem subEntriesAll : ∀ (es rest : List (String × JSON)),
    wfEntries rest = true →
    (∀ k v, (k, v) ∈ rest → alookup es k = some v) →
    subEntries es rest = true
  | _, [], _, _ => rfl
  | es, (k, v) :: rest, hwf, hlk => by
    simp only [subEntries, Bool.and_eq_true]
    simp only [wfEntries, Bool.and_eq_true] at hwf
    constructor
    · rw [hlk k v (List.mem_cons_self _ _)]
      exact subJ_refl v hwf.1
    · exact subEntriesAll es rest hwf.2
        (fun k2 v2 hm => hlk k2 v2 (List.mem_cons_of_mem _ hm))

theorem subElemsAll : ∀ (xs rest : List JSON),
    wfList rest = true → (∀ x ∈ rest, x ∈ xs) → subElems xs rest = true
  | _, [], _, _ => rfl
  | xs, x :: rest, hwf, hm => by
    simp only [subElems, Bool.and_eq_true]
    simp only [wfList, Bool.and_eq_true] at hwf
    constructor
    · exact List.any_eq_true.mpr ⟨x, hm x (List.mem_cons_self _ _),
        subJ_refl x hwf.1⟩
    · exact subElemsAll xs rest hwf.2 (fun y hy => hm y (List.mem_cons_of_mem _ hy))
end

mutual
theorem subJ_trans : ∀ (c a b : JSON), subJ a b = true → subJ b c = true →
    subJ a c = true
  | .null, _, _, h1, h2 => by
    obtain rfl := subJ_null_right h2
    obtain rfl := subJ_null_right h1
    rfl
  | .bool _, _, _, h1, h2 => by
    obtain rfl := subJ_bool_right h2
    obtain rfl := subJ_bool_right h1
    simp [subJ]
  | .num _, _, _, h1, h2 => by
    obtain rfl := subJ_num_right h2
    obtain rfl := subJ_num_right h1
    simp [subJ]
  | .str _, _, _, h1, h2 => by
    obtain rfl := subJ_str_right h2
    obtain rfl := subJ_str_right h1
    simp [subJ]
  | .arr xs3, _, _, h1, h2 => by
    obtain ⟨xs2, rfl, hE2⟩ := subJ_arr_right h2
    obtain ⟨xs1, rfl, hE1⟩ := subJ_arr_right h1
    simp only [subJ]
    exact subElems_trans xs3 xs1 xs2 hE1 hE2
  | .obj es3, _, _, h1, h2 => by
    obtain ⟨es2, rfl, hE2⟩ := subJ_obj_right h2
    obtain ⟨es1, rfl, hE1⟩ := subJ_obj_right h1
    simp only [subJ]
    exact subEntries_trans es3 es1 es2 hE1 hE2

theorem subEntries_trans : ∀ (es3 es1 es2 : List (String × JSON)),
    subEntries es1 es2 = true → subEntries es2 es3 = true →
    subEntries es1 es3 = true
  | [], _, _, _, _ => rfl
  | (k, v3) :: rest3, es1, es2, h1, h2 => by
    simp only [subEntries, Bool.and_eq_true] at h2 ⊢
    obtain ⟨hhead, htail⟩ := h2
    refine ⟨?_, subEntries_trans rest3 es1 es2 h1 htail⟩
    cases hlk2 : alookup es2 k with
    | none => rw [hlk2] at hhead; cases hhead
    | some v2 =>
      rw [hlk2] at hhead
      obtain ⟨v1, hlk1, hsub1⟩ := subEntries_mem h1 (alookup_mem hlk2)
      rw [hlk1]
      exact subJ_trans v3 v1 v2 hsub1 hhead

theorem subElems_trans : ∀ (xs3 xs1 xs2 : List JSON),
    subElems xs1 xs2 = true → subElems xs2 xs3 = true → subElems xs1 xs3 = true
  | [], _, _, _, _ => rfl
  | x3 :: rest3, xs1, xs2, h1, h2 => by
    simp only [subElems, Bool.and_eq_true] at h2 ⊢
    obtain ⟨hhead, htail⟩ := h2
    refine ⟨?_, subElems_trans rest3 xs1 xs2 h1 htail⟩
    obtain ⟨x2, hx2, hsub2⟩ := List.any_eq_true.mp hhead
    obtain ⟨x1, hx1, hsub1⟩ := subElems_mem h1 hx2
    exact List.any_eq_true.mpr ⟨x1, hx1, subJ_trans x3 x1 x2 hsub1 hsub2⟩
end

theorem sub_alookup_none {es es' : List (String × JSON)} {k : String}
    (hE : subEntries es es' = true) (h : alookup es k = none) :
    alookup es' k = none := by
  cases hlk : alookup es' k with
  | none => rfl
  | some v' =>
    obtain ⟨v, hl, _⟩ := subEntries_mem hE (alookup_mem hlk)
    rw [h] at hl
    cases hl

mutual
theorem sub_noVCP : ∀ (j' j : JSON), subJ j j' = true → noVCP j = true →
    noVCP j' = true
  | .obj es', _, h, hn => by
    obtain ⟨es, rfl, hE⟩ := subJ_obj_right h
    simp only [noVCP] at hn ⊢
    exact subEntries_noVCP es' es hE hn
  | .arr xs', _, h, hn => by
    obtain ⟨xs, rfl, hE⟩ := subJ_arr_right h
    simp only [noVCP] at hn ⊢
    exact subElems_noVCP xs' xs hE hn
  | .null, _, _, _ => rfl
  | .bool _, _, _, _ => rfl
  | .num _, _, _, _ => rfl
  | .str _, _, _, _ => rfl

theorem subEntries_noVCP : ∀ (es' es : List (String × JSON)),
    subEntries es es' = true → noVCPEntries es = true →
    noVCPEntries es' = true
  | [], _, _, _ => rfl
  | (k, v') :: rest', es, h, hn => by
    simp only [subEntries, Bool.and_eq_true] at h
    obtain ⟨hhead, htail⟩ := h
    cases hlk : alookup es k with
    | none => rw [hlk] at hhead; cases hhead
    | some v =>
      rw [hlk] at hhead
      have hk := noVCPEntries_iff.mp hn (k, v) (alookup_mem hlk)
      simp only [noVCPEntries, Bool.and_eq_true]
      exact ⟨⟨by simp [hk.1], sub_noVCP v' v hhead hk.2⟩,
        subEntries_noVCP rest' es htail hn⟩

theorem subElems_noVCP : ∀ (xs' xs : List JSON),
    subElems xs xs' = true → noVCPList xs = true → noVCPList xs' = true
  | [], _, _, _ => rfl
  | x' :: rest', xs, h, hn => by
    simp only [subElems, Bool.and_eq_true] at h
    obtain ⟨hhead, htail⟩ := h
    obtain ⟨x, hx, hsub⟩ := List.any_eq_true.mp hhead
    simp only [noVCPList, Bool.and_eq_true]
    exact ⟨sub_noVCP x' x hsub (noVCPList_iff.mp hn x hx),
      subElems_noVCP rest' xs htail hn⟩
end

theorem rdvChars_id {sub : List String} :
    ∀ cs : List Char,
      cs.all (fun _ => rdvCharResult sub == Except.ok ()) = true →
      rdvChars sub cs = .ok () := by
  intro cs h
  induction cs with
  | nil => rfl
  | cons c rest ih =>
    rw [List.all_cons, Bool.and_eq_true] at h
    have h1 : rdvCharResult sub = .ok () := by simpa using h.1
    simp only [rdvChars, h1]
    exact ih h.2

theorem rdvEntries_id {sub : List String} {d : JSON}
    (IH : ∀ j, rdvFixed sub j d = true → remove_defaultval sub j d = .ok j) :
    ∀ es : List (String × JSON),
      es.all (fun e => rdvFixed sub e.2 d) = true →
      rdvEntries sub es d = .ok es := by
  intro es
  induction es with
  | nil => intro _; rfl
  | cons e rest ih =>
    obtain ⟨k, v⟩ := e
    intro h
    rw [List.all_cons, Bool.and_eq_true] at h
    simp only [rdvEntries, IH v h.1, ih h.2]

theorem rdvElems_id {sub : List String} {d : JSON}
    (IH : ∀ j, rdvFixed sub j d = true → remove_defaultval sub j d = .ok j) :
    ∀ xs : List JSON,
      xs.all (fun x => rdvFixed sub x d) = true →
      rdvElems sub xs d = .ok xs := by
  intro xs
  induction xs with
  | nil => intro _; rfl
  | cons x rest ih =>
    intro h
    rw [List.all_cons, Bool.and_eq_true] at h
    simp only [rdvElems, IH x h.1, ih h.2]

theorem rdvDescend_id {sub : List String} {name : String} {d : JSON}
    (IH : ∀ j, rdvFixed sub j d = true → remove_defaultval sub j d = .ok j) :
    ∀ es : List (String × JSON),
      (∀ v, alookup es name = some v → rdvFixed sub v d = true) →
      rdvDescend sub name es d = .ok es := by
  intro es
  induction es with
  | nil => intro _; rfl
  | cons e rest ih =>
    obtain ⟨k, v⟩ := e
    intro h
    by_cases hk : k == name
    · have hv : rdvFixed sub v d = true :=
        h v (by rw [alookup_cons, if_pos hk])
      simp only [rdvDescend, if_pos hk, IH v hv]
    · simp only [rdvDescend, if_neg hk]
      rw [ih (fun v2 hv2 => h v2 (by rw [alookup_cons, if_neg hk]; exact hv2))]

theorem rdvFixed_id : ∀ (p : List String) (d j : JSON),
    rdvFixed p j d = true → remove_defaultval p j d = .ok j := by
  intro p
  induction p with
  | nil => intro d j _; simp [remove_defaultval]
  | cons name sub IH =>
    intro d j h
    simp only [rdvFixed] at h
    by_cases ht : pyTruthy j
    · rw [if_neg (not_not_intro ht)] at h
      by_cases hstar : name = "*" ∧ sub ≠ []
      · rw [if_pos hstar] at h
        cases j with
        | obj es =>
          have h' : es.all (fun e => rdvFixed sub e.2 d) = true := h
          simp only [remove_defaultval]
          rw [if_neg (not_not_intro ht), if_pos hstar,
            rdvEntries_id (IH d) es h']
          rfl
        | arr xs =>
          have h' : xs.all (fun x => rdvFixed sub x d) = true := h
          simp only [remove_defaultval]
          rw [if_neg (not_not_intro ht), if_pos hstar,
            rdvElems_id (IH d) xs h']
          rfl
        | str s =>
          have h' : s.data.all
              (fun _ => rdvCharResult sub == Except.ok ()) = true := h
          simp only [remove_defaultval]
          rw [if_neg (not_not_intro ht), if_pos hstar, rdvChars_id s.data h']
          rfl
        | null => exact absurd h (by simp)
        | bool b => exact absurd h (by simp)
        | num n => exact absurd h (by simp)
      · rw [if_neg hstar] at h
        by_cases hsub : sub ≠ []
        · rw [if_pos hsub] at h
          cases j with
          | obj es =>
            have h' : (match alookup es name with
                       | some v => rdvFixed sub v d
                       | none => true) = true := h
            simp only [remove_defaultval]
            rw [if_neg (not_not_intro ht), if_neg hstar, if_pos hsub]
            rw [rdvDescend_id (IH d) es ?_]
            · rfl
            · intro v hv
              rw [hv] at h'
              exact h'
          | null => exact absurd h (by simp)
          | bool b => exact absurd h (by simp)
          | num n => exact absurd h (by simp)
          | str s => exact absurd h (by simp)
          | arr xs => exact absurd h (by simp)
        · rw [if_neg hsub] at h
          cases j with
          | obj es =>
            have h' : (match alookup es name with
                       | some v => !pyEq v d
                       | none => !pyEq .null d) = true := h
            simp only [remove_defaultval]
            rw [if_neg (not_not_intro ht), if_neg hstar, if_neg hsub]
            cases hlk : alookup es name with
            | some v =>
              rw [hlk] at h'
              show (if pyEq v d then Except.ok (JSON.obj (adel es name))
                    else .ok (.obj es)) = .ok (.obj es)
              have h3 : (!pyEq v d) = true := h'
              rw [if_neg (by simp at h3; simp [h3])]
            | none =>
              rw [hlk] at h'
              show (if pyEq JSON.null d
                    then (Except.error PyErr.keyError : Except PyErr JSON)
                    else .ok (.obj es)) = .ok (.obj es)
              have h3 : (!pyEq JSON.null d) = true := h'
              rw [if_neg (by simp at h3; simp [h3])]
          | null => exact absurd h (by simp)
          | bool b => exact absurd h (by simp)
          | num n => exact absurd h (by simp)
          | str s => exact absurd h (by simp)
          | arr xs => exact absurd h (by simp)
    · cases j with
      | obj es => simp only [remove_defaultval]; rw [if_pos ht]
      | arr xs => simp only [remove_defaultval]; rw [if_pos ht]
      | str s => simp only [remove_defaultval]; rw [if_pos ht]
      | null => simp only [remove_defaultval]; rw [if_pos ht]
      | bool b => simp only [remove_defaultval]; rw [if_pos ht]
      | num n => simp only [remove_defaultval]; rw [if_pos ht]

theorem rdvChars_inv {sub : List String} {u : Unit} :
    ∀ cs : List Char, rdvChars sub cs = .ok u →
      cs.all (fun _ => rdvCharResult sub == Except.ok ()) = true := by
  intro cs h
  induction cs with
  | nil => rfl
  | cons c rest ih =>
    have h' : (match rdvCharResult sub with
               | .error e => (.error e : Except PyErr Unit)
               | .ok _ => rdvChars sub rest) = .ok u := h
    rw [List.all_cons, Bool.and_eq_true]
    cases hc : rdvCharResult sub with
    | error e =>
      rw [hc] at h'
      cases h'
    | ok u' =>
      cases u'
      constructor
      · simp
      · exact List.all_eq_true.mpr (fun x hx => by simp)

theorem rdvEntries_seed {sub : List String} {d : JSON}
    (IH : ∀ j j', wfJSON j = true → remove_defaultval sub j d = .ok j' →
      wfJSON j' = true ∧ rdvFixed sub j' d = true) :
    ∀ (es es' : List (String × JSON)), wfEntries es = true →
      rdvEntries sub es d = .ok es' →
      es'.map Prod.fst = es.map Prod.fst ∧ wfEntries es' = true ∧
        es'.all (fun e => rdvFixed sub e.2 d) = true := by
  intro es
  induction es with
  | nil =>
    intro es' _ h
    injection h with h'
    subst h'
    exact ⟨rfl, rfl, rfl⟩
  | cons e rest ih =>
    obtain ⟨k, v⟩ := e
    intro es' hwf h
    simp only [wfEntries, Bool.and_eq_true] at hwf
    simp only [rdvEntries] at h
    cases hv : remove_defaultval sub v d with
    | error e0 => rw [hv] at h; cases h
    | ok v' =>
      rw [hv] at h
      cases hr : rdvEntries sub rest d with
      | error e0 => rw [hr] at h; cases h
      | ok rest' =>
        rw [hr] at h
        injection h with h'
        subst h'
        obtain ⟨hwv, hfv⟩ := IH v v' hwf.1 hv
        obtain ⟨hmap, hwr, hfr⟩ := ih rest' hwf.2 hr
        refine ⟨by simp [hmap], ?_, ?_⟩
        · simp only [wfEntries, Bool.and_eq_true]
          exact ⟨hwv, hwr⟩
        · rw [List.all_cons, Bool.and_eq_true]
          exact ⟨hfv, hfr⟩

theorem rdvElems_seed {sub : List String} {d : JSON}
    (IH : ∀ j j', wfJSON j = true → remove_defaultval sub j d = .ok j' →
      wfJSON j' = true ∧ rdvFixed sub j' d = true) :
    ∀ (xs xs' : List JSON), wfList xs = true →
      rdvElems sub xs d = .ok xs' →
      wfList xs' = true ∧ xs'.all (fun x => rdvFixed sub x d) = true := by
  intro xs
  induction xs with
  | nil =>
    intro xs' _ h
    injection h with h'
    subst h'
    exact ⟨rfl, rfl⟩
  | cons x rest ih =>
    intro xs' hwf h
    simp only [wfList, Bool.and_eq_true] at hwf
    simp only [rdvElems] at h
    cases hx : remove_defaultval sub x d with
    | error e0 => rw [hx] at h; cases h
    | ok x' =>
      rw [hx] at h
      cases hr : rdvElems sub rest d with
      | error e0 => rw [hr] at h; cases h
      | ok rest' =>
        rw [hr] at h
        injection h with h'
        subst h'
        obtain ⟨hwx, hfx⟩ := IH x x' hwf.1 hx
        obtain ⟨hwr, hfr⟩ := ih rest' hwf.2 hr
        refine ⟨?_, ?_⟩
        · simp only [wfList, Bool.and_eq_true]
          exact ⟨hwx, hwr⟩
        · rw [List.all_cons, Bool.and_eq_true]
          exact ⟨hfx, hfr⟩

theorem rdvDescend_seed {sub : List String} {name : String} {d : JSON}
    (IH : ∀ j j', wfJSON j = true → remove_defaultval sub j d = .ok j' →
      wfJSON j' = true ∧ rdvFixed sub j' d = true) :
    ∀ (es es' : List (String × JSON)), wfEntries es = true →
      rdvDescend sub name es d = .ok es' →
      es'.map Prod.fst = es.map Prod.fst ∧ wfEntries es' = true ∧
        (∀ v', alookup es' name = some v' → rdvFixed sub v' d = true) := by
  intro es
  induction es with
  | nil =>
    intro es' _ h
    injection h with h'
    subst h'
    refine ⟨rfl, rfl, ?_⟩
    intro v' hv'
    cases hv'
  | cons e rest ih =>
    obtain ⟨k, v⟩ := e
    intro es' hwf h
    simp only [wfEntries, Bool.and_eq_true] at hwf
    by_cases hk : k == name
    · simp only [rdvDescend, if_pos hk] at h
      cases hv : remove_defaultval sub v d with
      | error e0 => rw [hv] at h; cases h
      | ok v' =>
        rw [hv] at h
        injection h with h'
        subst h'
        obtain ⟨hwv, hfv⟩ := IH v v' hwf.1 hv
        refine ⟨rfl, ?_, ?_⟩
        · simp only [wfEntries, Bool.and_eq_true]
          exact ⟨hwv, hwf.2⟩
        · intro v'' hv''
          rw [alookup_cons, if_pos hk] at hv''
          injection hv'' with h2
          subst h2
          exact hfv
    · simp only [rdvDescend, if_neg hk] at h
      cases hr : rdvDescend sub name rest d with
      | error e0 => rw [hr] at h; cases h
      | ok rest' =>
        rw [hr] at h
        injection h with h'
        subst h'
        obtain ⟨hmap, hwr, hlk⟩ := ih rest' hwf.2 hr
        refine ⟨by simp [hmap], ?_, ?_⟩
        · simp only [wfEntries, Bool.and_eq_true]
          exact ⟨hwf.1, hwr⟩
        · intro v'' hv''
          rw [alookup_cons, if_neg hk] at hv''
          exact hlk v'' hv''

theorem rdv_seed : ∀ (p : List String) (d : JSON), scalarSB d = true →
    ∀ j j', wfJSON j = true → remove_defaultval p j d = .ok j' →
    wfJSON j' = true ∧ rdvFixed p j' d = true := by
  intro p
  induction p with
  | nil =>
    intro d _ j j' hwf h
    have h' : (Except.ok j : Except PyErr JSON) = .ok j' := by
      rw [← h]
      simp [remove_defaultval]
    injection h' with h2
    subst h2
    exact ⟨hwf, rfl⟩
  | cons name sub IH =>
    intro d hd j j' hwf h
    by_cases ht : pyTruthy j
    · by_cases hstar : name = "*" ∧ sub ≠ []
      · cases j with
        | obj es =>
          simp only [remove_defaultval] at h
          rw [if_neg (not_not_intro ht), if_pos hstar] at h
          cases he : rdvEntries sub es d with
          | error e0 => rw [he] at h; cases h
          | ok es' =>
            rw [he] at h
            injection h with h2
            subst h2
            simp only [wfJSON, Bool.and_eq_true] at hwf
            obtain ⟨hmap, hwf', hall⟩ := rdvEntries_seed (IH d hd) es es' hwf.2 he
            refine ⟨?_, ?_⟩
            · simp only [wfJSON, Bool.and_eq_true, hmap]
              exact ⟨hwf.1, hwf'⟩
            · simp only [rdvFixed]
              by_cases ht2 : pyTruthy (JSON.obj es')
              · rw [if_neg (not_not_intro ht2), if_pos hstar]
                exact hall
              · rw [if_pos ht2]
        | arr xs =>
          simp only [remove_defaultval] at h
          rw [if_neg (not_not_intro ht), if_pos hstar] at h
          cases he : rdvElems sub xs d with
          | error e0 => rw [he] at h; cases h
          | ok xs' =>
            rw [he] at h
            injection h with h2
            subst h2
            obtain ⟨hwf', hall⟩ := rdvElems_seed (IH d hd) xs xs' hwf he
            refine ⟨hwf', ?_⟩
            simp only [rdvFixed]
            by_cases ht2 : pyTruthy (JSON.arr xs')
            · rw [if_neg (not_not_intro ht2), if_pos hstar]
              exact hall
            · rw [if_pos ht2]
        | str s =>
          simp only [remove_defaultval] at h
          rw [if_neg (not_not_intro ht), if_pos hstar] at h
          cases he : rdvChars sub s.data with
          | error e0 => rw [he] at h; cases h
          | ok u =>
            rw [he] at h
            injection h with h2
            subst h2
            refine ⟨rfl, ?_⟩
            simp only [rdvFixed]
            rw [if_neg (not_not_intro ht), if_pos hstar]
            exact rdvChars_inv s.data he
        | null => exact absurd ht (by simp [pyTruthy])
        | bool b =>
          simp only [remove_defaultval] at h
          rw [if_neg (not_not_intro ht), if_pos hstar] at h
          cases h
        | num n =>
          simp only [remove_defaultval] at h
          rw [if_neg (not_not_intro ht), if_pos hstar] at h
          cases h
      · by_cases hsub : sub ≠ []
        · cases j with
          | obj es =>
            simp only [remove_defaultval] at h
            rw [if_neg (not_not_intro ht), if_neg hstar, if_pos hsub] at h
            cases he : rdvDescend sub name es d with
            | error e0 => rw [he] at h; cases h
            | ok es' =>
              rw [he] at h
              injection h with h2
              subst h2
              simp only [wfJSON, Bool.and_eq_true] at hwf
              obtain ⟨hmap, hwf', hlk⟩ := rdvDescend_seed (IH d hd) es es' hwf.2 he
              refine ⟨?_, ?_⟩
              · simp only [wfJSON, Bool.and_eq_true, hmap]
                exact ⟨hwf.1, hwf'⟩
              · simp only [rdvFixed]
                by_cases ht2 : pyTruthy (JSON.obj es')
                · rw [if_neg (not_not_intro ht2), if_neg hstar, if_pos hsub]
                  cases hlk' : alookup es' name with
                  | some v' => exact hlk v' hlk'
                  | none => rfl
                · rw [if_pos ht2]
          | null => exact absurd ht (by simp [pyTruthy])
          | bool b =>
            simp only [remove_defaultval] at h
            rw [if_neg (not_not_intro ht), if_neg hstar, if_pos hsub] at h
            cases h
          | num n =>
            simp only [remove_defaultval] at h
            rw [if_neg (not_not_intro ht), if_neg hstar, if_pos hsub] at h
            cases h
          | str s =>
            simp only [remove_defaultval] at h
            rw [if_neg (not_not_intro ht), if_neg hstar, if_pos hsub] at h
            cases h
          | arr xs =>
            simp only [remove_defaultval] at h
            rw [if_neg (not_not_intro ht), if_neg hstar, if_pos hsub] at h
            cases h
        · cases j with
          | obj es =>
            simp only [wfJSON, Bool.and_eq_true] at hwf
            simp only [remove_defaultval] at h
            rw [if_neg (not_not_intro ht), if_neg hstar, if_neg hsub] at h
            cases hlk : alookup es name with
            | some v =>
              rw [hlk] at h
              have h9 : (if pyEq v d then Except.ok (JSON.obj (adel es name))
                  else .ok (.obj es)) = .ok j' := h
              by_cases hpe : pyEq v d
              · rw [if_pos hpe] at h9
                injection h9 with h2
                subst h2
                refine ⟨?_, ?_⟩
                · simp only [wfJSON, Bool.and_eq_true]
                  refine ⟨nodup_adel hwf.1, ?_⟩
                  rw [wfEntries_iff]
                  intro e he2
                  exact wfEntries_iff.mp hwf.2 e (mem_adel he2)
                · simp only [rdvFixed]
                  by_cases ht2 : pyTruthy (JSON.obj (adel es name))
                  · rw [if_neg (not_not_intro ht2), if_neg hstar, if_neg hsub]
                    rw [alookup_adel_self hwf.1]
                    simp [pyEq_null_scalar hd]
                  · rw [if_pos ht2]
              · rw [if_neg hpe] at h9
                injection h9 with h2
                subst h2
                refine ⟨by simp only [wfJSON, Bool.and_eq_true]; exact hwf, ?_⟩
                simp only [rdvFixed]
                rw [if_neg (not_not_intro ht), if_neg hstar, if_neg hsub, hlk]
                simp at hpe
                simp [hpe]
            | none =>
              rw [hlk] at h
              have h9 : (if pyEq JSON.null d
                  then (Except.error PyErr.keyError : Except PyErr JSON)
                  else .ok (.obj es)) = .ok j' := h
              rw [if_neg (by simp [pyEq_null_scalar hd])] at h9
              injection h9 with h2
              subst h2
              refine ⟨by simp only [wfJSON, Bool.and_eq_true]; exact hwf, ?_⟩
              simp only [rdvFixed]
              rw [if_neg (not_not_intro ht), if_neg hstar, if_neg hsub, hlk]
              simp [pyEq_null_scalar hd]
          | null => exact absurd ht (by simp [pyTruthy])
          | bool b =>
            simp only [remove_defaultval] at h
            rw [if_neg (not_not_intro ht), if_neg hstar, if_neg hsub] at h
            cases h
          | num n =>
            simp only [remove_defaultval] at h
            rw [if_neg (not_not_intro ht), if_neg hstar, if_neg hsub] at h
            cases h
          | str s =>
            simp only [remove_defaultval] at h
            rw [if_neg (not_not_intro ht), if_neg hstar, if_neg hsub] at h
            cases h
          | arr xs =>
            simp only [remove_defaultval] at h
            rw [if_neg (not_not_intro ht), if_neg hstar, if_neg hsub] at h
            cases h
    · cases j with
      | obj es =>
        simp only [remove_defaultval] at h
        rw [if_pos ht] at h
        injection h with h2
        subst h2
        refine ⟨hwf, ?_⟩
        simp only [rdvFixed]
        rw [if_pos ht]
      | arr xs =>
        simp only [remove_defaultval] at h
        rw [if_pos ht] at h
        injection h with h2
        subst h2
        refine ⟨hwf, ?_⟩
        simp only [rdvFixed]
        rw [if_pos ht]
      | str s =>
        simp only [remove_defaultval] at h
        rw [if_pos ht] at h
        injection h with h2
        subst h2
        refine ⟨hwf, ?_⟩
        simp only [rdvFixed]
        rw [if_pos ht]
      | null =>
        simp only [remove_defaultval] at h
        rw [if_pos ht] at h
        injection h with h2
        subst h2
        refine ⟨hwf, ?_⟩
        simp only [rdvFixed]
        rw [if_pos ht]
      | bool b =>
        simp only [remove_defaultval] at h
        rw [if_pos ht] at h
        injection h with h2
        subst h2
        refine ⟨hwf, ?_⟩
        simp only [rdvFixed]
        rw [if_pos ht]
      | num n =>
        simp only [remove_defaultval] at h
        rw [if_pos ht] at h
        injection h with h2
        subst h2
        refine ⟨hwf, ?_⟩
        simp only [rdvFixed]
        rw [if_pos ht]

theorem rdvEntries_sub {sub : List String} {d : JSON}
    (IHs : ∀ j j', wfJSON j = true → remove_defaultval sub j d = .ok j' →
      subJ j j' = true) :
    ∀ (es0 es es' : List (String × JSON)),
      (∀ k v, (k, v) ∈ es → alookup es0 k = some v) → wfEntries es = true →
      rdvEntries sub es d = .ok es' →
      ∀ k v', (k, v') ∈ es' →
        ∃ v, alookup es0 k = some v ∧ subJ v v' = true := by
  intro es0 es
  induction es with
  | nil =>
    intro es' _ _ h k v' hm
    injection h with h'
    subst h'
    cases hm
  | cons e rest ih =>
    obtain ⟨k0, v0⟩ := e
    intro es' hlk0 hwf h k v' hm
    simp only [wfEntries, Bool.and_eq_true] at hwf
    simp only [rdvEntries] at h
    cases hv : remove_defaultval sub v0 d with
    | error e0 => rw [hv] at h; cases h
    | ok w =>
      rw [hv] at h
      cases hr : rdvEntries sub rest d with
      | error e0 => rw [hr] at h; cases h
      | ok rest' =>
        rw [hr] at h
        injection h with h'
        subst h'
        rcases List.mem_cons.mp hm with heq | hmem
        · injection heq with h1 h2
          subst h1; subst h2
          exact ⟨v0, hlk0 k v0 (List.mem_cons_self _ _), IHs v0 v' hwf.1 hv⟩
        · exact ih rest' (fun k2 v2 hm2 => hlk0 k2 v2 (List.mem_cons_of_mem _ hm2))
            hwf.2 hr k v' hmem

theorem rdvElems_sub {sub : List String} {d : JSON}
    (IHs : ∀ j j', wfJSON j = true → remove_defaultval sub j d = .ok j' →
      subJ j j' = true) :
    ∀ (xs xs' : List JSON), wfList xs = true → rdvElems sub xs d = .ok xs' →
      ∀ x' ∈ xs', ∃ x ∈ xs, subJ x x' = true := by
  intro xs
  induction xs with
  | nil =>
    intro xs' _ h x' hm
    injection h with h'
    subst h'
    cases hm
  | cons x rest ih =>
    intro xs' hwf h x' hm
    simp only [wfList, Bool.and_eq_true] at hwf
    simp only [rdvElems] at h
    cases hx : remove_defaultval sub x d with
    | error e0 => rw [hx] at h; cases h
    | ok w =>
      rw [hx] at h
      cases hr : rdvElems sub rest d with
      | error e0 => rw [hr] at h; cases h
      | ok rest' =>
        rw [hr] at h
        injection h with h'
        subst h'
        rcases List.mem_cons.mp hm with heq | hmem
        · subst heq
          exact ⟨x, List.mem_cons_self _ _, IHs x x' hwf.1 hx⟩
        · obtain ⟨y, hy, hs⟩ := ih rest' hwf.2 hr x' hmem
          exact ⟨y, List.mem_cons_of_mem _ hy, hs⟩

theorem rdvDescend_sub {sub : List String} {name : String} {d : JSON}
    (IHs : ∀ j j', wfJSON j = true → remove_defaultval sub j d = .ok j' →
      subJ j j' = true) :
    ∀ (es0 es es' : List (String × JSON)),
      (∀ k v, (k, v) ∈ es → alookup es0 k = some v) → wfEntries es = true →
      rdvDescend sub name es d = .ok es' →
      ∀ k v', (k, v') ∈ es' →
        ∃ v, alookup es0 k = some v ∧ subJ v v' = true := by
  intro es0 es
  induction es with
  | nil =>
    intro es' _ _ h k v' hm
    injection h with h'
    subst h'
    cases hm
  | cons e rest ih =>
    obtain ⟨k0, v0⟩ := e
    intro es' hlk0 hwf h k v' hm
    simp only [wfEntries, Bool.and_eq_true] at hwf
    by_cases hk : k0 == name
    · simp only [rdvDescend, if_pos hk] at h
      cases hv : remove_defaultval sub v0 d with
      | error e0 => rw [hv] at h; cases h
      | ok w =>
        rw [hv] at h
        injection h with h'
        subst h'
        rcases List.mem_cons.mp hm with heq | hmem
        · injection heq with h1 h2
          subst h1; subst h2
          exact ⟨v0, hlk0 k v0 (List.mem_cons_self _ _), IHs v0 v' hwf.1 hv⟩
        · refine ⟨v', hlk0 k v' (List.mem_cons_of_mem _ hmem), ?_⟩
          exact subJ_refl v' (wfEntries_iff.mp hwf.2 (k, v') hmem)
    · simp only [rdvDescend, if_neg hk] at h
      cases hr : rdvDescend sub name rest d with
      | error e0 => rw [hr] at h; cases h
      | ok rest' =>
        rw [hr] at h
        injection h with h'
        subst h'
        rcases List.mem_cons.mp hm with heq | hmem
        · injection heq with h1 h2
          subst h1; subst h2
          exact ⟨v', hlk0 k v' (List.mem_cons_self _ _), subJ_refl v' hwf.1⟩
        · exact ih rest' (fun k2 v2 hm2 => hlk0 k2 v2 (List.mem_cons_of_mem _ hm2))
            hwf.2 hr k v' hmem

theorem rdv_sub : ∀ (p : List String) (d j j' : JSON), wfJSON j = true →
    remove_defaultval p j d = .ok j' → subJ j j' = true := by
  intro p
  induction p with
  | nil =>
    intro d j j' hwf h
    have h' : (Except.ok j : Except PyErr JSON) = .ok j' := by
      rw [← h]
      simp [remove_defaultval]
    injection h' with h2
    subst h2
    exact subJ_refl j hwf
  | cons name sub IH =>
    intro d j j' hwf h
    by_cases ht : pyTruthy j
    · by_cases hstar : name = "*" ∧ sub ≠ []
      · cases j with
        | obj es =>
          simp only [remove_defaultval] at h
          rw [if_neg (not_not_intro ht), if_pos hstar] at h
          cases he : rdvEntries sub es d with
          | error e0 => rw [he] at h; cases h
          | ok es' =>
            rw [he] at h
            injection h with h2
            subst h2
            simp only [wfJSON, Bool.and_eq_true] at hwf
            show subEntries es es' = true
            exact subEntries_of_forall (fun k v' hm =>
              rdvEntries_sub (IH d) es es es'
                (fun k2 v2 hm2 => alookup_of_mem_nodup hwf.1 hm2) hwf.2 he k v' hm)
        | arr xs =>
          simp only [remove_defaultval] at h
          rw [if_neg (not_not_intro ht), if_pos hstar] at h
          cases he : rdvElems sub xs d with
          | error e0 => rw [he] at h; cases h
          | ok xs' =>
            rw [he] at h
            injection h with h2
            subst h2
            show subElems xs xs' = true
            exact subElems_of_forall (rdvElems_sub (IH d) xs xs' hwf he)
        | str s =>
          simp only [remove_defaultval] at h
          rw [if_neg (not_not_intro ht), if_pos hstar] at h
          cases he : rdvChars sub s.data with
          | error e0 => rw [he] at h; cases h
          | ok u =>
            rw [he] at h
            injection h with h2
            subst h2
            simp [subJ]
        | null => exact absurd ht (by simp [pyTruthy])
        | bool b =>
          simp only [remove_defaultval] at h
          rw [if_neg (not_not_intro ht), if_pos hstar] at h
          cases h
        | num n =>
          simp only [remove_defaultval] at h
          rw [if_neg (not_not_intro ht), if_pos hstar] at h
          cases h
      · by_cases hsub : sub ≠ []
        · cases j with
          | obj es =>
            simp only [remove_defaultval] at h
            rw [if_neg (not_not_intro ht), if_neg hstar, if_pos hsub] at h
            cases he : rdvDescend sub name es d with
            | error e0 => rw [he] at h; cases h
            | ok es' =>
              rw [he] at h
              injection h with h2
              subst h2
              simp only [wfJSON, Bool.and_eq_true] at hwf
              show subEntries es es' = true
              exact subEntries_of_forall (fun k v' hm =>
                rdvDescend_sub (IH d) es es es'
                  (fun k2 v2 hm2 => alookup_of_mem_nodup hwf.1 hm2) hwf.2 he k v' hm)
          | null => exact absurd ht (by simp [pyTruthy])
          | bool b =>
            simp only [remove_defaultval] at h
            rw [if_neg (not_not_intro ht), if_neg hstar, if_pos hsub] at h
            cases h
          | num n =>
            simp only [remove_defaultval] at h
            rw [if_neg (not_not_intro ht), if_neg hstar, if_pos hsub] at h
            cases h
          | str s =>
            simp only [remove_defaultval] at h
            rw [if_neg (not_not_intro ht), if_neg hstar, if_pos hsub] at h
            cases h
          | arr xs =>
            simp only [remove_defaultval] at h
            rw [if_neg (not_not_intro ht), if_neg hstar, if_pos hsub] at h
            cases h
        · cases j with
          | obj es =>
            simp only [wfJSON, Bool.and_eq_true] at hwf
            simp only [remove_defaultval] at h
            rw [if_neg (not_not_intro ht), if_neg hstar, if_neg hsub] at h
            cases hlk : alookup es name with
            | some v =>
              rw [hlk] at h
              have h9 : (if pyEq v d then Except.ok (JSON.obj (adel es name))
                  else .ok (.obj es)) = .ok j' := h
              by_cases hpe : pyEq v d
              · rw [if_pos hpe] at h9
                injection h9 with h2
                subst h2
                show subEntries es (adel es name) = true
                refine subEntries_of_forall ?_
                intro k v' hm
                refine ⟨v', alookup_of_mem_nodup hwf.1 (mem_adel hm), ?_⟩
                exact subJ_refl v' (wfEntries_iff.mp hwf.2 (k, v') (mem_adel hm))
              · rw [if_neg hpe] at h9
                injection h9 with h2
                subst h2
                exact subJ_refl _ (by simp only [wfJSON, Bool.and_eq_true]; exact hwf)
            | none =>
              rw [hlk] at h
              have h9 : (if pyEq JSON.null d
                  then (Except.error PyErr.keyError : Except PyErr JSON)
                  else .ok (.obj es)) = .ok j' := h
              by_cases hpn : pyEq JSON.null d
              · rw [if_pos hpn] at h9
                cases h9
              · rw [if_neg hpn] at h9
                injection h9 with h2
                subst h2
                exact subJ_refl _ (by simp only [wfJSON, Bool.and_eq_true]; exact hwf)
          | null => exact absurd ht (by simp [pyTruthy])
          | bool b =>
            simp only [remove_defaultval] at h
            rw [if_neg (not_not_intro ht), if_neg hstar, if_neg hsub] at h
            cases h
          | num n =>
            simp only [remove_defaultval] at h
            rw [if_neg (not_not_intro ht), if_neg hstar, if_neg hsub] at h
            cases h
          | str s =>
            simp only [remove_defaultval] at h
            rw [if_neg (not_not_intro ht), if_neg hstar, if_neg hsub] at h
            cases h
          | arr xs =>
            simp only [remove_defaultval] at h
            rw [if_neg (not_not_intro ht), if_neg hstar, if_neg hsub] at h
            cases h
    · cases j with
      | obj es =>
        simp only [remove_defaultval] at h
        rw [if_pos ht] at h
        injection h with h2
        subst h2
        exact subJ_refl _ hwf
      | arr xs =>
        simp only [remove_defaultval] at h
        rw [if_pos ht] at h
        injection h with h2
        subst h2
        exact subJ_refl _ hwf
      | str s =>
        simp only [remove_defaultval] at h
        rw [if_pos ht] at h
        injection h with h2
        subst h2
        exact subJ_refl _ hwf
      | null =>
        simp only [remove_defaultval] at h
        rw [if_pos ht] at h
        injection h with h2
        subst h2
        exact subJ_refl _ hwf
      | bool b =>
        simp only [remove_defaultval] at h
        rw [if_pos ht] at h
        injection h with h2
        subst h2
        exact subJ_refl _ hwf
      | num n =>
        simp only [remove_defaultval] at h
        rw [if_pos ht] at h
        injection h with h2
        subst h2
        exact subJ_refl _ hwf

theorem sub_preserve : ∀ (p : List String) (d : JSON), scalarSB d = true →
    ∀ (j' j : JSON), wfJSON j = true → subJ j j' = true →
    rdvFixed p j d = true → rdvFixed p j' d = true := by
  intro p
  induction p with
  | nil => intro d _ j' j _ _ _; rfl
  | cons name sub IH =>
    intro d hd j' j hwf hsub hfix
    simp only [rdvFixed]
    by_cases ht2 : pyTruthy j'
    case neg => rw [if_pos ht2]
    case pos =>
    rw [if_neg (not_not_intro ht2)]
    by_cases hstar : name = "*" ∧ sub ≠ []
    · rw [if_pos hstar]
      cases j' with
      | obj es' =>
        obtain ⟨es, rfl, hE⟩ := subJ_obj_right hsub
        simp only [wfJSON, Bool.and_eq_true] at hwf
        show es'.all (fun e => rdvFixed sub e.2 d) = true
        rw [List.all_eq_true]
        intro e' he'
        obtain ⟨k, v'⟩ := e'
        obtain ⟨v, hlk, hsv⟩ := subEntries_mem hE he'
        have hte : pyTruthy (JSON.obj es) = true := by
          cases es with
          | nil => cases hlk
          | cons e0 r => simp [pyTruthy]
        simp only [rdvFixed] at hfix
        rw [if_neg (not_not_intro hte), if_pos hstar] at hfix
        have hfix' : es.all (fun e => rdvFixed sub e.2 d) = true := hfix
        have hv_mem := alookup_mem hlk
        have hfv := List.all_eq_true.mp hfix' (k, v) hv_mem
        exact IH d hd v' v (wfEntries_iff.mp hwf.2 (k, v) hv_mem) hsv hfv
      | arr xs' =>
        obtain ⟨xs, rfl, hE⟩ := subJ_arr_right hsub
        simp only [wfJSON] at hwf
        show xs'.all (fun x => rdvFixed sub x d) = true
        rw [List.all_eq_true]
        intro x' hx'
        obtain ⟨x, hx, hsx⟩ := subElems_mem hE hx'
        have hte : pyTruthy (JSON.arr xs) = true := by
          cases xs with
          | nil => cases hx
          | cons y r => simp [pyTruthy]
        simp only [rdvFixed] at hfix
        rw [if_neg (not_not_intro hte), if_pos hstar] at hfix
        have hfix' : xs.all (fun x => rdvFixed sub x d) = true := hfix
        exact IH d hd x' x (wfList_iff.mp hwf x hx) hsx
          (List.all_eq_true.mp hfix' x hx)
      | str s' =>
        obtain rfl := subJ_str_right hsub
        simp only [rdvFixed] at hfix
        rw [if_neg (not_not_intro ht2), if_pos hstar] at hfix
        exact hfix
      | null => exact absurd ht2 (by simp [pyTruthy])
      | bool b =>
        obtain rfl := subJ_bool_right hsub
        simp only [rdvFixed] at hfix
        rw [if_neg (not_not_intro ht2), if_pos hstar] at hfix
        exact hfix
      | num n =>
        obtain rfl := subJ_num_right hsub
        simp only [rdvFixed] at hfix
        rw [if_neg (not_not_intro ht2), if_pos hstar] at hfix
        exact hfix
    · rw [if_neg hstar]
      by_cases hsubne : sub ≠ []
      · rw [if_pos hsubne]
        cases j' with
        | obj es' =>
          obtain ⟨es, rfl, hE⟩ := subJ_obj_right hsub
          simp only [wfJSON, Bool.and_eq_true] at hwf
          show (match alookup es' name with
                | some v => rdvFixed sub v d
                | none => true) = true
          cases hlk' : alookup es' name with
          | none => rfl
          | some v' =>
            obtain ⟨v, hlk, hsv⟩ := subEntries_mem hE (alookup_mem hlk')
            have hte : pyTruthy (JSON.obj es) = true := by
              cases es with
              | nil => cases hlk
              | cons e0 r => simp [pyTruthy]
            simp only [rdvFixed] at hfix
            rw [if_neg (not_not_intro hte), if_neg hstar, if_pos hsubne] at hfix
            have hfix' : (match alookup es name with
                          | some v => rdvFixed sub v d
                          | none => true) = true := hfix
            rw [hlk] at hfix'
            exact IH d hd v' v (wfEntries_value hwf.2 hlk) hsv hfix'
        | arr xs' =>
          obtain ⟨xs, rfl, hE⟩ := subJ_arr_right hsub
          exfalso
          have hxe : ∃ x', x' ∈ xs' := by
            cases xs' with
            | nil => exact absurd ht2 (by simp [pyTruthy])
            | cons y r => exact ⟨y, List.mem_cons_self _ _⟩
          obtain ⟨x', hx'⟩ := hxe
          obtain ⟨x, hx, _⟩ := subElems_mem hE hx'
          have hte : pyTruthy (JSON.arr xs) = true := by
            cases xs with
            | nil => cases hx
            | cons y r => simp [pyTruthy]
          simp only [rdvFixed] at hfix
          rw [if_neg (not_not_intro hte), if_neg hstar, if_pos hsubne] at hfix
          exact absurd hfix (by simp)
        | str s' =>
          obtain rfl := subJ_str_right hsub
          exfalso
          simp only [rdvFixed] at hfix
          rw [if_neg (not_not_intro ht2), if_neg hstar, if_pos hsubne] at hfix
          exact absurd hfix (by simp)
        | null => exact absurd ht2 (by simp [pyTruthy])
        | bool b =>
          obtain rfl := subJ_bool_right hsub
          exfalso
          simp only [rdvFixed] at hfix
          rw [if_neg (not_not_intro ht2), if_neg hstar, if_pos hsubne] at hfix
          exact absurd hfix (by simp)
        | num n =>
          obtain rfl := subJ_num_right hsub
          exfalso
          simp only [rdvFixed] at hfix
          rw [if_neg (not_not_intro ht2), if_neg hstar, if_pos hsubne] at hfix
          exact absurd hfix (by simp)
      · rw [if_neg hsubne]
        cases j' with
        | obj es' =>
          obtain ⟨es, rfl, hE⟩ := subJ_obj_right hsub
          simp only [wfJSON, Bool.and_eq_true] at hwf
          show (match alookup es' name with
                | some v => !pyEq v d
                | none => !pyEq .null d) = true
          cases hlk' : alookup es' name with
          | none => simp [pyEq_null_scalar hd]
          | some v' =>
            obtain ⟨v, hlk, hsv⟩ := subEntries_mem hE (alookup_mem hlk')
            have hte : pyTruthy (JSON.obj es) = true := by
              cases es with
              | nil => cases hlk
              | cons e0 r => simp [pyTruthy]
            simp only [rdvFixed] at hfix
            rw [if_neg (not_not_intro hte), if_neg hstar, if_neg hsubne] at hfix
            have hfix' : (match alookup es name with
                          | some v => !pyEq v d
                          | none => !pyEq .null d) = true := hfix
            rw [hlk] at hfix'
            cases v' with
            | obj es2 => simp [pyEq_obj_scalar hd]
            | arr xs2 => simp [pyEq_arr_scalar hd]
            | null => simp [pyEq_null_scalar hd]
            | bool b =>
              obtain rfl := subJ_bool_right hsv
              exact hfix'
            | num n =>
              obtain rfl := subJ_num_right hsv
              exact hfix'
            | str s2 =>
              obtain rfl := subJ_str_right hsv
              exact hfix'
        | arr xs' =>
          obtain ⟨xs, rfl, hE⟩ := subJ_arr_right hsub
          exfalso
          have hxe : ∃ x', x' ∈ xs' := by
            cases xs' with
            | nil => exact absurd ht2 (by simp [pyTruthy])
            | cons y r => exact ⟨y, List.mem_cons_self _ _⟩
          obtain ⟨x', hx'⟩ := hxe
          obtain ⟨x, hx, _⟩ := subElems_mem hE hx'
          have hte : pyTruthy (JSON.arr xs) = true := by
            cases xs with
            | nil => cases hx
            | cons y r => simp [pyTruthy]
          simp only [rdvFixed] at hfix
          rw [if_neg (not_not_intro hte), if_neg hstar, if_neg hsubne] at hfix
          exact absurd hfix (by simp)
        | str s' =>
          obtain rfl := subJ_str_right hsub
          exfalso
          simp only [rdvFixed] at hfix
          rw [if_neg (not_not_intro ht2), if_neg hstar, if_neg hsubne] at hfix
          exact absurd hfix (by simp)
        | null => exact absurd ht2 (by simp [pyTruthy])
        | bool b =>
          obtain rfl := subJ_bool_right hsub
          exfalso
          simp only [rdvFixed] at hfix
          rw [if_neg (not_not_intro ht2), if_neg hstar, if_neg hsubne] at hfix
          exact absurd hfix (by simp)
        | num n =>
          obtain rfl := subJ_num_right hsub
          exfalso
          simp only [rdvFixed] at hfix
          rw [if_neg (not_not_intro ht2), if_neg hstar, if_neg hsubne] at hfix
          exact absurd hfix (by simp)

theorem rdvTable_main : ∀ (entries : List (List String × JSON)) (j j' : JSON),
    wfJSON j = true → (∀ pd ∈ entries, scalarSB pd.2 = true) →
    rdvTable entries j = .ok j' →
    wfJSON j' = true ∧ subJ j j' = true ∧
      ∀ pd ∈ entries, rdvFixed pd.1 j' pd.2 = true := by
  intro entries
  induction entries with
  | nil =>
    intro j j' hwf _ h
    injection h with h'
    subst h'
    exact ⟨hwf, subJ_refl j hwf, fun pd hm => absurd hm (List.not_mem_nil pd)⟩
  | cons pd0 rest ih =>
    obtain ⟨p0, d0⟩ := pd0
    intro j j' hwf hsc h
    simp only [rdvTable] at h
    cases h1 : remove_defaultval p0 j d0 with
    | error e0 => rw [h1] at h; cases h
    | ok j1 =>
      rw [h1] at h
      have hd0 : scalarSB d0 = true := hsc (p0, d0) (List.mem_cons_self _ _)
      obtain ⟨hwf1, hfix1⟩ := rdv_seed p0 d0 hd0 j j1 hwf h1
      have hsub1 := rdv_sub p0 d0 j j1 hwf h1
      obtain ⟨hwf', hsub', hfix'⟩ := ih j1 j' hwf1
        (fun pd hm => hsc pd (List.mem_cons_of_mem _ hm)) h
      refine ⟨hwf', subJ_trans j' j j1 hsub1 hsub', ?_⟩
      intro pd hm
      rcases List.mem_cons.mp hm with heq | hmem
      · subst heq
        exact sub_preserve p0 d0 hd0 j' j1 hwf1 hsub' hfix1
      · exact hfix' pd hmem

theorem rdvTable_id : ∀ (entries : List (List String × JSON)) (j : JSON),
    (∀ pd ∈ entries, rdvFixed pd.1 j pd.2 = true) →
    rdvTable entries j = .ok j := by
  intro entries
  induction entries with
  | nil => intro j _; rfl
  | cons pd0 rest ih =>
    obtain ⟨p0, d0⟩ := pd0
    intro j h
    simp only [rdvTable]
    rw [rdvFixed_id p0 d0 j (h (p0, d0) (List.mem_cons_self _ _))]
    exact ih j (fun pd hm => h pd (List.mem_cons_of_mem _ hm))

theorem defaults_scalar : ∀ pd ∈ default_values, scalarSB pd.2 = true := by
  intro pd hm
  exact List.all_eq_true.mp
    (by decide : default_values.all (fun pd => scalarSB pd.2) = true) pd hm

theorem defaults_heads : ∀ pd ∈ default_values,
    (match pd.1 with
     | [] => false
     | n :: _ => !(n == "vCardProps") && !(n == "*")
          && !(n == "localizations")) = true := by
  intro pd hm
  exact List.all_eq_true.mp
    (by decide : default_values.all (fun pd =>
      (match pd.1 with
       | [] => false
       | n :: _ => !(n == "vCardProps") && !(n == "*")
            && !(n == "localizations"))) = true) pd hm

theorem rdvFixed_of_agree {name : String} {sub : List String} {d : JSON}
    (hd : scalarSB d = true) (hns : ¬ (name = "*" ∧ sub ≠ []))
    {es es' : List (String × JSON)}
    (hagree : alookup es' name = alookup es name)
    (hfix : rdvFixed (name :: sub) (.obj es) d = true) :
    rdvFixed (name :: sub) (.obj es') d = true := by
  simp only [rdvFixed]
  by_cases ht2 : pyTruthy (JSON.obj es')
  · rw [if_neg (not_not_intro ht2), if_neg hns]
    by_cases hsubne : sub ≠ []
    · rw [if_pos hsubne]
      show (match alookup es' name with
            | some v => rdvFixed sub v d
            | none => true) = true
      rw [hagree]
      cases hlk : alookup es name with
      | none => rfl
      | some v =>
        have hte : pyTruthy (JSON.obj es) = true := by
          cases es with
          | nil => cases hlk
          | cons e r => simp [pyTruthy]
        simp only [rdvFixed] at hfix
        rw [if_neg (not_not_intro hte), if_neg hns, if_pos hsubne] at hfix
        have hfix' : (match alookup es name with
                      | some v => rdvFixed sub v d
                      | none => true) = true := hfix
        rw [hlk] at hfix'
        exact hfix'
    · rw [if_neg hsubne]
      show (match alookup es' name with
            | some v => !pyEq v d
            | none => !pyEq .null d) = true
      rw [hagree]
      cases hlk : alookup es name with
      | none => simp [pyEq_null_scalar hd]
      | some v =>
        have hte : pyTruthy (JSON.obj es) = true := by
          cases es with
          | nil => cases hlk
          | cons e r => simp [pyTruthy]
        simp only [rdvFixed] at hfix
        rw [if_neg (not_not_intro hte), if_neg hns, if_neg hsubne] at hfix
        have hfix' : (match alookup es name with
                      | some v => !pyEq v d
                      | none => !pyEq .null d) = true := hfix
        rw [hlk] at hfix'
        exact hfix'
  · rw [if_pos ht2]

theorem sortByDumps_perm (xs : List JSON) : List.Perm (sortByDumps xs) xs :=
  List.perm_insertionSort _ xs

theorem sortByDumps_idem (xs : List JSON) :
    sortByDumps (sortByDumps xs) = sortByDumps xs :=
  List.Sorted.insertionSort_eq (List.sorted_insertionSort _ xs)

theorem suc_fix {v v' : JSON} (h : sort_unordered_components v = .ok v') :
    sort_unordered_components v' = .ok v' := by
  cases v with
  | obj es =>
    simp only [sort_unordered_components] at h
    by_cases hio : pyTruthy ((alookup es "isOrdered").getD (.bool false))
    · rw [if_neg (not_not_intro hio)] at h
      injection h with h'
      subst h'
      simp only [sort_unordered_components]
      rw [if_neg (not_not_intro hio)]
    · rw [if_pos hio] at h
      cases hc : alookup es "components" with
      | none =>
        rw [hc] at h
        injection h with h'
        subst h'
        simp only [sort_unordered_components]
        rw [if_pos hio, hc]
      | some comps =>
        simp only [hc] at h
        by_cases htc : pyTruthy comps
        · rw [if_pos htc] at h
          cases comps with
          | arr xs =>
            injection h with h'
            subst h'
            have hagree : alookup (aset es "components" (JSON.arr (sortByDumps xs)))
                "isOrdered" = alookup es "isOrdered" :=
              alookup_aset_ne (by decide)
            have hcomp : alookup (aset es "components" (JSON.arr (sortByDumps xs)))
                "components" = some (.arr (sortByDumps xs)) :=
              alookup_aset_self _ _ _
            have hne : xs ≠ [] := by
              intro hx
              subst hx
              simp [pyTruthy] at htc
            have hne2 : sortByDumps xs ≠ [] := by
              intro hx
              have hlen := (sortByDumps_perm xs).length_eq
              rw [hx] at hlen
              exact hne (List.length_eq_zero.mp hlen.symm)
            have hts : pyTruthy (.arr (sortByDumps xs)) = true := by
              cases hsx : sortByDumps xs with
              | nil => exact absurd hsx hne2
              | cons a t => simp [pyTruthy]
            simp only [sort_unordered_components, hagree, hcomp]
            rw [if_pos hio, if_pos hts]
            show Except.ok (JSON.obj (aset
                (aset es "components" (JSON.arr (sortByDumps xs)))
                "components" (JSON.arr (sortByDumps (sortByDumps xs))))) = _
            rw [sortByDumps_idem, aset_self hcomp]
          | null => cases h
          | bool b => cases h
          | num n => cases h
          | str s2 => cases h
          | obj es2 => cases h
        · rw [if_neg htc] at h
          injection h with h'
          subst h'
          simp only [sort_unordered_components, hc]
          rw [if_pos hio, if_neg htc]
  | null => cases h
  | bool b => cases h
  | num n => cases h
  | str s2 => cases h
  | arr xs => cases h

theorem suc_wf {v v' : JSON} (hwf : wfJSON v = true)
    (h : sort_unordered_components v = .ok v') : wfJSON v' = true := by
  cases v with
  | obj es =>
    simp only [sort_unordered_components] at h
    simp only [wfJSON, Bool.and_eq_true] at hwf
    by_cases hio : pyTruthy ((alookup es "isOrdered").getD (.bool false))
    · rw [if_neg (not_not_intro hio)] at h
      injection h with h'
      subst h'
      simp only [wfJSON, Bool.and_eq_true]
      exact hwf
    · rw [if_pos hio] at h
      cases hc : alookup es "components" with
      | none =>
        rw [hc] at h
        injection h with h'
        subst h'
        simp only [wfJSON, Bool.and_eq_true]
        exact hwf
      | some comps =>
        simp only [hc] at h
        by_cases htc : pyTruthy comps
        · rw [if_pos htc] at h
          cases comps with
          | arr xs =>
            injection h with h'
            subst h'
            simp only [wfJSON, Bool.and_eq_true]
            refine ⟨by rw [map_fst_aset hc]; exact hwf.1, ?_⟩
            rw [wfEntries_iff]
            intro e hm
            rcases mem_aset hm with heq | hmem
            · subst heq
              show wfJSON (JSON.arr (sortByDumps xs)) = true
              have hxs : wfJSON (JSON.arr xs) = true := wfEntries_value hwf.2 hc
              simp only [wfJSON] at hxs ⊢
              rw [wfList_iff]
              intro x hx
              exact wfList_iff.mp hxs x ((sortByDumps_perm xs).mem_iff.mp hx)
            · exact wfEntries_iff.mp hwf.2 e hmem
          | null => cases h
          | bool b => cases h
          | num n => cases h
          | str s2 => cases h
          | obj es2 => cases h
        · rw [if_neg htc] at h
          injection h with h'
          subst h'
          simp only [wfJSON, Bool.and_eq_true]
          exact hwf
  | null => cases h
  | bool b => cases h
  | num n => cases h
  | str s2 => cases h
  | arr xs => cases h

theorem subJ_aset {es : List (String × JSON)} {k : String} {v v' : JSON}
    (hnd : nodupStr (es.map Prod.fst) = true) (hwe : wfEntries es = true)
    (hlk : alookup es k = some v) (hs : subJ v v' = true) :
    subEntries es (aset es k v') = true := by
  refine subEntries_of_forall ?_
  intro k2 w hm
  rcases mem_aset hm with heq | hmem
  · injection heq with h1 h2
    subst h1; subst h2
    exact ⟨v, hlk, hs⟩
  · exact ⟨w, alookup_of_mem_nodup hnd hmem,
      subJ_refl w (wfEntries_iff.mp hwe (k2, w) hmem)⟩

theorem suc_sub {v v' : JSON} (hwf : wfJSON v = true)
    (h : sort_unordered_components v = .ok v') : subJ v v' = true := by
  cases v with
  | obj es =>
    simp only [sort_unordered_components] at h
    simp only [wfJSON, Bool.and_eq_true] at hwf
    by_cases hio : pyTruthy ((alookup es "isOrdered").getD (.bool false))
    · rw [if_neg (not_not_intro hio)] at h
      injection h with h'
      subst h'
      exact subJ_refl _ (by simp only [wfJSON, Bool.and_eq_true]; exact hwf)
    · rw [if_pos hio] at h
      cases hc : alookup es "components" with
      | none =>
        rw [hc] at h
        injection h with h'
        subst h'
        exact subJ_refl _ (by simp only [wfJSON, Bool.and_eq_true]; exact hwf)
      | some comps =>
        simp only [hc] at h
        by_cases htc : pyTruthy comps
        · rw [if_pos htc] at h
          cases comps with
          | arr xs =>
            injection h with h'
            subst h'
            show subEntries es (aset es "components"
              (JSON.arr (sortByDumps xs))) = true
            refine subJ_aset hwf.1 hwf.2 hc ?_
            show subElems xs (sortByDumps xs) = true
            refine subElems_of_forall ?_
            intro x' hx'
            have hxs : wfJSON (JSON.arr xs) = true := wfEntries_value hwf.2 hc
            simp only [wfJSON] at hxs
            have hmem := (sortByDumps_perm xs).mem_iff.mp hx'
            exact ⟨x', hmem, subJ_refl x' (wfList_iff.mp hxs x' hmem)⟩
          | null => cases h
          | bool b => cases h
          | num n => cases h
          | str s2 => cases h
          | obj es2 => cases h
        · rw [if_neg htc] at h
          injection h with h'
          subst h'
          exact subJ_refl _ (by simp only [wfJSON, Bool.and_eq_true]; exact hwf)
  | null => cases h
  | bool b => cases h
  | num n => cases h
  | str s2 => cases h
  | arr xs => cases h

theorem mee_fix {f : JSON → Except PyErr JSON}
    (hf : ∀ v v', f v = .ok v' → f v' = .ok v') :
    ∀ (es es' : List (String × JSON)), mapEntriesExcept f es = .ok es' →
      mapEntriesExcept f es' = .ok es' := by
  intro es
  induction es with
  | nil =>
    intro es' h
    injection h with h'
    subst h'
    rfl
  | cons e rest ih =>
    obtain ⟨k, v⟩ := e
    intro es' h
    simp only [mapEntriesExcept] at h
    cases hv : f v with
    | error e0 => rw [hv] at h; cases h
    | ok v' =>
      rw [hv] at h
      cases hr : mapEntriesExcept f rest with
      | error e0 => rw [hr] at h; cases h
      | ok rest' =>
        rw [hr] at h
        injection h with h'
        subst h'
        simp only [mapEntriesExcept]
        rw [hf v v' hv, ih rest' hr]

theorem mee_map_fst {f : JSON → Except PyErr JSON} :
    ∀ (es es' : List (String × JSON)), mapEntriesExcept f es = .ok es' →
      es'.map Prod.fst = es.map Prod.fst := by
  intro es
  induction es with
  | nil =>
    intro es' h
    injection h with h'
    subst h'
    rfl
  | cons e rest ih =>
    obtain ⟨k, v⟩ := e
    intro es' h
    simp only [mapEntriesExcept] at h
    cases hv : f v with
    | error e0 => rw [hv] at h; cases h
    | ok v' =>
      rw [hv] at h
      cases hr : mapEntriesExcept f rest with
      | error e0 => rw [hr] at h; cases h
      | ok rest' =>
        rw [hr] at h
        injection h with h'
        subst h'
        simp [ih rest' hr]

theorem mee_wf {f : JSON → Except PyErr JSON}
    (hf : ∀ v v', wfJSON v = true → f v = .ok v' → wfJSON v' = true) :
    ∀ (es es' : List (String × JSON)), wfEntries es = true →
      mapEntriesExcept f es = .ok es' → wfEntries es' = true := by
  intro es
  induction es with
  | nil =>
    intro es' _ h
    injection h with h'
    subst h'
    rfl
  | cons e rest ih =>
    obtain ⟨k, v⟩ := e
    intro es' hwf h
    simp only [wfEntries, Bool.and_eq_true] at hwf
    simp only [mapEntriesExcept] at h
    cases hv : f v with
    | error e0 => rw [hv] at h; cases h
    | ok v' =>
      rw [hv] at h
      cases hr : mapEntriesExcept f rest with
      | error e0 => rw [hr] at h; cases h
      | ok rest' =>
        rw [hr] at h
        injection h with h'
        subst h'
        simp only [wfEntries, Bool.and_eq_true]
        exact ⟨hf v v' hwf.1 hv, ih rest' hwf.2 hr⟩

theorem mee_entries_sub {f : JSON → Except PyErr JSON}
    (hf : ∀ v v', wfJSON v = true → f v = .ok v' → subJ v v' = true) :
    ∀ (es0 es es' : List (String × JSON)),
      (∀ k v, (k, v) ∈ es → alookup es0 k = some v) → wfEntries es = true →
      mapEntriesExcept f es = .ok es' →
      ∀ k v', (k, v') ∈ es' →
        ∃ v, alookup es0 k = some v ∧ subJ v v' = true := by
  intro es0 es
  induction es with
  | nil =>
    intro es' _ _ h k v' hm
    injection h with h'
    subst h'
    cases hm
  | cons e rest ih =>
    obtain ⟨k0, v0⟩ := e
    intro es' hlk0 hwf h k v' hm
    simp only [wfEntries, Bool.and_eq_true] at hwf
    simp only [mapEntriesExcept] at h
    cases hv : f v0 with
    | error e0 => rw [hv] at h; cases h
    | ok w =>
      rw [hv] at h
      cases hr : mapEntriesExcept f rest with
      | error e0 => rw [hr] at h; cases h
      | ok rest' =>
        rw [hr] at h
        injection h with h'
        subst h'
        rcases List.mem_cons.mp hm with heq | hmem
        · injection heq with h1 h2
          subst h1; subst h2
          exact ⟨v0, hlk0 k v0 (List.mem_cons_self _ _), hf v0 v' hwf.1 hv⟩
        · exact ih rest' (fun k2 v2 hm2 => hlk0 k2 v2 (List.mem_cons_of_mem _ hm2))
            hwf.2 hr k v' hmem

theorem nameFixed_of_agree {es es' : List (String × JSON)}
    (hag : alookup es' "name" = alookup es "name") (h : nameFixed es) :
    nameFixed es' := by
  simp only [nameFixed] at h ⊢
  rw [hag]
  exact h

theorem addrFixed_of_agree {es es' : List (String × JSON)}
    (hag : alookup es' "addresses" = alookup es "addresses")
    (h : addrFixed es) : addrFixed es' := by
  simp only [addrFixed] at h ⊢
  rw [hag]
  exact h

theorem sortNameAddr_addr_step {esA : List (String × JSON)} {j2 : JSON}
    (hwfA : wfJSON (.obj esA) = true) (hnfA : nameFixed esA)
    (h : (match alookup esA "addresses" with
          | none => Except.ok (JSON.obj esA)
          | some (.obj addrs) =>
            match mapEntriesExcept sort_unordered_components addrs with
            | .error e => .error e
            | .ok addrs' => .ok (.obj (aset esA "addresses" (.obj addrs')))
          | some _ => .error .attributeError) = .ok j2) :
    ∃ es2, j2 = .obj es2 ∧ wfJSON (.obj es2) = true ∧
      subEntries esA es2 = true ∧ nameFixed es2 ∧ addrFixed es2 := by
  have hwfA' := hwfA
  simp only [wfJSON, Bool.and_eq_true] at hwfA'
  cases ha : alookup esA "addresses" with
  | none =>
    rw [ha] at h
    injection h with h'
    subst h'
    refine ⟨esA, rfl, hwfA, ?_, hnfA, ?_⟩
    · have := subJ_refl (JSON.obj esA) hwfA
      simpa [subJ] using this
    · simp [addrFixed, ha]
  | some av =>
    rw [ha] at h
    cases av with
    | obj addrs =>
      have h2 : (match mapEntriesExcept sort_unordered_components addrs with
                 | .error e => (.error e : Except PyErr JSON)
                 | .ok addrs' =>
                   .ok (.obj (aset esA "addresses" (.obj addrs')))) = .ok j2 := h
      cases hm : mapEntriesExcept sort_unordered_components addrs with
      | error e => rw [hm] at h2; cases h2
      | ok addrs' =>
        rw [hm] at h2
        injection h2 with h'
        subst h'
        have hwaddrs : wfJSON (JSON.obj addrs) = true :=
          wfEntries_value hwfA'.2 ha
        simp only [wfJSON, Bool.and_eq_true] at hwaddrs
        have hkeys := mee_map_fst addrs addrs' hm
        have hwf' : wfEntries addrs' = true :=
          mee_wf (fun v v' hw hs => suc_wf hw hs) addrs addrs' hwaddrs.2 hm
        have hsubaddrs : subJ (JSON.obj addrs) (JSON.obj addrs') = true := by
          show subEntries addrs addrs' = true
          refine subEntries_of_forall ?_
          intro k v' hmv
          exact mee_entries_sub (fun v v' hw hs => suc_sub hw hs) addrs addrs
            addrs' (fun k2 v2 hm2 => alookup_of_mem_nodup hwaddrs.1 hm2)
            hwaddrs.2 hm k v' hmv
        refine ⟨aset esA "addresses" (.obj addrs'), rfl, ?_, ?_, ?_, ?_⟩
        · simp only [wfJSON, Bool.and_eq_true]
          refine ⟨by rw [map_fst_aset ha]; exact hwfA'.1, ?_⟩
          rw [wfEntries_iff]
          intro e hme
          rcases mem_aset hme with heq | hmem
          · subst heq
            show wfJSON (JSON.obj addrs') = true
            simp only [wfJSON, Bool.and_eq_true]
            exact ⟨by rw [hkeys]; exact hwaddrs.1, hwf'⟩
          · exact wfEntries_iff.mp hwfA'.2 e hmem
        · exact subJ_aset hwfA'.1 hwfA'.2 ha hsubaddrs
        · exact nameFixed_of_agree (alookup_aset_ne (by decide)) hnfA
        · simp only [addrFixed, alookup_aset_self]
          exact mee_fix (fun v v' hs => suc_fix hs) addrs addrs' hm
    | null => cases h
    | bool b => cases h
    | num n => cases h
    | str s2 => cases h
    | arr xs => cases h

theorem sortNameAddr_analysis {es1 : List (String × JSON)} {j2 : JSON}
    (hwf : wfJSON (.obj es1) = true) (h : sortNameAddr (.obj es1) = .ok j2) :
    ∃ es2, j2 = .obj es2 ∧ wfJSON (.obj es2) = true ∧
      subEntries es1 es2 = true ∧ nameFixed es2 ∧ addrFixed es2 := by
  have hwf' := hwf
  simp only [wfJSON, Bool.and_eq_true] at hwf'
  simp only [sortNameAddr] at h
  cases hn : alookup es1 "name" with
  | none =>
    rw [hn] at h
    exact sortNameAddr_addr_step hwf (by simp [nameFixed, hn]) h
  | some v =>
    rw [hn] at h
    have h2 : (match (match sort_unordered_components v with
               | .error e => (.error e : Except PyErr (List (String × JSON)))
               | .ok v' => .ok (aset es1 "name" v')) with
               | .error e => (.error e : Except PyErr JSON)
               | .ok es2 =>
                 match alookup es2 "addresses" with
                 | none => Except.ok (JSON.obj es2)
                 | some (.obj addrs) =>
                   match mapEntriesExcept sort_unordered_components addrs with
                   | .error e => .error e
                   | .ok addrs' => .ok (.obj (aset es2 "addresses" (.obj addrs')))
                 | some _ => .error .attributeError) = .ok j2 := h
    cases hs : sort_unordered_components v with
    | error e => rw [hs] at h2; cases h2
    | ok v' =>
      rw [hs] at h2
      have hwv : wfJSON v = true := wfEntries_value hwf'.2 hn
      have hwfA : wfJSON (JSON.obj (aset es1 "name" v')) = true := by
        simp only [wfJSON, Bool.and_eq_true]
        refine ⟨by rw [map_fst_aset hn]; exact hwf'.1, ?_⟩
        rw [wfEntries_iff]
        intro e hme
        rcases mem_aset hme with heq | hmem
        · subst heq
          exact suc_wf hwv hs
        · exact wfEntries_iff.mp hwf'.2 e hmem
      have hnfA : nameFixed (aset es1 "name" v') := by
        simp only [nameFixed, alookup_aset_self]
        exact suc_fix hs
      obtain ⟨es2, rfl, hwf2, hsub2, hnf2, haf2⟩ :=
        sortNameAddr_addr_step hwfA hnfA h2
      refine ⟨es2, rfl, hwf2, ?_, hnf2, haf2⟩
      exact subEntries_trans es2 es1 _
        (subJ_aset hwf'.1 hwf'.2 hn (suc_sub hwv hs)) hsub2

theorem sortNameAddr_id_addr {es : List (String × JSON)} (haf : addrFixed es) :
    (match alookup es "addresses" with
     | none => Except.ok (JSON.obj es)
     | some (.obj addrs) =>
       match mapEntriesExcept sort_unordered_components addrs with
       | .error e => .error e
       | .ok addrs' => .ok (.obj (aset es "addresses" (.obj addrs')))
     | some _ => .error .attributeError) = .ok (.obj es) := by
  cases ha : alookup es "addresses" with
  | none => rfl
  | some av =>
    simp only [addrFixed, ha] at haf
    cases av with
    | obj addrs =>
      show (match mapEntriesExcept sort_unordered_components addrs with
            | .error e => (.error e : Except PyErr JSON)
            | .ok addrs' =>
              .ok (.obj (aset es "addresses" (.obj addrs')))) = .ok (.obj es)
      rw [haf]
      show Except.ok (JSON.obj (aset es "addresses" (JSON.obj addrs))) =
        .ok (.obj es)
      rw [aset_self ha]
    | null => exact haf.elim
    | bool b => exact haf.elim
    | num n => exact haf.elim
    | str s2 => exact haf.elim
    | arr xs => exact haf.elim

theorem sortNameAddr_id {es : List (String × JSON)} (hnf : nameFixed es)
    (haf : addrFixed es) : sortNameAddr (.obj es) = .ok (.obj es) := by
  simp only [sortNameAddr]
  cases hn : alookup es "name" with
  | none => exact sortNameAddr_id_addr haf
  | some v =>
    simp only [nameFixed, hn] at hnf
    show (match (match sort_unordered_components v with
          | .error e => (.error e : Except PyErr (List (String × JSON)))
          | .ok v' => .ok (aset es "name" v')) with
          | .error e => (.error e : Except PyErr JSON)
          | .ok es2 =>
            match alookup es2 "addresses" with
            | none => Except.ok (JSON.obj es2)
            | some (.obj addrs) =>
              match mapEntriesExcept sort_unordered_components addrs with
              | .error e => .error e
              | .ok addrs' => .ok (.obj (aset es2 "addresses" (.obj addrs')))
            | some _ => .error .attributeError) = .ok (.obj es)
    rw [hnf]
    show (match alookup (aset es "name" v) "addresses" with
          | none => Except.ok (JSON.obj (aset es "name" v))
          | some (.obj addrs) =>
            match mapEntriesExcept sort_unordered_components addrs with
            | .error e => .error e
            | .ok addrs' =>
              .ok (.obj (aset (aset es "name" v) "addresses" (.obj addrs')))
          | some _ => .error .attributeError) = .ok (.obj es)
    rw [aset_self hn]
    exact sortNameAddr_id_addr haf

theorem filter_mem : ∀ {items props : List JSON},
    filterVCardProps items = .ok props → ∀ x ∈ props, x ∈ items := by
  intro items
  induction items with
  | nil =>
    intro props h x hx
    injection h with h'
    subst h'
    cases hx
  | cons p rest ih =>
    intro props h x hx
    simp only [filterVCardProps] at h
    cases hp : pyGetItem0 p with
    | error e => rw [hp] at h; cases h
    | ok p0 =>
      rw [hp] at h
      cases hr : filterVCardProps rest with
      | error e => rw [hr] at h; cases h
      | ok rest' =>
        rw [hr] at h
        injection h with h'
        subst h'
        by_cases hv : pyEq p0 (.str "version") = true
        · rw [if_pos hv] at hx
          exact List.mem_cons_of_mem _ (ih hr x hx)
        · rw [if_neg hv] at hx
          rcases List.mem_cons.mp hx with heq | hmem
          · subst heq
            exact List.mem_cons_self _ _
          · exact List.mem_cons_of_mem _ (ih hr x hmem)

theorem filter_fix : ∀ {items props : List JSON},
    filterVCardProps items = .ok props → filterVCardProps props = .ok props := by
  intro items
  induction items with
  | nil =>
    intro props h
    injection h with h'
    subst h'
    rfl
  | cons p rest ih =>
    intro props h
    simp only [filterVCardProps] at h
    cases hp : pyGetItem0 p with
    | error e => rw [hp] at h; cases h
    | ok p0 =>
      rw [hp] at h
      cases hr : filterVCardProps rest with
      | error e => rw [hr] at h; cases h
      | ok rest' =>
        rw [hr] at h
        injection h with h'
        subst h'
        by_cases hv : pyEq p0 (.str "version") = true
        · rw [if_pos hv]
          exact ih hr
        · rw [if_neg hv]
          simp only [filterVCardProps, hp]
          rw [ih hr]
          simp [hv]

theorem pyIter_wf {v : JSON} {items : List JSON}
    (h : pyIter v = .ok items) (hwf : wfJSON v = true) :
    ∀ x ∈ items, wfJSON x = true := by
  cases v with
  | obj es =>
    injection h with h'
    subst h'
    intro x hx
    obtain ⟨e, _, rfl⟩ := List.mem_map.mp hx
    rfl
  | arr xs =>
    injection h with h'
    subst h'
    simp only [wfJSON] at hwf
    exact wfList_iff.mp hwf
  | str s =>
    injection h with h'
    subst h'
    intro x hx
    obtain ⟨c, _, rfl⟩ := List.mem_map.mp hx
    rfl
  | null => cases h
  | bool b => cases h
  | num n => cases h

theorem pyIter_noVCP {v : JSON} {items : List JSON}
    (h : pyIter v = .ok items) (hn : noVCP v = true) :
    ∀ x ∈ items, noVCP x = true := by
  cases v with
  | obj es =>
    injection h with h'
    subst h'
    intro x hx
    obtain ⟨e, _, rfl⟩ := List.mem_map.mp hx
    rfl
  | arr xs =>
    injection h with h'
    subst h'
    simp only [noVCP] at hn
    exact noVCPList_iff.mp hn
  | str s =>
    injection h with h'
    subst h'
    intro x hx
    obtain ⟨c, _, rfl⟩ := List.mem_map.mp hx
    rfl
  | null => cases h
  | bool b => cases h
  | num n => cases h

theorem vcardPropsStage_analysis {es2 : List (String × JSON)} {j3 : JSON}
    (hwf : wfJSON (.obj es2) = true)
    (h : vcardPropsStage (.obj es2) = .ok j3) :
    ∃ es3, j3 = .obj es3 ∧ wfJSON (.obj es3) = true ∧
      (∀ k, ¬ k = "vCardProps" → alookup es3 k = alookup es2 k) ∧
      vcardPropsStage (.obj es3) = .ok (.obj es3) ∧
      (noVCP (.obj es2) = true → noVCP (.obj es3) = true) := by
  have hwf' := hwf
  simp only [wfJSON, Bool.and_eq_true] at hwf'
  simp only [vcardPropsStage] at h
  cases hv : alookup es2 "vCardProps" with
  | none =>
    rw [hv] at h
    injection h with h'
    subst h'
    refine ⟨es2, rfl, hwf, fun k _ => rfl, ?_, fun hn => hn⟩
    simp only [vcardPropsStage]
    rw [hv]
  | some v =>
    simp only [hv] at h
    cases hi : pyIter v with
    | error e => rw [hi] at h; cases h
    | ok items =>
      simp only [hi] at h
      cases hf : filterVCardProps items with
      | error e => rw [hf] at h; cases h
      | ok props =>
        simp only [hf] at h
        by_cases hemp : props.isEmpty
        · rw [if_pos hemp] at h
          injection h with h'
          subst h'
          refine ⟨adel es2 "vCardProps", rfl, ?_, ?_, ?_, ?_⟩
          · simp only [wfJSON, Bool.and_eq_true]
            refine ⟨nodup_adel hwf'.1, ?_⟩
            rw [wfEntries_iff]
            intro e hme
            exact wfEntries_iff.mp hwf'.2 e (mem_adel hme)
          · intro k hk
            exact alookup_adel_ne hk
          · simp only [vcardPropsStage]
            rw [alookup_adel_self hwf'.1]
          · intro hn
            simp only [noVCP] at hn ⊢
            rw [noVCPEntries_iff]
            intro e hme
            exact noVCPEntries_iff.mp hn e (mem_adel hme)
        · rw [if_neg hemp] at h
          injection h with h'
          subst h'
          have hlk3 : alookup (aset es2 "vCardProps" (JSON.arr props))
              "vCardProps" = some (.arr props) := alookup_aset_self _ _ _
          refine ⟨aset es2 "vCardProps" (.arr props), rfl, ?_, ?_, ?_, ?_⟩
          · simp only [wfJSON, Bool.and_eq_true]
            refine ⟨by rw [map_fst_aset hv]; exact hwf'.1, ?_⟩
            rw [wfEntries_iff]
            intro e hme
            rcases mem_aset hme with heq | hmem
            · subst heq
              show wfJSON (JSON.arr props) = true
              simp only [wfJSON]
              rw [wfList_iff]
              intro x hx
              exact pyIter_wf hi (wfEntries_value hwf'.2 hv) x (filter_mem hf x hx)
            · exact wfEntries_iff.mp hwf'.2 e hmem
          · intro k hk
            exact alookup_aset_ne hk
          · simp only [vcardPropsStage]
            rw [hlk3]
            show (match filterVCardProps props with
                  | .error e => (.error e : Except PyErr JSON)
                  | .ok props2 =>
                    if props2.isEmpty
                    then .ok (.obj (adel (aset es2 "vCardProps"
                        (JSON.arr props)) "vCardProps"))
                    else .ok (.obj (aset (aset es2 "vCardProps"
                        (JSON.arr props)) "vCardProps" (.arr props2)))) = _
            rw [filter_fix hf]
            show (if props.isEmpty
                  then Except.ok (JSON.obj (adel (aset es2 "vCardProps"
                      (JSON.arr props)) "vCardProps"))
                  else .ok (.obj (aset (aset es2 "vCardProps"
                      (JSON.arr props)) "vCardProps" (.arr props)))) = _
            rw [if_neg hemp, aset_self hlk3]
          · intro hn
            simp only [noVCP] at hn ⊢
            rw [noVCPEntries_iff]
            intro e hme
            rcases mem_aset hme with heq | hmem
            · subst heq
              refine ⟨?_, ?_⟩
              · show ¬ "vCardProps" = "vCardParams"
                decide
              show noVCP (JSON.arr props) = true
              simp only [noVCP]
              rw [noVCPList_iff]
              intro x hx
              have hnv : noVCP v = true :=
                (noVCPEntries_iff.mp hn ("vCardProps", v) (alookup_mem hv)).2
              exact pyIter_noVCP hi hnv x (filter_mem hf x hx)
            · exact noVCPEntries_iff.mp hn e hmem

theorem nvpF_id : ∀ fuel : Nat,
    (∀ j, noVCP j = true → jsize j < fuel → nvpF fuel j = .ok j) ∧
    (∀ es, noVCPEntries es = true → jsizeEntries es < fuel →
      nvpEntriesF fuel es = .ok es) ∧
    (∀ xs, noVCPList xs = true → jsizeList xs < fuel →
      nvpElemsF fuel xs = .ok xs) := by
  intro fuel
  induction fuel with
  | zero =>
    refine ⟨?_, ?_, ?_⟩
    · intro j _ hs
      exact absurd hs (Nat.not_lt_zero _)
    · intro es _ hs
      exact absurd hs (Nat.not_lt_zero _)
    · intro xs _ hs
      exact absurd hs (Nat.not_lt_zero _)
  | succ fuel ih =>
    obtain ⟨ihj, ihe, ihl⟩ := ih
    refine ⟨?_, ?_, ?_⟩
    · intro j hn hs
      cases j with
      | obj es =>
        have hne : noVCPEntries es = true := by simpa [noVCP] using hn
        have hlk : alookup es "vCardParams" = none := noVCP_lookup hne
        have hsz : jsizeEntries es < fuel := by
          simp only [jsize] at hs
          omega
        simp only [nvpF, hlk]
        rw [ihe es hne hsz]
      | arr xs =>
        have hnl : noVCPList xs = true := by simpa [noVCP] using hn
        have hsz : jsizeList xs < fuel := by
          simp only [jsize] at hs
          omega
        simp only [nvpF]
        rw [ihl xs hnl hsz]
      | null => simp [nvpF]
      | bool b => simp [nvpF]
      | num n => simp [nvpF]
      | str s2 => simp [nvpF]
    · intro es hn hsz
      cases es with
      | nil => simp [nvpEntriesF]
      | cons e rest =>
        obtain ⟨k, v⟩ := e
        simp only [noVCPEntries, Bool.and_eq_true] at hn
        have hsz1 : jsize v < fuel := by
          simp only [jsizeEntries] at hsz
          omega
        have hsz2 : jsizeEntries rest < fuel := by
          simp only [jsizeEntries] at hsz
          omega
        simp only [nvpEntriesF]
        rw [ihj v hn.1.2 hsz1, ihe rest hn.2 hsz2]
    · intro xs hn hsz
      cases xs with
      | nil => simp [nvpElemsF]
      | cons x rest =>
        simp only [noVCPList, Bool.and_eq_true] at hn
        have hsz1 : jsize x < fuel := by
          simp only [jsizeList] at hsz
          omega
        have hsz2 : jsizeList rest < fuel := by
          simp only [jsizeList] at hsz
          omega
        simp only [nvpElemsF]
        rw [ihj x hn.1 hsz1, ihl rest hn.2 hsz2]

theorem normalize_vcardparams_id {j : JSON} (hn : noVCP j = true) :
    normalize_vcardparams j = .ok j :=
  (nvpF_id (jsize j + 1)).1 j hn (by omega)

theorem subJ_obj_left {es : List (String × JSON)} {j' : JSON}
    (h : subJ (.obj es) j' = true) :
    ∃ es', j' = .obj es' ∧ subEntries es es' = true := by
  cases j' <;> simp [subJ] at h
  exact ⟨_, rfl, h⟩

theorem stages_analysis {es0 : List (String × JSON)} {R : JSON}
    (hwf : wfJSON (.obj es0) = true) (hn : noVCP (.obj es0) = true)
    (hloc : alookup es0 "localizations" = none)
    (h : normalizeStages (.obj es0) = .ok R) :
    ∃ es3, R = .obj es3 ∧ wfJSON R = true ∧ noVCP R = true ∧
      alookup es3 "localizations" = none ∧ normalizeStages R = .ok R := by
  simp only [normalizeStages] at h
  cases h1 : rdvTable default_values (.obj es0) with
  | error e => rw [h1] at h; cases h
  | ok j1 =>
    rw [h1] at h
    obtain ⟨hwf1, hsub1, hfix1⟩ :=
      rdvTable_main default_values _ j1 hwf defaults_scalar h1
    obtain ⟨es1, rfl, hE1⟩ := subJ_obj_left hsub1
    have hnv1 : noVCP (JSON.obj es1) = true := sub_noVCP _ _ hsub1 hn
    have hloc1 : alookup es1 "localizations" = none := sub_alookup_none hE1 hloc
    have h' : (match sortNameAddr (JSON.obj es1) with
               | .error e => (.error e : Except PyErr JSON)
               | .ok j2 =>
                 match vcardPropsStage j2 with
                 | .error e => .error e
                 | .ok j3 => normalize_vcardparams j3) = .ok R := h
    cases h2 : sortNameAddr (.obj es1) with
    | error e => rw [h2] at h'; cases h'
    | ok j2 =>
      rw [h2] at h'
      obtain ⟨es2, rfl, hwf2, hE2, hnf2, haf2⟩ := sortNameAddr_analysis hwf1 h2
      have hsub2 : subJ (JSON.obj es1) (JSON.obj es2) = true := hE2
      have hnv2 : noVCP (JSON.obj es2) = true := sub_noVCP _ _ hsub2 hnv1
      have hloc2 : alookup es2 "localizations" = none := sub_alookup_none hE2 hloc1
      have hfix2 : ∀ pd ∈ default_values,
          rdvFixed pd.1 (JSON.obj es2) pd.2 = true := fun pd hm =>
        sub_preserve pd.1 pd.2 (defaults_scalar pd hm) _ _ hwf1 hsub2 (hfix1 pd hm)
      have h'' : (match vcardPropsStage (JSON.obj es2) with
                  | .error e => (.error e : Except PyErr JSON)
                  | .ok j3 => normalize_vcardparams j3) = .ok R := h'
      cases h3 : vcardPropsStage (.obj es2) with
      | error e => rw [h3] at h''; cases h''
      | ok j3 =>
        rw [h3] at h''
        obtain ⟨es3, rfl, hwf3, hagree3, hfix3stage, hnv3f⟩ :=
          vcardPropsStage_analysis hwf2 h3
        have hnv3 := hnv3f hnv2
        have hloc3 : alookup es3 "localizations" = none := by
          rw [hagree3 "localizations" (by decide)]
          exact hloc2
        have hfix3 : ∀ pd ∈ default_values,
            rdvFixed pd.1 (JSON.obj es3) pd.2 = true := by
          intro pd hm
          have hh := defaults_heads pd hm
          have hfx := hfix2 pd hm
          cases hp : pd.1 with
          | nil => rw [hp] at hh; cases hh
          | cons n t =>
            rw [hp] at hh hfx
            simp only [Bool.and_eq_true, Bool.not_eq_true',
              beq_eq_false_iff_ne, ne_eq] at hh
            exact rdvFixed_of_agree (defaults_scalar pd hm)
              (fun hc => hh.1.2 hc.1) (hagree3 n hh.1.1) hfx
        have hnf3 : nameFixed es3 :=
          nameFixed_of_agree (hagree3 "name" (by decide)) hnf2
        have haf3 : addrFixed es3 :=
          addrFixed_of_agree (hagree3 "addresses" (by decide)) haf2
        have h4 : normalize_vcardparams (JSON.obj es3) = .ok R := h''
        rw [normalize_vcardparams_id hnv3] at h4
        injection h4 with h5
        subst h5
        refine ⟨es3, rfl, hwf3, hnv3, hloc3, ?_⟩
        simp only [normalizeStages]
        rw [rdvTable_id default_values _ hfix3]
        show (match sortNameAddr (JSON.obj es3) with
              | .error e => (.error e : Except PyErr JSON)
              | .ok j2 =>
                match vcardPropsStage j2 with
                | .error e => .error e
                | .ok j3 => normalize_vcardparams j3) = .ok (.obj es3)
        rw [sortNameAddr_id hnf3 haf3]
        show (match vcardPropsStage (JSON.obj es3) with
              | .error e => (.error e : Except PyErr JSON)
              | .ok j3 => normalize_vcardparams j3) = .ok (.obj es3)
        rw [hfix3stage]
        exact normalize_vcardparams_id hnv3

theorem normalizeF_noloc {es : List (String × JSON)}
    (hloc : alookup es "localizations" = none) (fuel : Nat) :
    normalizeF (fuel + 1) (.obj es) =
      match normalizeStages (.obj es) with
      | .error e => .error e
      | .ok (.obj es5) => .ok (.obj es5)
      | .ok _ => .error .typeError := by
  simp only [normalizeF]
  rw [adel_of_none hloc, hloc]

/-- C2 is false as stated: normalization is not idempotent.  Two
counterexample families, plus the spec's own localization example
resolving differently than the spec says: (1) a second normalization
re-applies each locale's original patch to the already-resolved base, so
a card whose patch inserts a missing key normalizes differently the
second time; (2) the `vCardParams` strip runs after the
serialization-keyed component sort, so stripping can destroy the sort
order that a second pass then repairs; (3) the spec's example — base
`name.full = "A"` with locale patch `"name/full": "B"` — resolves to a
locale card still carrying `"A"`, because the patch applier never
overwrites an existing value. -/
theorem claim_C2_counterexample :
    (normalize_jscard (.obj [("a", .obj [("x", .num 1)]),
        ("localizations", .obj [("l", .obj [("a/y", .num 2)])])])).bind
        normalize_jscard ≠
      normalize_jscard (.obj [("a", .obj [("x", .num 1)]),
        ("localizations", .obj [("l", .obj [("a/y", .num 2)])])]) ∧
    (normalize_jscard (.obj [("name", .obj [("components",
        .arr [.obj [("value", .str "b")],
          .obj [("value", .str "z"),
            ("vCardParams", .obj [("group", .str "g")])]])])])).bind
        normalize_jscard ≠
      normalize_jscard (.obj [("name", .obj [("components",
        .arr [.obj [("value", .str "b")],
          .obj [("value", .str "z"),
            ("vCardParams", .obj [("group", .str "g")])]])])]) ∧
    normalize_jscard (.obj [("name", .obj [("full", .str "A")]),
        ("localizations", .obj [("x", .obj [("name/full", .str "B")])])]) =
      .ok (.obj [("name", .obj [("full", .str "A")]),
        ("localizations", .obj [("x", .obj [("name",
          .obj [("full", .str "A")])])])]) :=
  ⟨by decide, by decide, by decide⟩

/-- C2 amended: on well-formed cards (duplicate-free keys throughout)
with no top-level `localizations` key and no `vCardParams` key anywhere,
successful normalization is idempotent: if `normalize_jscard` returns a
card `R`, then normalizing `R` returns `R` again.  (The localization and
`vCardParams` exclusions are exactly the two counterexample families.) -/
theorem claim_C2_amended :
    ∀ (es0 : List (String × JSON)) (R : JSON),
      wfJSON (.obj es0) = true →
      alookup es0 "localizations" = none →
      noVCP (.obj es0) = true →
      normalize_jscard (.obj es0) = .ok R →
      normalize_jscard R = .ok R := by
  intro es0 R hwf hloc hn h
  simp only [normalize_jscard] at h
  have hfe : 2 * jsize (JSON.obj es0) + 2 =
      (2 * jsize (JSON.obj es0) + 1) + 1 := by omega
  rw [hfe, normalizeF_noloc hloc _] at h
  cases hs : normalizeStages (JSON.obj es0) with
  | error e => rw [hs] at h; cases h
  | ok r =>
    rw [hs] at h
    cases r with
    | obj es5 =>
      injection h with h4
      subst h4
      obtain ⟨es3, heq, hwfR, hnvR, hlocR, hstagesR⟩ :=
        stages_analysis hwf hn hloc hs
      rw [heq] at hstagesR ⊢
      simp only [normalize_jscard]
      have hfe2 : 2 * jsize (JSON.obj es3) + 2 =
          (2 * jsize (JSON.obj es3) + 1) + 1 := by omega
      rw [hfe2, normalizeF_noloc hlocR _, hstagesR]
    | null => cases h
    | bool b => cases h
    | num n => cases h
    | str s2 => cases h
    | arr xs => cases h

theorem claim_C2_witness :
    wfJSON (.obj [("x", JSON.num 1)]) = true ∧
    alookup [("x", JSON.num 1)] "localizations" = none ∧
    noVCP (.obj [("x", JSON.num 1)]) = true ∧
    normalize_jscard (.obj [("x", JSON.num 1)]) =
      .ok (.obj [("x", JSON.num 1)]) ∧
    normalize_jscard (.obj [("x", JSON.num 1)]) =
      .ok (.obj [("x", JSON.num 1)]) :=
  ⟨by decide, by decide, by decide, by decide,
   claim_C2_amended [("x", JSON.num 1)] (.obj [("x", JSON.num 1)])
     (by decide) (by decide) (by decide) (by decide)⟩

end JSContactTests

